import Mathlib

/-!
Shallow embedding of `volt/executor/impl_btree.py`: the per-volume binary
tree of peers (`BTreeNode`, `BTree`) and the registry (`BtreeExecutor`).

Modelling conventions:
* Peer ids are `Nat`.  `utils.generate_uuid()` is modelled by an explicit
  counter (`fresh` arguments / the executor's `next_uuid` field); a freshly
  generated id is the current counter value and the counter advances.
* The node objects live in the tree's `nodes` dictionary, modelled as an
  association list `List (Nat × BTreeNode)`; `left`, `right` and `parent`
  references are stored as peer ids into that list.  Reading a link whose id
  is no longer a key of `nodes` yields the distinguished error `danglingRef`:
  the reference-based source would instead dereference a live object that the
  mapping no longer tracks, so `danglingRef` marks the (unreachable on the
  states considered here) points where the arena model and the object model
  could part ways.
* Loops and recursion are given explicit fuel; exhausting the fuel yields the
  distinguished error `fuelOut`, which models non-termination of the source
  loop, not a Python exception.
* Python exceptions are `Err` values; a mutating operation returns its state
  paired with `Except Err α`, so the state after a raised exception is
  preserved, exactly as in the in-place-mutating source.
* Python truthiness on an optional object reference (`if not slot.left`) is
  `Option.isNone`; `x in dict` is key membership; `a is b` / default object
  `==` on nodes is id equality.
-/

namespace Volt

/-- Polymorphic association-list lookup (Python `dict.get`). -/
def alistGet [DecidableEq κ] : List (κ × α) → κ → Option α
  | [], _ => none
  | (k', v) :: r, k => if k' = k then some v else alistGet r k

/-- Association-list assignment (Python `dict[k] = v`): update in place if
the key is present, otherwise append the new binding. -/
def alistSet [DecidableEq κ] : List (κ × α) → κ → α → List (κ × α)
  | [], k, v => [(k, v)]
  | (k', v') :: r, k, v =>
    if k' = k then (k, v) :: r else (k', v') :: alistSet r k v

/-- Association-list deletion (Python `del dict[k]`). -/
def alistErase [DecidableEq κ] : List (κ × α) → κ → List (κ × α)
  | [], _ => []
  | (k', v') :: r, k => if k' = k then r else (k', v') :: alistErase r k

/-- The error conditions raised by the source, plus the two modelling
markers `danglingRef` (arena read through a severed reference) and `fuelOut`
(non-termination of a source loop). -/
inductive Err
  | invalidParameterValue
  | duplicateItem
  | notFound
  | duplicate
  | attributeError
  | danglingRef
  | fuelOut
deriving Repr, DecidableEq

/-- `BTreeNode.__init__`: one tracked peer and its position in the tree. -/
structure BTreeNode where
  peer_id : Nat
  host : Option String
  port : Option String
  iqn : Option String
  lun : Option String
  left : Option Nat
  right : Option Nat
  parent : Option Nat
  status : Option String
  fake_root : Bool
deriving Repr, DecidableEq

/-- `BTreeNode.available`: true if the node can append a child. -/
def BTreeNode.available (n : BTreeNode) : Bool :=
  n.status == some "OK" && (n.left == none || n.right == none)

/-- The externally visible identity record of a node. -/
structure Identity where
  host : Option String
  port : Option String
  iqn : Option String
  lun : Option String
  status : Option String
  peer_id : Nat
deriving Repr, DecidableEq

/-- `BTreeNode.identity`. -/
def BTreeNode.identity (n : BTreeNode) : Identity :=
  ⟨n.host, n.port, n.iqn, n.lun, n.status, n.peer_id⟩

/-- `BTree`: one binary tree per volume.  `root` is the id of the root node
(or `none` after the root has been removed with no replacement); `nodes` is
the `peer_id → Node` dictionary. -/
structure BTree where
  volume_id : String
  root : Option Nat
  nodes : List (Nat × BTreeNode)
deriving Repr, DecidableEq

/-- Read-modify-write of one node object in the arena (a Python attribute
assignment on a node reached through a reference).  If the id is not in
`nodes` the write would land on an object the mapping no longer tracks and is
invisible to every later dictionary read, so it is dropped. -/
def updNode (m : List (Nat × BTreeNode)) (k : Nat) (f : BTreeNode → BTreeNode) :
    List (Nat × BTreeNode) :=
  match alistGet m k with
  | none => m
  | some n => alistSet m k (f n)

/-- String form of a generated uuid. -/
def uuidStr (n : Nat) : String := toString n

/-- `BTree.__init__`: when no root is supplied a synthetic fake root is
created (consuming five generated uuids: `host`, `port`, `iqn`, `lun` and
then `peer_id`); either way the root's links are cleared and the root is
stored in `nodes` under its peer id. -/
def BTree.init (volume_id : String) (root : Option BTreeNode) (fresh : Nat) : BTree :=
  let r0 : BTreeNode :=
    match root with
    | some r => r
    | none =>
        ⟨fresh + 4, some (uuidStr fresh), some (uuidStr (fresh + 1)),
         some (uuidStr (fresh + 2)), some (uuidStr (fresh + 3)),
         none, none, none, some "OK", true⟩
  let r1 := { r0 with left := none, right := none, parent := none }
  ⟨volume_id, some r1.peer_id, [(r1.peer_id, r1)]⟩

/-- The loop of `tree_find_available_slot`: breadth-first search that
enqueues `node.left` and `node.right` of every unavailable node, whether or
not they are empty; dequeuing an empty (`none`) entry crashes on
`None.available()` (`attributeError`). -/
def findSlotLoop (m : List (Nat × BTreeNode)) :
    Nat → List (Option Nat) → Except Err (Option Nat)
  | _, [] => .ok none
  | 0, _ :: _ => .error .fuelOut
  | _ + 1, none :: _ => .error .attributeError
  | fuel + 1, some i :: rest =>
    match alistGet m i with
    | none => .error .danglingRef
    | some n =>
      if n.available then .ok (some i)
      else findSlotLoop m fuel (rest ++ [n.left, n.right])

/-- `tree_find_available_slot(tree_root)`. -/
def treeFindAvailableSlot (m : List (Nat × BTreeNode)) (root : Option Nat)
    (fuel : Nat) : Except Err (Option Nat) :=
  findSlotLoop m fuel [root]

/-- `BTree.insert_by_node`. -/
def BTree.insert_by_node (t : BTree) (fuel : Nat) (new_node : Option BTreeNode) :
    BTree × Except Err Nat :=
  match new_node with
  | none => (t, .error .invalidParameterValue)
  | some nn =>
    if (alistGet t.nodes nn.peer_id).isSome then (t, .error .invalidParameterValue)
    else if nn.parent.isSome then (t, .error .invalidParameterValue)
    else
      match treeFindAvailableSlot t.nodes t.root fuel with
      | .error e => (t, .error e)
      | .ok none => (t, .error .attributeError)
      | .ok (some slot) =>
        let m1 := alistSet t.nodes nn.peer_id
          { nn with left := none, right := none, parent := some slot }
        match alistGet m1 slot with
        | none => ({ t with nodes := m1 }, .error .danglingRef)
        | some sn =>
          let m2 :=
            if sn.left == none then alistSet m1 slot { sn with left := some nn.peer_id }
            else alistSet m1 slot { sn with right := some nn.peer_id }
          ({ t with nodes := m2 }, .ok slot)

/-- The `while not current.available()` walk of `tree_remove_by_node`
(lines 166-170): step to the left child when one exists, otherwise stay put
(the source loop then spins forever, which fuel exhaustion models). -/
def spineWalk (m : List (Nat × BTreeNode)) : Nat → Nat → Except Err Nat
  | 0, _ => .error .fuelOut
  | fuel + 1, c =>
    match alistGet m c with
    | none => .error .danglingRef
    | some n =>
      if n.available then .ok c
      else
        match n.left with
        | some l => spineWalk m fuel l
        | none => spineWalk m fuel c

/-- Forget the returned node of a recursive removal, keeping tree and
error (the cascade calls of lines 157/159 discard the return value). -/
def stepRemove (res : BTree × Except Err Nat) : BTree × Except Err Unit :=
  match res with
  | (t1, .error e) => (t1, .error e)
  | (t1, .ok _) => (t1, .ok ())

/-- Lines 164-180 of `tree_remove_by_node`: compute the replacement `up` for
the target's position, grafting `target.right` into the left subtree when
both children are present.  `tn2` is the target node as read after the
cascade. -/
def removeGraft (t2 : BTree) (tid : Nat) (tn2 : BTreeNode) (fuel : Nat) :
    BTree × Except Err (Option Nat) :=
  match tn2.left, tn2.right with
  | some lid, some rid =>
    match spineWalk t2.nodes fuel tid with
    | .error e => (t2, .error e)
    | .ok c =>
      let t3 := { t2 with
        nodes := updNode t2.nodes rid (fun n => { n with parent := some c }) }
      match alistGet t3.nodes c with
      | none => (t3, .error .danglingRef)
      | some cn =>
        let t4 :=
          if cn.left == none then
            { t3 with nodes := alistSet t3.nodes c { cn with left := some rid } }
          else
            { t3 with nodes := alistSet t3.nodes c { cn with right := some rid } }
        (t4, .ok (some lid))
  | some lid, none => (t2, .ok (some lid))
  | none, some rid => (t2, .ok (some rid))
  | none, none => (t2, .ok none)

/-- Lines 182-192 of `tree_remove_by_node`: point `up` at the target's
parent, replace the parent's child slot that `is` the target by `up`, swap
the tree root if the target was the root, and return the target. -/
def removeRelink (t4 : BTree) (tid : Nat) (up : Option Nat) :
    BTree × Except Err Nat :=
  match alistGet t4.nodes tid with
  | none => (t4, .error .danglingRef)
  | some tn4 =>
    let t5 :=
      match up with
      | some u =>
        { t4 with nodes := updNode t4.nodes u (fun n => { n with parent := tn4.parent }) }
      | none => t4
    match alistGet t5.nodes tid with
    | none => (t5, .error .danglingRef)
    | some tn5 =>
      let t6 :=
        match tn5.parent with
        | some pp =>
          { t5 with nodes := updNode t5.nodes pp (fun pn =>
              if pn.left == some tid then { pn with left := up }
              else { pn with right := up }) }
        | none => t5
      let t7 := if t6.root == some tid then { t6 with root := up } else t6
      (t7, .ok tid)

/-- The tail of `tree_remove_by_node` after the pending cascade: re-read
the target, compute the replacement (`removeGraft`) and relink
(`removeRelink`). -/
def removeFinish (fuel : Nat) (t2 : BTree) (tid : Nat) : BTree × Except Err Nat :=
  match alistGet t2.nodes tid with
  | none => (t2, .error .danglingRef)
  | some tn2 =>
    match removeGraft t2 tid tn2 fuel with
    | (t4, .error e) => (t4, .error e)
    | (t4, .ok up) => removeRelink t4 tid up

/-- `BTree.tree_remove_by_node`, called with the target node (by id; `none`
models being called with `None`).  Returns the updated tree and the id of
the removed node.  Lines 155-159 (the pending cascade) are inlined because
they recurse; the replacement computation and the relinking are
`removeGraft` and `removeRelink`. -/
def BTree.tree_remove_by_node : Nat → BTree → Option Nat → BTree × Except Err Nat
  | 0, t, _ => (t, .error .fuelOut)
  | _ + 1, t, none => (t, .error .invalidParameterValue)
  | fuel + 1, t, some tid =>
    match alistGet t.nodes tid with
    | none => (t, .error .danglingRef)
    | some tn0 =>
      let cas : BTree × Except Err Unit :=
        if tn0.status == some "pending" then
          let s1 : BTree × Except Err Unit :=
            match tn0.left with
            | some l => stepRemove (BTree.tree_remove_by_node fuel t (some l))
            | none => (t, .ok ())
          match s1 with
          | (t1, .error e) => (t1, .error e)
          | (t1, .ok _) =>
            match alistGet t1.nodes tid with
            | none => (t1, .error .danglingRef)
            | some tn1 =>
              match tn1.right with
              | some r => stepRemove (BTree.tree_remove_by_node fuel t1 (some r))
              | none => (t1, .ok ())
        else (t, .ok ())
      match cas with
      | (t2, .error e) => (t2, .error e)
      | (t2, .ok _) => removeFinish fuel t2 tid

/-- `BTree.insert_by_peer_id`. -/
def BTree.insert_by_peer_id (t : BTree) (fuel : Nat) (pid : Nat) :
    BTree × Except Err Nat :=
  if (alistGet t.nodes pid).isSome then (t, .error .duplicateItem)
  else t.insert_by_node fuel
    (some ⟨pid, none, none, none, none, none, none, none, none, false⟩)

/-- `BTree.remove_by_peer_id`: returns the removed node object (its state
after the structural removal, read just before the `del`). -/
def BTree.remove_by_peer_id (fuel : Nat) (t : BTree) (pid : Nat) :
    BTree × Except Err BTreeNode :=
  match alistGet t.nodes pid with
  | none => (t, .error .invalidParameterValue)
  | some _ =>
    match BTree.tree_remove_by_node fuel t (some pid) with
    | (t1, .error e) => (t1, .error e)
    | (t1, .ok _) =>
      match alistGet t1.nodes pid with
      | none => ({ t1 with nodes := alistErase t1.nodes pid }, .error .danglingRef)
      | some n => ({ t1 with nodes := alistErase t1.nodes pid }, .ok n)

/-- `BTree.count`. -/
def BTree.count (t : BTree) : Nat := t.nodes.length

/-- `BTree.get_node_parent`. -/
def BTree.get_node_parent (t : BTree) (pid : Nat) : Except Err (Option Nat) :=
  match alistGet t.nodes pid with
  | none => .error .invalidParameterValue
  | some n => .ok n.parent

/-- The cascade at the end of `update_nodes` (lines 262-266): if the
resulting status is pending, structurally remove the target's left and then
right child (re-reading the right link after the left removal). -/
def updCascade (fuel : Nat) (t : BTree) (pid : Nat) : BTree × Except Err Nat :=
  match alistGet t.nodes pid with
  | none => (t, .error .danglingRef)
  | some tn =>
    if tn.status == some "pending" then
      let s1 : BTree × Except Err Unit :=
        match tn.left with
        | some l =>
          match BTree.tree_remove_by_node fuel t (some l) with
          | (t1, .error e) => (t1, .error e)
          | (t1, .ok _) => (t1, .ok ())
        | none => (t, .ok ())
      match s1 with
      | (t1, .error e) => (t1, .error e)
      | (t1, .ok _) =>
        match alistGet t1.nodes pid with
        | none => (t1, .error .danglingRef)
        | some tn1 =>
          match tn1.right with
          | some r =>
            match BTree.tree_remove_by_node fuel t1 (some r) with
            | (t2, .error e) => (t2, .error e)
            | (t2, .ok _) => (t2, .ok pid)
          | none => (t1, .ok pid)
    else (t, .ok pid)

/-- `BTree.update_nodes`: upsert.  `fresh` is the uuid generated when
`peer_id` is `None`.  Returns the id of the affected node. -/
def BTree.update_nodes (fuel : Nat) (t : BTree) (fresh : Nat) (peer_id : Option Nat)
    (host port iqn lun status : Option String) : BTree × Except Err Nat :=
  let pid := peer_id.getD fresh
  match alistGet t.nodes pid with
  | none =>
    let target : BTreeNode := ⟨pid, host, port, iqn, lun, none, none, none, status, false⟩
    match t.insert_by_node fuel (some target) with
    | (t1, .error e) => (t1, .error e)
    | (t1, .ok _) => updCascade fuel t1 pid
  | some tn =>
    let tn' := { tn with peer_id := pid, host := host, port := port, iqn := iqn,
                         lun := lun, status := status }
    let t1 := { t with nodes := alistSet t.nodes pid tn' }
    updCascade fuel t1 pid

/-- The reply of `get_volume_parents`. -/
structure ParentsReply where
  peer_id : Nat
  parents : List Identity
deriving Repr, DecidableEq

/-- `BtreeExecutor.__init__` plus the uuid generator state.  A host-index
bucket stores the peer ids registered under that host (the source stores
`peer_id → Node` where the value is the node object recoverable from the
owning tree); bucket keys are the optional host strings. -/
structure BtreeExecutor where
  volumes : List (String × BTree)
  host_to_volumes : List (Option String × List Nat)
  next_uuid : Nat
deriving Repr, DecidableEq

/-- `BtreeExecutor.get_volumes_list`. -/
def BtreeExecutor.get_volumes_list (ex : BtreeExecutor) : List (String × Nat) :=
  ex.volumes.map (fun p => (p.1, p.2.count))

/-- `BtreeExecutor.get_volumes_detail`.  The loop body reads
`self.nodes[peer_id]`, but `BtreeExecutor` has no `nodes` attribute (the
evident intent is `volumes_tree.nodes`), so the first loop iteration raises
`AttributeError`; with an unknown volume or an empty tree the loop body
never runs and the empty list is returned. -/
def BtreeExecutor.get_volumes_detail (ex : BtreeExecutor) (volume_id : String) :
    Except Err (List Identity) :=
  match alistGet ex.volumes volume_id with
  | none => .ok []
  | some t =>
    match t.nodes with
    | [] => .ok []
    | _ :: _ => .error .attributeError

/-- `BtreeExecutor.add_host_bookkeeping` (the node-object argument is the
bucket value in the source; only the key structure is tracked here). -/
def BtreeExecutor.add_host_bookkeeping (ex : BtreeExecutor) (host : Option String)
    (peer_id : Nat) : BtreeExecutor × Except Err Unit :=
  let exb : BtreeExecutor × List Nat :=
    match alistGet ex.host_to_volumes host with
    | some b => (ex, b)
    | none => ({ ex with host_to_volumes := alistSet ex.host_to_volumes host [] }, [])
  match exb with
  | (ex1, bucket) =>
    if peer_id ∈ bucket then (ex1, .error .duplicate)
    else ({ ex1 with host_to_volumes := alistSet ex1.host_to_volumes host (bucket ++ [peer_id]) },
          .ok ())

/-- `BtreeExecutor.remove_host_bookkeeping`. -/
def BtreeExecutor.remove_host_bookkeeping (ex : BtreeExecutor) (host : Option String)
    (peer_id : Nat) : BtreeExecutor × Except Err Unit :=
  match alistGet ex.host_to_volumes host with
  | none => (ex, .error .notFound)
  | some bucket =>
    if peer_id ∈ bucket then
      ({ ex with host_to_volumes := alistSet ex.host_to_volumes host (bucket.erase peer_id) },
       .ok ())
    else (ex, .error .notFound)

/-- `BtreeExecutor.add_volume_metadata`. -/
def BtreeExecutor.add_volume_metadata (fuel : Nat) (ex : BtreeExecutor)
    (volume_id : String) (peer_id : Option Nat) (host port iqn lun : Option String) :
    BtreeExecutor × Except Err Identity :=
  match alistGet ex.volumes volume_id with
  | none => (ex, .error .notFound)
  | some t =>
    match t.update_nodes fuel ex.next_uuid peer_id host port iqn lun (some "OK") with
    | (t1, r) =>
      let consumed := if peer_id.isNone then 1 else 0
      let ex1 := { ex with volumes := alistSet ex.volumes volume_id t1,
                           next_uuid := ex.next_uuid + consumed }
      match r with
      | .error e => (ex1, .error e)
      | .ok tid =>
        match alistGet t1.nodes tid with
        | none => (ex1, .error .danglingRef)
        | some n => (ex1, .ok n.identity)

/-- `BtreeExecutor.delete_volume_metadata`.  The `try` block translates any
`InvalidParameterValue` escaping it into `NotFound`. -/
def BtreeExecutor.delete_volume_metadata (fuel : Nat) (ex : BtreeExecutor)
    (volume_id : String) (peer_id : Option Nat) : BtreeExecutor × Except Err Unit :=
  match peer_id with
  | none => (ex, .error .invalidParameterValue)
  | some pid =>
    match alistGet ex.volumes volume_id with
    | none => (ex, .error .notFound)
    | some t =>
      let body : BtreeExecutor × Except Err Unit :=
        match alistGet t.nodes pid with
        | none => (ex, .error .invalidParameterValue)
        | some node =>
          match ex.remove_host_bookkeeping node.host pid with
          | (ex1, .error e) => (ex1, .error e)
          | (ex1, .ok _) =>
            match BTree.remove_by_peer_id fuel t pid with
            | (t2, r) =>
              let ex2 := { ex1 with volumes := alistSet ex1.volumes volume_id t2 }
              match r with
              | .ok _ => (ex2, .ok ())
              | .error e => (ex2, .error e)
      match body with
      | (ex', .error .invalidParameterValue) => (ex', .error .notFound)
      | other => other

/-- The observable registry state of C7: the volumes mapping (with every
tree's nodes and links) and the host index.  The `next_uuid` field is the
model of the stateless `generate_uuid` and is not part of it. -/
def sameRegistry (a b : BtreeExecutor) : Prop :=
  a.volumes = b.volumes ∧ a.host_to_volumes = b.host_to_volumes

/-- The uuid-generator contract: every id already present anywhere in the
registry is below the next generated id. -/
def FreshIds (ex : BtreeExecutor) : Prop :=
  (∀ h b, alistGet ex.host_to_volumes h = some b → ∀ p ∈ b, p < ex.next_uuid) ∧
  (∀ vid t, alistGet ex.volumes vid = some t →
    ∀ k ∈ t.nodes.map Prod.fst, k < ex.next_uuid)

/-- The lazy volume creation performed by `get_volume_parents` on an unseen
volume id (line 369), consuming five generated uuids. -/
def lazyCreate (ex : BtreeExecutor) (vid : String) : BtreeExecutor :=
  { ex with volumes := alistSet ex.volumes vid (BTree.init vid none ex.next_uuid),
            next_uuid := ex.next_uuid + 5 }

/-- The common tail of `get_volume_parents` (lines 393-404): report an empty
parent list when the node's parent is the tree's root, else the parent's
identity.  A node whose `parent` is `None` while the root is not reaches
`None.identity()` (`attributeError`). -/
def finishParents (ex : BtreeExecutor) (vid : String) (p : Nat) :
    BtreeExecutor × Except Err ParentsReply :=
  match alistGet ex.volumes vid with
  | none => (ex, .error .danglingRef)
  | some t =>
    match alistGet t.nodes p with
    | none => (ex, .error .danglingRef)
    | some tn =>
      if tn.parent == t.root then (ex, .ok ⟨p, []⟩)
      else
        match tn.parent with
        | none => (ex, .error .attributeError)
        | some pp =>
          match alistGet t.nodes pp with
          | none => (ex, .error .danglingRef)
          | some pn => (ex, .ok ⟨p, [pn.identity]⟩)

/-- The `peer_id`-given path of `get_volume_parents` (lines 371-375): look
the node up in the volume's tree, failing not-found when absent. -/
def gvpPeerPath (ex1 : BtreeExecutor) (vid : String) (t0 : BTree) (p : Nat) :
    BtreeExecutor × Except Err ParentsReply :=
  match alistGet t0.nodes p with
  | none => (ex1, .error .notFound)
  | some _ => finishParents ex1 vid p

/-- The host-only path of `get_volume_parents` (lines 377-391): generate a
peer id, insert a pending node for it, index it under the host. -/
def gvpHostPath (fuel : Nat) (ex1 : BtreeExecutor) (vid : String) (t0 : BTree)
    (host : Option String) : BtreeExecutor × Except Err ParentsReply :=
  let p := ex1.next_uuid
  let ex2 := { ex1 with next_uuid := ex1.next_uuid + 1 }
  let new_node : BTreeNode :=
    ⟨p, host, none, none, none, none, none, none, some "pending", false⟩
  match t0.insert_by_node fuel (some new_node) with
  | (t1, r) =>
    let ex3 := { ex2 with volumes := alistSet ex2.volumes vid t1 }
    match r with
    | .error e => (ex3, .error e)
    | .ok _ =>
      match ex3.add_host_bookkeeping host p with
      | (ex4, .error e) => (ex4, .error e)
      | (ex4, .ok _) => finishParents ex4 vid p

/-- `BtreeExecutor.get_volume_parents`. -/
def BtreeExecutor.get_volume_parents (fuel : Nat) (ex : BtreeExecutor)
    (volume_id : Option String) (peer_id : Option Nat) (host : Option String) :
    BtreeExecutor × Except Err ParentsReply :=
  if peer_id.isNone && host.isNone then (ex, .error .invalidParameterValue)
  else
    match volume_id with
    | none => (ex, .error .invalidParameterValue)
    | some vid =>
      let ext : BtreeExecutor × BTree :=
        match alistGet ex.volumes vid with
        | some t => (ex, t)
        | none => (lazyCreate ex vid, BTree.init vid none ex.next_uuid)
      match ext with
      | (ex1, t0) =>
        match peer_id with
        | some p => gvpPeerPath ex1 vid t0 p
        | none => gvpHostPath fuel ex1 vid t0 host

/-- The non-structural fields of a node (everything but the links). -/
def nodeMeta (n : BTreeNode) :
    Nat × Option String × Option String × Option String × Option String ×
      Option String × Bool :=
  (n.peer_id, n.host, n.port, n.iqn, n.lun, n.status, n.fake_root)

/-- Two arenas with the same dictionary skeleton: identical key sequence and
identical non-structural fields at every id (only links may differ). -/
def ArenaSkel (m m' : List (Nat × BTreeNode)) : Prop :=
  m'.map Prod.fst = m.map Prod.fst ∧
  ∀ q, (alistGet m' q).map nodeMeta = (alistGet m q).map nodeMeta

/-! ## Concrete instances used by the theorems -/

/-- A freshly started registry. -/
def exEmpty : BtreeExecutor := ⟨[], [], 0⟩

/-- Scenario A-C of the spec: three host-only `get_volume_parents` calls on
volume `"vol-1"` against a fresh registry. -/
def gpCall1 : BtreeExecutor × Except Err ParentsReply :=
  BtreeExecutor.get_volume_parents 50 exEmpty (some "vol-1") none (some "h1")

def gpCall2 : BtreeExecutor × Except Err ParentsReply :=
  BtreeExecutor.get_volume_parents 50 gpCall1.1 (some "vol-1") none (some "h2")

def gpCall3 : BtreeExecutor × Except Err ParentsReply :=
  BtreeExecutor.get_volume_parents 50 gpCall2.1 (some "vol-1") none (some "h3")

/-- A tree whose root (id 0) is pending with a single pending leaf child
(id 1): the removal cascade fires on it. -/
def c2tree : BTree :=
  ⟨"v", some 0,
   [(0, ⟨0, none, none, none, none, some 1, none, none, some "pending", false⟩),
    (1, ⟨1, none, none, none, none, none, none, some 0, some "pending", false⟩)]⟩

/-- A tree whose root (id 0, status OK) has a pending leaf left child (id 1)
and an OK leaf right child (id 2): removing the root enters the left-spine
walk, which gets stuck at node 1 (unavailable, no left child). -/
def c4tree : BTree :=
  ⟨"v", some 0,
   [(0, ⟨0, none, none, none, none, some 1, some 2, none, some "OK", false⟩),
    (1, ⟨1, none, none, none, none, none, none, some 0, some "pending", false⟩),
    (2, ⟨2, none, none, none, none, none, none, some 0, some "OK", false⟩)]⟩

/-- A bare node with the given peer id and status OK. -/
def okNode (i : Nat) : BTreeNode :=
  ⟨i, none, none, none, none, none, none, none, some "OK", false⟩

/-- An empty tree whose root is a real (non-fake) OK node with id 0. -/
def realRootTree : BTree := BTree.init "v" (some (okNode 0)) 0

/-- Insert OK nodes with ids `1..n` into `realRootTree`, in order, stopping
at the first failure. -/
def insertAllE : Nat → Except Err BTree
  | 0 => .ok realRootTree
  | n + 1 =>
    match insertAllE n with
    | .error e => .error e
    | .ok t =>
      match t.insert_by_node (n + 2) (some (okNode (n + 1))) with
      | (t', .ok _) => .ok t'
      | (_, .error e) => .error e

/-- The child ids of node `i` in the arena, left before right. -/
def childIds (m : List (Nat × BTreeNode)) (i : Nat) : List Nat :=
  match alistGet m i with
  | none => []
  | some n =>
    (match n.left with | some l => [l] | none => []) ++
    (match n.right with | some r => [r] | none => [])

/-- The ids at depth `d` below the given front of ids. -/
def layerList (m : List (Nat × BTreeNode)) : Nat → List Nat → List Nat
  | 0, ids => ids
  | d + 1, ids => layerList m d ((ids.map (childIds m)).flatten)

/-- Number of nodes of the tree at depth `d` (level `d`, the root being
level 0); level `d` is fully populated iff this equals `2 ^ d`. -/
def levelCount (t : BTree) (d : Nat) : Nat :=
  (layerList t.nodes d (match t.root with | some r => [r] | none => [])).length

/-- The node of the canonical heap-shaped tree on ids `0..N`: node `i` has
children `2i+1`, `2i+2` (when `≤ N`) and parent `(i-1)/2`. -/
def canonNode (N i : Nat) : BTreeNode :=
  ⟨i, none, none, none, none,
   if 2 * i + 1 ≤ N then some (2 * i + 1) else none,
   if 2 * i + 2 ≤ N then some (2 * i + 2) else none,
   if i = 0 then none else some ((i - 1) / 2),
   some "OK", false⟩

/-- The canonical complete-tree arena on ids `0..N`, in insertion order. -/
def canonArena (N : Nat) : List (Nat × BTreeNode) :=
  (List.range (N + 1)).map (fun i => (i, canonNode N i))

/-- The canonical complete tree after inserting ids `1..N` under root 0. -/
def canonTree (N : Nat) : BTree := ⟨"v", some 0, canonArena N⟩

/-- A tree used for the `update_nodes` counterexample: root 0 (OK) with
child 1, which has host `"h"`, port `"p0"` and an OK leaf child 2. -/
def c8tree : BTree :=
  ⟨"v", some 0,
   [(0, ⟨0, none, none, none, none, some 1, none, none, some "OK", false⟩),
    (1, ⟨1, some "h", some "p0", none, none, some 2, none, some 0, some "OK", false⟩),
    (2, ⟨2, none, none, none, none, none, none, some 1, some "OK", false⟩)]⟩

/-- A registry holding one freshly created volume `"v"`. -/
def exOneVolume : BtreeExecutor := ⟨[("v", BTree.init "v" none 0)], [], 5⟩

/-! ## Shadow trees for the structural invariant (C1)

A `BTree` arena that arose from a sequence of successful operations is the
flattening of an abstract binary tree.  `STree` is that abstract tree
(`nil` marks an absent child) and `Agrees` states that an arena realises a
shadow tree at a given parent position: each shadow node's id is bound in
the arena to a node whose `parent`, `left` and `right` fields are exactly
the surrounding shadow structure, and pending nodes are leaves (slots
returned by the BFS are available, hence `OK`, so a child is never attached
under a pending node). -/

inductive STree where
  | nil : STree
  | node (id : Nat) (l r : STree) : STree
deriving Repr, DecidableEq

/-- The id of the shadow root, if any. -/
def STree.rootId : STree → Option Nat
  | .nil => none
  | .node i _ _ => some i

/-- All ids of a shadow tree, in preorder. -/
def STree.ids : STree → List Nat
  | .nil => []
  | .node i l r => i :: (l.ids ++ r.ids)

/-- The ids along the chain of `left` children from the root. -/
def STree.leftSpine : STree → List Nat
  | .nil => []
  | .node i l _ => i :: l.leftSpine

/-- The arena `m` realises the shadow tree at parent position `par`. -/
def Agrees (m : List (Nat × BTreeNode)) : Option Nat → STree → Prop
  | _, .nil => True
  | par, .node i l r =>
    (∃ n, alistGet m i = some n ∧ n.parent = par ∧ n.left = l.rootId ∧
      n.right = r.rootId ∧ (n.status = some "pending" → l = .nil ∧ r = .nil)) ∧
    Agrees m (some i) l ∧ Agrees m (some i) r

/-- Replace the subtree rooted at id `pid` by `new`. -/
def replaceAt (pid : Nat) (new : STree) : STree → STree
  | .nil => .nil
  | .node i l r =>
    if i = pid then new else .node i (replaceAt pid new l) (replaceAt pid new r)

/-- The subtree rooted at id `pid`, if present. -/
def subtreeAt (pid : Nat) : STree → Option STree
  | .nil => none
  | .node i l r =>
    if i = pid then some (.node i l r)
    else
      match subtreeAt pid l with
      | some s => some s
      | none => subtreeAt pid r

/-- The shadow counterpart of `insert_by_node`: hang a fresh leaf `pid`
under the node `slot`, on the left when `slot`'s left slot is empty (the
code's `slot.left == None` branch), otherwise on the right (`slot` being
available, its right slot is then empty). -/
def insertShadow (slot pid : Nat) : STree → STree
  | .nil => .nil
  | .node i l r =>
    if i = slot then
      match l with
      | .nil => .node i (.node pid .nil .nil) r
      | .node a la ra => .node i (.node a la ra) (.node pid .nil .nil)
    else .node i (insertShadow slot pid l) (insertShadow slot pid r)

/-- The shadow counterpart of the both-children graft of
`tree_remove_by_node`: hang `R` under the left-spine node `c`, on the left
when `c`'s left slot is empty, otherwise on the right (`c` being available,
its right slot is then empty). -/
def spliceSpine (c : Nat) (R : STree) : STree → STree
  | .nil => .nil
  | .node i l r =>
    if i = c then
      match l with
      | .nil => .node i R r
      | .node a la ra => .node i (.node a la ra) R
    else .node i (spliceSpine c R l) r

/-- Well-formedness of a tree state: some shadow tree flattens to it. -/
def WF (t : BTree) : Prop :=
  ∃ sh : STree,
    Agrees t.nodes none sh ∧
    sh.ids.Nodup ∧
    t.root = sh.rootId ∧
    (∀ x, (alistGet t.nodes x).isSome ↔ x ∈ sh.ids) ∧
    (t.nodes.map Prod.fst).Nodup

/-- Reachability from the tree root along `left`/`right` links through the
`nodes` mapping. -/
inductive Reach (t : BTree) : Nat → Prop
  | root (r : Nat) : t.root = some r → Reach t r
  | left (p : Nat) (np : BTreeNode) (c : Nat) :
      Reach t p → alistGet t.nodes p = some np → np.left = some c → Reach t c
  | right (p : Nat) (np : BTreeNode) (c : Nat) :
      Reach t p → alistGet t.nodes p = some np → np.right = some c → Reach t c

/-- The structural invariant claimed for any sequence of successful
operations: the key set of `nodes` is exactly the set of reachable peer
ids; every reachable node except the root has a parent whose `left` or
`right` link is that node; and the root's parent is empty. -/
def TreeInv (t : BTree) : Prop :=
  (∀ i, i ∈ t.nodes.map Prod.fst ↔ Reach t i) ∧
  (∀ i, Reach t i → t.root ≠ some i →
    ∃ n p np, alistGet t.nodes i = some n ∧ n.parent = some p ∧
      alistGet t.nodes p = some np ∧ (np.left = some i ∨ np.right = some i)) ∧
  (∀ r nr, t.root = some r → alistGet t.nodes r = some nr → nr.parent = none)

/-- One public mutating tree operation, with the fuel of its internal
loops. -/
inductive TreeOp where
  | insNode (fuel : Nat) (n : Option BTreeNode)
  | insPeer (fuel : Nat) (pid : Nat)
  | remPeer (fuel : Nat) (pid : Nat)
deriving Repr

/-- Forget the value of an operation's result, keeping tree and error. -/
def squash : BTree × Except Err α → BTree × Except Err Unit
  | (t1, .error e) => (t1, .error e)
  | (t1, .ok _) => (t1, .ok ())

/-- Run one operation. -/
def applyOp (t : BTree) : TreeOp → BTree × Except Err Unit
  | .insNode fuel n => squash (t.insert_by_node fuel n)
  | .insPeer fuel pid => squash (t.insert_by_peer_id fuel pid)
  | .remPeer fuel pid => squash (BTree.remove_by_peer_id fuel t pid)

/-- Run a sequence of operations, stopping at the first failure. -/
def applySeq : List TreeOp → BTree → Except Err BTree
  | [], t => .ok t
  | op :: ops, t =>
    match applyOp t op with
    | (t1, .ok _) => applySeq ops t1
    | (_, .error e) => .error e

/-! ## Theorems -/

/-- The left-spine walk never leaves node 1 of `c4tree` (pending, no left
child), so it exhausts any amount of fuel. -/
theorem spineWalk_c4_stuck_at_one (f : Nat) :
    spineWalk c4tree.nodes f 1 = .error .fuelOut := by
  induction f with
  | zero => rfl
  | succ f ih =>
    rw [show spineWalk c4tree.nodes (f + 1) 1 = spineWalk c4tree.nodes f 1 from rfl]
    exact ih

/-- Starting the walk at the removal target (node 0) steps to node 1 and is
then stuck for good. -/
theorem spineWalk_c4_from_target (f : Nat) :
    spineWalk c4tree.nodes f 0 = .error .fuelOut := by
  cases f with
  | zero => rfl
  | succ f =>
    rw [show spineWalk c4tree.nodes (f + 1) 0 = spineWalk c4tree.nodes f 1 from rfl]
    exact spineWalk_c4_stuck_at_one f

/-- C4. The claim asserts that for every target with two children the
left-spine walk of `tree_remove_by_node` reaches an available node after
finitely many steps.  On `c4tree` (root 0 with children: pending leaf 1 and
OK leaf 2) the walk is stuck forever at node 1, which is unavailable and has
no left child: the source `while not current.available()` loop never
terminates, contradicting its own `Always terminated in finite loop`
comment.  No amount of fuel lets the walk or the removal finish. -/
theorem C4_spine_walk_diverges :
    (∀ f, spineWalk c4tree.nodes f 0 = .error .fuelOut) ∧
    BTree.tree_remove_by_node 30 c4tree (some 0) = (c4tree, .error .fuelOut) := by
  exact ⟨spineWalk_c4_from_target, rfl⟩

/-- C2. Removing the pending root (id 0) of `c2tree` structurally unlinks
its pending child (id 1) but leaves the child's entry in `nodes`: afterwards
the child is not reachable (the root becomes empty) yet is still present in
the mapping, and `count()` drops from 2 to 1 instead of by the full subtree
size 2.  The cascade never deletes descendants' `nodes` entries. -/
theorem C2_cascade_leaves_descendants :
    (BTree.remove_by_peer_id 10 c2tree 0).1.root = none ∧
    alistGet (BTree.remove_by_peer_id 10 c2tree 0).1.nodes 1 =
      some ⟨1, none, none, none, none, none, none, some 0, some "pending", false⟩ ∧
    c2tree.count = 2 ∧
    (BTree.remove_by_peer_id 10 c2tree 0).1.count = 1 := by
  decide

/-- C3. Scenario A and B succeed with empty parent lists (ids 5 and 6 are
the generated peer ids), but the third host-only call crashes: the BFS of
`tree_find_available_slot` enqueues the empty children of the two pending
first-level peers and then dequeues `None`, raising `AttributeError`
(`None.available()`), instead of returning `p1`'s node as the claim states. -/
theorem C3_third_host_call_crashes :
    gpCall1.2 = .ok ⟨5, []⟩ ∧ gpCall2.2 = .ok ⟨6, []⟩ ∧
    gpCall3.2 = .error .attributeError := by
  refine ⟨rfl, rfl, rfl⟩

/-- C9. `get_volumes_detail` on a known volume with at least one node (here
the fresh volume `"v"`, whose tree holds its sentinel root) raises
`AttributeError`: the loop body reads `self.nodes[peer_id]` but the executor
has no `nodes` attribute (the intent is `volumes_tree.nodes`).  Only the
unknown-volume branch behaves as specified and returns the empty list. -/
theorem C9_volume_detail_attribute_error :
    BtreeExecutor.get_volumes_detail exOneVolume "v" = .error .attributeError ∧
    BtreeExecutor.get_volumes_detail exOneVolume "w" = .ok [] := by
  refine ⟨rfl, rfl⟩

/-- C10. In every freshly constructed tree — fake sentinel root or supplied
real root — the root is stored in `nodes` under its own peer id and
`count()` is 1; and `get_volumes_list` reports exactly `count()` for every
tracked volume, so the sentinel is included in the reported count. -/
theorem C10_fresh_tree_contains_root :
    (∀ (vid : String) (r : Option BTreeNode) (fresh : Nat),
      ∃ rid rn, (BTree.init vid r fresh).root = some rid ∧
        alistGet (BTree.init vid r fresh).nodes rid = some rn ∧
        rn.peer_id = rid ∧ (BTree.init vid r fresh).count = 1) ∧
    (∀ (ex : BtreeExecutor) (vid : String) (t : BTree),
      (vid, t) ∈ ex.volumes → (vid, t.count) ∈ ex.get_volumes_list) := by
  constructor
  · intro vid r fresh
    refine ⟨_, _, rfl, ?_, rfl, rfl⟩
    simp [BTree.init, alistGet]
  · intro ex vid t h
    exact List.mem_map_of_mem (fun p => (p.1, p.2.count)) h

/-- Witness for C10: instantiating the membership hypothesis at the concrete
one-volume registry. -/
theorem C10_fresh_tree_contains_root_witness :
    ("v", 1) ∈ BtreeExecutor.get_volumes_list exOneVolume := by
  have h := C10_fresh_tree_contains_root.2 exOneVolume "v" (BTree.init "v" none 0)
    (by decide)
  exact h

/-! ### Association-list lemmas -/

theorem alistGet_alistSet [DecidableEq κ] (m : List (κ × α)) (k : κ) (v : α) (q : κ) :
    alistGet (alistSet m k v) q = if k = q then some v else alistGet m q := by
  induction m with
  | nil => simp [alistGet, alistSet]
  | cons p r ih =>
    obtain ⟨k', v'⟩ := p
    by_cases h : k' = k
    · subst h
      simp only [alistSet, if_pos rfl, alistGet]
      by_cases hq : k' = q
      · subst hq; simp
      · simp [hq]
    · simp only [alistSet, if_neg h, alistGet]
      by_cases hq : k' = q
      · subst hq
        have : ¬ k = k' := fun hh => h hh.symm
        simp [this]
      · simp [hq, ih]

theorem alistSet_keys_of_get [DecidableEq κ] (m : List (κ × α)) (k : κ) (v : α)
    (n : α) (h : alistGet m k = some n) :
    (alistSet m k v).map Prod.fst = m.map Prod.fst := by
  induction m with
  | nil => simp [alistGet] at h
  | cons p r ih =>
    obtain ⟨k', v'⟩ := p
    by_cases hk : k' = k
    · subst hk; simp [alistSet]
    · simp only [alistGet, if_neg hk] at h
      simp [alistSet, hk, ih h]

theorem alistGet_alistErase_ne [DecidableEq κ] (m : List (κ × α)) (k q : κ)
    (h : k ≠ q) : alistGet (alistErase m k) q = alistGet m q := by
  induction m with
  | nil => rfl
  | cons p r ih =>
    obtain ⟨k', v'⟩ := p
    by_cases hk : k' = k
    · subst hk
      have : k' ≠ q := h
      simp [alistErase, alistGet, this]
    · simp [alistErase, alistGet, hk, ih]

theorem alistGet_eq_none_of_not_mem [DecidableEq κ] (m : List (κ × α)) (k : κ)
    (h : k ∉ m.map Prod.fst) : alistGet m k = none := by
  induction m with
  | nil => rfl
  | cons p r ih =>
    obtain ⟨k', v'⟩ := p
    simp only [List.map_cons, List.mem_cons, not_or] at h
    rw [alistGet, if_neg (fun hh => h.1 hh.symm)]
    exact ih h.2

theorem alistGet_alistErase_self [DecidableEq κ] (m : List (κ × α)) (k : κ)
    (hnd : (m.map Prod.fst).Nodup) : alistGet (alistErase m k) k = none := by
  induction m with
  | nil => rfl
  | cons p r ih =>
    obtain ⟨k', v'⟩ := p
    simp only [List.map_cons, List.nodup_cons] at hnd
    by_cases hk : k' = k
    · subst hk
      simp only [alistErase, if_pos rfl]
      exact alistGet_eq_none_of_not_mem r k' hnd.1
    · simp only [alistErase, if_neg hk, alistGet, if_neg hk]
      exact ih hnd.2

theorem alistGet_isSome_iff_mem [DecidableEq κ] (m : List (κ × α)) (k : κ) :
    (alistGet m k).isSome ↔ k ∈ m.map Prod.fst := by
  induction m with
  | nil => simp [alistGet]
  | cons p r ih =>
    obtain ⟨k', v'⟩ := p
    by_cases hk : k' = k
    · subst hk; simp [alistGet]
    · simp [alistGet, hk, ih, Ne.symm hk]

/-! ### Arena-skeleton lemmas for the removal algorithm -/

theorem arenaSkel_refl (m : List (Nat × BTreeNode)) : ArenaSkel m m :=
  ⟨rfl, fun _ => rfl⟩

theorem arenaSkel_trans {a b c : List (Nat × BTreeNode)}
    (h1 : ArenaSkel a b) (h2 : ArenaSkel b c) : ArenaSkel a c :=
  ⟨h2.1.trans h1.1, fun q => (h2.2 q).trans (h1.2 q)⟩

theorem arenaSkel_set (m : List (Nat × BTreeNode)) (k : Nat) (v n : BTreeNode)
    (h : alistGet m k = some n) (hv : nodeMeta v = nodeMeta n) :
    ArenaSkel m (alistSet m k v) := by
  refine ⟨alistSet_keys_of_get m k v n h, fun q => ?_⟩
  rw [alistGet_alistSet]
  by_cases hq : k = q
  · subst hq; simp [h, hv]
  · simp [hq]

theorem arenaSkel_updNode (m : List (Nat × BTreeNode)) (k : Nat)
    (f : BTreeNode → BTreeNode) (hf : ∀ n, nodeMeta (f n) = nodeMeta n) :
    ArenaSkel m (updNode m k f) := by
  unfold updNode
  cases h : alistGet m k with
  | none => exact arenaSkel_refl m
  | some n => exact arenaSkel_set m k (f n) n h (hf n)

/-- `removeGraft` only rewires links: the arena skeleton is unchanged. -/
theorem removeGraft_skel (t2 : BTree) (tid : Nat) (tn2 : BTreeNode) (fuel : Nat) :
    ArenaSkel t2.nodes (removeGraft t2 tid tn2 fuel).1.nodes := by
  unfold removeGraft
  cases hL : tn2.left with
  | none =>
    cases hR : tn2.right with
    | none => exact arenaSkel_refl _
    | some rid => exact arenaSkel_refl _
  | some lid =>
    cases hR : tn2.right with
    | none => exact arenaSkel_refl _
    | some rid =>
      cases hw : spineWalk t2.nodes fuel tid with
      | error e => exact arenaSkel_refl _
      | ok c =>
        simp only
        have hs3 : ArenaSkel t2.nodes
            (updNode t2.nodes rid (fun n => { n with parent := some c })) :=
          arenaSkel_updNode _ _ _ (fun n => rfl)
        cases h3 : alistGet (updNode t2.nodes rid
            (fun n => { n with parent := some c })) c with
        | none => exact hs3
        | some cn =>
          by_cases hcl : (cn.left == none) = true
          · simp only [hcl, if_true]
            exact arenaSkel_trans hs3
              (arenaSkel_set _ c { cn with left := some rid } cn h3 rfl)
          · simp only [hcl, if_false]
            exact arenaSkel_trans hs3
              (arenaSkel_set _ c { cn with right := some rid } cn h3 rfl)

/-- `removeRelink` only rewires links: the arena skeleton is unchanged. -/
theorem removeRelink_skel (t4 : BTree) (tid : Nat) (up : Option Nat) :
    ArenaSkel t4.nodes (removeRelink t4 tid up).1.nodes := by
  unfold removeRelink
  cases h4 : alistGet t4.nodes tid with
  | none => exact arenaSkel_refl _
  | some tn4 =>
    cases up with
    | none =>
      dsimp only
      cases h5 : alistGet t4.nodes tid with
      | none => exact arenaSkel_refl _
      | some tn5 =>
        dsimp only
        cases h6 : tn5.parent with
        | none =>
          dsimp only
          by_cases h7 : (t4.root == some tid) = true
          · simp only [h7, if_true]
            exact arenaSkel_refl _
          · simp only [h7, if_false]
            exact arenaSkel_refl _
        | some pp =>
          dsimp only
          have hu : ArenaSkel t4.nodes (updNode t4.nodes pp (fun pn =>
              if pn.left == some tid then { pn with left := none }
              else { pn with right := none })) := by
            refine arenaSkel_updNode _ _ _ (fun n => ?_)
            by_cases hh : (n.left == some tid) = true
            · rw [if_pos hh]
              rfl
            · rw [if_neg hh]
              rfl
          by_cases h7 : (t4.root == some tid) = true
          · simp only [h7, if_true]
            exact hu
          · simp only [h7, if_false]
            exact hu
    | some u =>
      dsimp only
      have hs5 : ArenaSkel t4.nodes
          (updNode t4.nodes u (fun n => { n with parent := tn4.parent })) :=
        arenaSkel_updNode _ _ _ (fun n => rfl)
      cases h5 : alistGet (updNode t4.nodes u (fun n => { n with parent := tn4.parent })) tid with
      | none => exact hs5
      | some tn5 =>
        dsimp only
        cases h6 : tn5.parent with
        | none =>
          dsimp only
          by_cases h7 : (t4.root == some tid) = true
          · simp only [h7, if_true]
            exact hs5
          · simp only [h7, if_false]
            exact hs5
        | some pp =>
          dsimp only
          have hu : ArenaSkel t4.nodes (updNode
              (updNode t4.nodes u (fun n => { n with parent := tn4.parent })) pp (fun pn =>
              if pn.left == some tid then { pn with left := some u }
              else { pn with right := some u })) := by
            refine arenaSkel_trans hs5 (arenaSkel_updNode _ _ _ (fun n => ?_))
            by_cases hh : (n.left == some tid) = true
            · rw [if_pos hh]
              rfl
            · rw [if_neg hh]
              rfl
          by_cases h7 : (t4.root == some tid) = true
          · simp only [h7, if_true]
            exact hu
          · simp only [h7, if_false]
            exact hu

/-- `removeFinish` only rewires links: the arena skeleton is unchanged. -/
theorem removeFinish_skel (fuel : Nat) (t2 : BTree) (tid : Nat) :
    ArenaSkel t2.nodes (removeFinish fuel t2 tid).1.nodes := by
  unfold removeFinish
  cases h2 : alistGet t2.nodes tid with
  | none => exact arenaSkel_refl _
  | some tn2 =>
    dsimp only
    have hg := removeGraft_skel t2 tid tn2 fuel
    cases hgr : removeGraft t2 tid tn2 fuel with
    | mk t4 rg =>
      rw [hgr] at hg
      cases rg with
      | error e => exact hg
      | ok up => exact arenaSkel_trans hg (removeRelink_skel t4 tid up)

/-- `tree_remove_by_node` never adds or deletes `nodes` entries and never
changes a node's non-structural fields: it only rewires links. -/
theorem tree_remove_skel :
    ∀ (fuel : Nat) (t : BTree) (tgt : Option Nat),
      ArenaSkel t.nodes (BTree.tree_remove_by_node fuel t tgt).1.nodes := by
  intro fuel
  induction fuel with
  | zero => intro t tgt; exact arenaSkel_refl _
  | succ fuel ih =>
    intro t tgt
    cases tgt with
    | none => exact arenaSkel_refl _
    | some tid =>
      simp only [BTree.tree_remove_by_node]
      cases h0 : alistGet t.nodes tid with
      | none => exact arenaSkel_refl _
      | some tn0 =>
        simp only
        have hcaskel : ∀ p : BTree × Except Err Unit,
            p = (if tn0.status == some "pending" then
                  match (match tn0.left with
                         | some l => stepRemove (BTree.tree_remove_by_node fuel t (some l))
                         | none => (t, .ok ())) with
                  | (t1, .error e) => (t1, .error e)
                  | (t1, .ok _) =>
                    match alistGet t1.nodes tid with
                    | none => (t1, .error .danglingRef)
                    | some tn1 =>
                      match tn1.right with
                      | some r => stepRemove (BTree.tree_remove_by_node fuel t1 (some r))
                      | none => (t1, .ok ())
                 else (t, .ok ())) →
            ArenaSkel t.nodes p.1.nodes := by
          intro p hp
          by_cases hpend : (tn0.status == some "pending") = true
          · rw [if_pos hpend] at hp
            have hstep : ∀ (tt : BTree) (l : Nat),
                ArenaSkel tt.nodes (stepRemove (BTree.tree_remove_by_node fuel tt (some l))).1.nodes := by
              intro tt l
              have h := ih tt (some l)
              unfold stepRemove
              cases hrec : BTree.tree_remove_by_node fuel tt (some l) with
              | mk t1 r =>
                rw [hrec] at h
                cases r with
                | error e => exact h
                | ok _ => exact h
            have hs1 : ∀ s : BTree × Except Err Unit,
                s = (match tn0.left with
                     | some l => stepRemove (BTree.tree_remove_by_node fuel t (some l))
                     | none => (t, .ok ())) →
                ArenaSkel t.nodes s.1.nodes := by
              intro s hs
              cases hl : tn0.left with
              | none => rw [hl] at hs; subst hs; exact arenaSkel_refl _
              | some l => rw [hl] at hs; subst hs; exact hstep t l
            generalize hS1 : (match tn0.left with
                     | some l => stepRemove (BTree.tree_remove_by_node fuel t (some l))
                     | none => (t, .ok ())) = s1 at hp
            obtain ⟨t1, r1⟩ := s1
            have hskel1 : ArenaSkel t.nodes t1.nodes := hs1 (t1, r1) hS1.symm
            cases r1 with
            | error e => subst hp; exact hskel1
            | ok _ =>
              dsimp only at hp
              cases h1 : alistGet t1.nodes tid with
              | none => rw [h1] at hp; subst hp; exact hskel1
              | some tn1 =>
                rw [h1] at hp
                dsimp only at hp
                cases hr : tn1.right with
                | none => rw [hr] at hp; subst hp; exact hskel1
                | some rr =>
                  rw [hr] at hp
                  subst hp
                  exact arenaSkel_trans hskel1 (hstep t1 rr)
          · rw [if_neg hpend] at hp
            subst hp
            exact arenaSkel_refl _
        generalize hCAS : (if tn0.status == some "pending" then
                  match (match tn0.left with
                         | some l => stepRemove (BTree.tree_remove_by_node fuel t (some l))
                         | none => (t, .ok ())) with
                  | (t1, .error e) => (t1, .error e)
                  | (t1, .ok _) =>
                    match alistGet t1.nodes tid with
                    | none => (t1, .error .danglingRef)
                    | some tn1 =>
                      match tn1.right with
                      | some r => stepRemove (BTree.tree_remove_by_node fuel t1 (some r))
                      | none => (t1, .ok ())
                 else (t, .ok ())) = cas
        obtain ⟨t2, rc⟩ := cas
        have hskel2 : ArenaSkel t.nodes t2.nodes := hcaskel (t2, rc) hCAS.symm
        cases rc with
        | error e => exact hskel2
        | ok _ => exact arenaSkel_trans hskel2 (removeFinish_skel fuel t2 tid)


/-- C6 counterexample: on a fresh tree, removing an absent peer id fails
with `InvalidParameterValue`, not with `NotFound` as the claim states (the
registry layer later translates it, but the Tree-level operation named by
the claim raises the invalid-parameter error). -/
theorem C6_remove_error_kind_counterexample :
    (BTree.remove_by_peer_id 10 (BTree.init "v" none 0) 99).2 =
      .error .invalidParameterValue ∧
    Err.invalidParameterValue ≠ Err.notFound := by
  exact ⟨rfl, by decide⟩

/-- C6 amended: `remove_by_peer_id` on an absent id fails with
`InvalidParameterValue` (translated to `NotFound` only at the registry
boundary); on a present id, whenever the removal terminates it returns the
removed node (same non-structural fields as the stored one), deletes its
`nodes` entry, and leaves every other entry's presence and non-structural
fields intact. -/
theorem C6_remove_by_peer_id (fuel : Nat) (t : BTree) (pid : Nat)
    (hnd : (t.nodes.map Prod.fst).Nodup) :
    (alistGet t.nodes pid = none →
      BTree.remove_by_peer_id fuel t pid = (t, .error .invalidParameterValue)) ∧
    (∀ t' n, BTree.remove_by_peer_id fuel t pid = (t', .ok n) →
      ∃ n0, alistGet t.nodes pid = some n0 ∧ nodeMeta n = nodeMeta n0 ∧
        alistGet t'.nodes pid = none ∧
        ∀ q, q ≠ pid →
          (alistGet t'.nodes q).map nodeMeta = (alistGet t.nodes q).map nodeMeta) := by
  constructor
  · intro h
    unfold BTree.remove_by_peer_id
    rw [h]
  · intro t' n h
    cases h0 : alistGet t.nodes pid with
    | none =>
      unfold BTree.remove_by_peer_id at h
      rw [h0] at h
      exact absurd h (by simp)
    | some n0 =>
      unfold BTree.remove_by_peer_id at h
      rw [h0] at h
      dsimp only at h
      have hskel := tree_remove_skel fuel t (some pid)
      cases hrem : BTree.tree_remove_by_node fuel t (some pid) with
      | mk t1 r =>
        rw [hrem] at h hskel
        dsimp only at h hskel
        cases r with
        | error e => exact absurd h (by simp)
        | ok rid =>
          dsimp only at h
          have hmeta := hskel.2 pid
          rw [h0] at hmeta
          have hnd1 : (t1.nodes.map Prod.fst).Nodup := by
            rw [hskel.1]
            exact hnd
          cases h1 : alistGet t1.nodes pid with
          | none => rw [h1] at hmeta; simp at hmeta
          | some n1 =>
            rw [h1] at h hmeta
            dsimp only at h
            rw [Prod.mk.injEq] at h
            obtain ⟨ht', hn⟩ := h
            have hn' : n1 = n := by
              injection hn with hh
            subst hn'
            subst ht'
            refine ⟨n0, rfl, ?_, ?_, ?_⟩
            · injection hmeta with hh
            · exact alistGet_alistErase_self t1.nodes pid hnd1
            · intro q hq
              have := alistGet_alistErase_ne t1.nodes pid q (fun hh => hq hh.symm)
              dsimp only
              rw [this]
              exact hskel.2 q

/-- Witness for C6: removing the sentinel root (id 4) of a fresh tree. -/
theorem C6_remove_by_peer_id_witness :
    ∃ n0, alistGet (BTree.init "v" none 0).nodes 4 = some n0 ∧
      nodeMeta (⟨4, some "0", some "1", some "2", some "3", none, none, none,
        some "OK", true⟩ : BTreeNode) = nodeMeta n0 ∧
      alistGet (⟨"v", none, []⟩ : BTree).nodes 4 = none ∧
      ∀ q, q ≠ 4 →
        (alistGet (⟨"v", none, []⟩ : BTree).nodes q).map nodeMeta =
          (alistGet (BTree.init "v" none 0).nodes q).map nodeMeta :=
  (C6_remove_by_peer_id 10 (BTree.init "v" none 0) 4 (by decide)).2
    ⟨"v", none, []⟩
    ⟨4, some "0", some "1", some "2", some "3", none, none, none, some "OK", true⟩
    rfl


/-- C8 counterexample: updating existing node 1 of `c8tree` (host `"h"`,
left child 2) while supplying only `port` and `status=pending` resets the
unsupplied `host` to `None` instead of preserving it, and unlinks child 2
(structural change), falsifying both halves of the claim. -/
theorem C8_update_counterexample :
    (alistGet (BTree.update_nodes 20 c8tree 99 (some 1) none (some "p") none none
        (some "pending")).1.nodes 1).map BTreeNode.host = some none ∧
    (alistGet c8tree.nodes 1).map BTreeNode.host = some (some "h") ∧
    (alistGet (BTree.update_nodes 20 c8tree 99 (some 1) none (some "p") none none
        (some "pending")).1.nodes 1).map BTreeNode.left = some none ∧
    (alistGet c8tree.nodes 1).map BTreeNode.left = some (some 2) ∧
    (BTree.update_nodes 20 c8tree 99 (some 1) none (some "p") none none
        (some "pending")).2 = .ok 1 := by
  exact ⟨rfl, rfl, rfl, rfl, rfl⟩

/-- C8 amended: for a present peer id, `update_nodes` overwrites every one
of `host`, `port`, `iqn`, `lun`, `status` with the supplied value — an
absent field is overwritten with `None`, not preserved — and as long as the
written status is not `pending` (a pending write cascade-removes the node's
children) the only change is that single dictionary entry, whose links are
untouched: no structural change. -/
theorem C8_update_overwrites_all_fields (fuel : Nat) (t : BTree) (fresh : Nat)
    (pid : Nat) (n0 : BTreeNode) (host port iqn lun status : Option String)
    (h0 : alistGet t.nodes pid = some n0) (hst : status ≠ some "pending") :
    BTree.update_nodes fuel t fresh (some pid) host port iqn lun status =
      ({ t with nodes := alistSet t.nodes pid ({ n0 with peer_id := pid, host := host, port := port, iqn := iqn, lun := lun, status := status }) }, .ok pid) := by
  unfold BTree.update_nodes
  dsimp only [Option.getD]
  rw [h0]
  dsimp only
  unfold updCascade
  dsimp only
  rw [alistGet_alistSet, if_pos rfl]
  dsimp only
  have hb : (status == some "pending") = false := beq_eq_false_iff_ne.mpr hst
  rw [hb]
  rfl

/-- Witness for C8: a full-field update of node 1 with status OK. -/
theorem C8_update_overwrites_all_fields_witness :
    BTree.update_nodes 20 c8tree 99 (some 1) (some "h2") none none none (some "OK") =
      ({ c8tree with nodes := alistSet c8tree.nodes 1 ({ (⟨1, some "h", some "p0", none, none, some 2, none, some 0, some "OK", false⟩ : BTreeNode) with peer_id := 1, host := some "h2", port := none, iqn := none, lun := none, status := some "OK" }) }, .ok 1) :=
  C8_update_overwrites_all_fields 20 c8tree 99 1
    ⟨1, some "h", some "p0", none, none, some 2, none, some 0, some "OK", false⟩
    (some "h2") none none none (some "OK") rfl (by decide)


/-! ### Error-classification and frame lemmas for C7 -/

theorem alistSet_same [DecidableEq κ] (m : List (κ × α)) (k : κ) (v : α)
    (h : alistGet m k = some v) : alistSet m k v = m := by
  induction m with
  | nil => simp [alistGet] at h
  | cons p r ih =>
    obtain ⟨k', v'⟩ := p
    by_cases hk : k' = k
    · subst hk
      simp only [alistGet, if_pos rfl] at h
      injection h with h
      simp [alistSet, h]
    · simp only [alistGet, if_neg hk] at h
      simp [alistSet, hk, ih h]

/-- A successful BFS returns an available arena member. -/
theorem findSlotLoop_ok (m : List (Nat × BTreeNode)) :
    ∀ (fuel : Nat) (q : List (Option Nat)) (s : Nat),
      findSlotLoop m fuel q = .ok (some s) →
      ∃ n, alistGet m s = some n ∧ n.available = true := by
  intro fuel
  induction fuel with
  | zero =>
    intro q s h
    cases q with
    | nil => exact absurd h (by simp [findSlotLoop])
    | cons a q' => exact absurd h (by simp [findSlotLoop])
  | succ fuel ih =>
    intro q s h
    cases q with
    | nil => exact absurd h (by simp [findSlotLoop])
    | cons a q' =>
      cases a with
      | none => exact absurd h (by simp [findSlotLoop])
      | some i =>
        rw [findSlotLoop] at h
        cases hg : alistGet m i with
        | none => rw [hg] at h; exact absurd h (by simp)
        | some n =>
          rw [hg] at h
          dsimp only at h
          by_cases hav : n.available = true
          · rw [if_pos hav] at h
            have : i = s := by
              injection h with h
              injection h with h
            subst this
            exact ⟨n, hg, hav⟩
          · rw [if_neg hav] at h
            exact ih _ s h

/-- The spine walk only fails by running out of fuel (the source loop spins
forever) or through a severed reference. -/
theorem spineWalk_err (m : List (Nat × BTreeNode)) :
    ∀ (fuel : Nat) (c : Nat) (e : Err), spineWalk m fuel c = .error e →
      e = .fuelOut ∨ e = .danglingRef := by
  intro fuel
  induction fuel with
  | zero =>
    intro c e h
    rw [spineWalk] at h
    injection h with h
    exact Or.inl h.symm
  | succ fuel ih =>
    intro c e h
    rw [spineWalk] at h
    cases hg : alistGet m c with
    | none =>
      rw [hg] at h
      injection h with h
      exact Or.inr h.symm
    | some n =>
      rw [hg] at h
      dsimp only at h
      by_cases hav : n.available = true
      · rw [if_pos hav] at h; exact absurd h (by simp)
      · rw [if_neg hav] at h
        cases hl : n.left with
        | some l => rw [hl] at h; exact ih l e h
        | none => rw [hl] at h; exact ih c e h

/-- A failed insertion other than through a severed reference leaves the
tree untouched. -/
theorem insert_err_frame (t : BTree) (fuel : Nat) (nn : Option BTreeNode)
    (t' : BTree) (e : Err) (h : t.insert_by_node fuel nn = (t', .error e))
    (hd : e ≠ .danglingRef) : t' = t := by
  unfold BTree.insert_by_node at h
  cases nn with
  | none =>
    injection h with h1 h2
    exact h1.symm
  | some n =>
    dsimp only at h
    by_cases h1 : (alistGet t.nodes n.peer_id).isSome = true
    · rw [if_pos h1] at h
      injection h with ha hb
      exact ha.symm
    · rw [if_neg h1] at h
      by_cases h2 : n.parent.isSome = true
      · rw [if_pos h2] at h
        injection h with ha hb
        exact ha.symm
      · rw [if_neg h2] at h
        cases hf : treeFindAvailableSlot t.nodes t.root fuel with
        | error e' =>
          rw [hf] at h
          injection h with ha hb
          exact ha.symm
        | ok os =>
          rw [hf] at h
          cases os with
          | none =>
            injection h with ha hb
            exact ha.symm
          | some slot =>
            dsimp only at h
            cases hg : alistGet (alistSet t.nodes n.peer_id
                { n with left := none, right := none, parent := some slot }) slot with
            | none =>
              rw [hg] at h
              injection h with ha hb
              injection hb with hb
              exact absurd hb.symm hd
            | some sn =>
              rw [hg] at h
              dsimp only at h
              by_cases hsl : (sn.left == none) = true
              · rw [if_pos hsl] at h
                exact absurd h (by simp)
              · rw [if_neg hsl] at h
                exact absurd h (by simp)

/-- What a successful insertion guarantees. -/
theorem insert_ok_spec (t : BTree) (fuel : Nat) (nn : BTreeNode) (t' : BTree)
    (slot : Nat) (h : t.insert_by_node fuel (some nn) = (t', .ok slot)) :
    t'.volume_id = t.volume_id ∧ t'.root = t.root ∧
    (alistGet t.nodes nn.peer_id).isSome = false ∧ nn.parent = none ∧
    (alistGet t.nodes slot).isSome = true ∧
    (∃ sn', alistGet t'.nodes slot = some sn') ∧
    (slot ≠ nn.peer_id →
      alistGet t'.nodes nn.peer_id =
        some { nn with left := none, right := none, parent := some slot }) := by
  unfold BTree.insert_by_node at h
  dsimp only at h
  by_cases h1 : (alistGet t.nodes nn.peer_id).isSome = true
  · rw [if_pos h1] at h; exact absurd h (by simp)
  · rw [if_neg h1] at h
    by_cases h2 : nn.parent.isSome = true
    · rw [if_pos h2] at h; exact absurd h (by simp)
    · rw [if_neg h2] at h
      cases hf : treeFindAvailableSlot t.nodes t.root fuel with
      | error e' => rw [hf] at h; exact absurd h (by simp)
      | ok os =>
        rw [hf] at h
        cases os with
        | none => exact absurd h (by simp)
        | some s =>
          dsimp only at h
          cases hg : alistGet (alistSet t.nodes nn.peer_id
              { nn with left := none, right := none, parent := some s }) s with
          | none => rw [hg] at h; exact absurd h (by simp)
          | some sn =>
            rw [hg] at h
            dsimp only at h
            have hslot : s = slot := by
              by_cases hsl : (sn.left == none) = true
              · rw [if_pos hsl] at h
                injection h with ha hb
                injection hb with hb
              · rw [if_neg hsl] at h
                injection h with ha hb
                injection hb with hb
            subst hslot
            have hmem : (alistGet t.nodes s).isSome = true := by
              obtain ⟨n, hn, _⟩ := findSlotLoop_ok t.nodes fuel [t.root] s hf
              simp [hn]
            have hget1 : s ≠ nn.peer_id →
                alistGet (alistSet t.nodes nn.peer_id
                  { nn with left := none, right := none, parent := some s })
                  nn.peer_id =
                some { nn with left := none, right := none, parent := some s } := by
              intro _
              rw [alistGet_alistSet, if_pos rfl]
            by_cases hsl : (sn.left == none) = true
            · rw [if_pos hsl] at h
              injection h with ha hb
              subst ha
              refine ⟨rfl, rfl, by simpa using h1, ?_, hmem, ?_, ?_⟩
              · exact Option.not_isSome_iff_eq_none.mp h2
              · exact ⟨_, by rw [alistGet_alistSet, if_pos rfl]⟩
              · intro hne
                dsimp only
                rw [alistGet_alistSet, if_neg (fun hh => hne hh)]
                exact hget1 hne
            · rw [if_neg hsl] at h
              injection h with ha hb
              subst ha
              refine ⟨rfl, rfl, by simpa using h1, ?_, hmem, ?_, ?_⟩
              · exact Option.not_isSome_iff_eq_none.mp h2
              · exact ⟨_, by rw [alistGet_alistSet, if_pos rfl]⟩
              · intro hne
                dsimp only
                rw [alistGet_alistSet, if_neg (fun hh => hne hh)]
                exact hget1 hne


theorem removeGraft_err (t2 : BTree) (tid : Nat) (tn2 : BTreeNode) (fuel : Nat)
    (t4 : BTree) (eg : Err) (h : removeGraft t2 tid tn2 fuel = (t4, .error eg)) :
    eg = .fuelOut ∨ eg = .danglingRef := by
  unfold removeGraft at h
  cases hL : tn2.left with
  | none =>
    cases hR : tn2.right with
    | none => rw [hL, hR] at h; exact absurd h (by simp)
    | some rid => rw [hL, hR] at h; exact absurd h (by simp)
  | some lid =>
    cases hR : tn2.right with
    | none => rw [hL, hR] at h; exact absurd h (by simp)
    | some rid =>
      rw [hL, hR] at h
      cases hw : spineWalk t2.nodes fuel tid with
      | error ew =>
        rw [hw] at h
        injection h with ha hb
        injection hb with hb
        exact hb ▸ spineWalk_err t2.nodes fuel tid ew hw
      | ok c =>
        rw [hw] at h
        dsimp only at h
        cases h3 : alistGet (updNode t2.nodes rid
            (fun n => { n with parent := some c })) c with
        | none =>
          rw [h3] at h
          injection h with ha hb
          injection hb with hb
          exact Or.inr hb.symm
        | some cn =>
          rw [h3] at h
          dsimp only at h
          by_cases hcl : (cn.left == none) = true
          · rw [if_pos hcl] at h; exact absurd h (by simp)
          · rw [if_neg hcl] at h; exact absurd h (by simp)

theorem removeRelink_err (t4 : BTree) (tid : Nat) (up : Option Nat)
    (t' : BTree) (e : Err) (h : removeRelink t4 tid up = (t', .error e)) :
    e = .fuelOut ∨ e = .danglingRef := by
  unfold removeRelink at h
  cases h4 : alistGet t4.nodes tid with
  | none =>
    rw [h4] at h
    injection h with ha hb
    injection hb with hb
    exact Or.inr hb.symm
  | some tn4 =>
    rw [h4] at h
    dsimp only at h
    cases up with
    | none =>
      dsimp only at h
      cases h5 : alistGet t4.nodes tid with
      | none =>
        rw [h5] at h
        injection h with ha hb
        injection hb with hb
        exact Or.inr hb.symm
      | some tn5 =>
        rw [h5] at h
        dsimp only at h
        cases h6 : tn5.parent with
        | none =>
          rw [h6] at h
          dsimp only at h
          by_cases h7 : (t4.root == some tid) = true
          · rw [if_pos h7] at h; exact absurd h (by simp)
          · rw [if_neg h7] at h; exact absurd h (by simp)
        | some pp =>
          rw [h6] at h
          dsimp only at h
          split at h <;> exact absurd h (by simp)
    | some u =>
      dsimp only at h
      cases h5 : alistGet (updNode t4.nodes u
          (fun n => { n with parent := tn4.parent })) tid with
      | none =>
        rw [h5] at h
        injection h with ha hb
        injection hb with hb
        exact Or.inr hb.symm
      | some tn5 =>
        rw [h5] at h
        dsimp only at h
        cases h6 : tn5.parent with
        | none =>
          rw [h6] at h
          dsimp only at h
          split at h <;> exact absurd h (by simp)
        | some pp =>
          rw [h6] at h
          dsimp only at h
          split at h <;> exact absurd h (by simp)

theorem removeFinish_err (fuel : Nat) (t2 : BTree) (tid : Nat) (t' : BTree)
    (e : Err) (h : removeFinish fuel t2 tid = (t', .error e)) :
    e = .fuelOut ∨ e = .danglingRef := by
  unfold removeFinish at h
  cases h2 : alistGet t2.nodes tid with
  | none =>
    rw [h2] at h
    injection h with ha hb
    injection hb with hb
    exact Or.inr hb.symm
  | some tn2 =>
    rw [h2] at h
    dsimp only at h
    cases hgr : removeGraft t2 tid tn2 fuel with
    | mk t4 rg =>
      rw [hgr] at h
      cases rg with
      | error eg =>
        dsimp only at h
        injection h with ha hb
        injection hb with hb
        exact hb ▸ removeGraft_err t2 tid tn2 fuel t4 eg hgr
      | ok up =>
        dsimp only at h
        exact removeRelink_err t4 tid up t' e h

/-- On a non-`None` target the removal fails only by fuel exhaustion (the
non-terminating spine walk) or through a severed reference: every Python
exception path of `tree_remove_by_node` is behind the `None` check. -/
theorem tree_remove_err :
    ∀ (fuel : Nat) (t : BTree) (tid : Nat) (t' : BTree) (e : Err),
      BTree.tree_remove_by_node fuel t (some tid) = (t', .error e) →
      e = .fuelOut ∨ e = .danglingRef := by
  intro fuel
  induction fuel with
  | zero =>
    intro t tid t' e h
    rw [BTree.tree_remove_by_node] at h
    injection h with ha hb
    injection hb with hb
    exact Or.inl hb.symm
  | succ fuel ih =>
    intro t tid t' e h
    rw [BTree.tree_remove_by_node] at h
    cases h0 : alistGet t.nodes tid with
    | none =>
      rw [h0] at h
      injection h with ha hb
      injection hb with hb
      exact Or.inr hb.symm
    | some tn0 =>
      rw [h0] at h
      dsimp only at h
      have hstepE : ∀ (tt : BTree) (l : Nat) (t1 : BTree) (e1 : Err),
          stepRemove (BTree.tree_remove_by_node fuel tt (some l)) = (t1, .error e1) →
          e1 = .fuelOut ∨ e1 = .danglingRef := by
        intro tt l t1 e1 hs
        unfold stepRemove at hs
        cases hrec : BTree.tree_remove_by_node fuel tt (some l) with
        | mk ta ra =>
          rw [hrec] at hs
          cases ra with
          | error ea =>
            dsimp only at hs
            injection hs with ha hb
            injection hb with hb
            exact hb ▸ ih tt l ta ea hrec
          | ok _ => exact absurd hs (by simp [stepRemove])
      by_cases hpend : (tn0.status == some "pending") = true
      · rw [if_pos hpend] at h
        cases hS1 : (match tn0.left with
            | some l => stepRemove (BTree.tree_remove_by_node fuel t (some l))
            | none => (t, Except.ok ())) with
        | mk t1 r1 =>
          rw [hS1] at h
          cases r1 with
          | error e1 =>
            dsimp only at h
            injection h with ha hb
            injection hb with hb
            subst hb
            cases hl : tn0.left with
            | none => rw [hl] at hS1; exact absurd hS1 (by simp)
            | some l => rw [hl] at hS1; exact hstepE t l t1 e1 hS1
          | ok _ =>
            dsimp only at h
            cases h1 : alistGet t1.nodes tid with
            | none =>
              rw [h1] at h
              dsimp only at h
              injection h with ha hb
              injection hb with hb
              exact Or.inr hb.symm
            | some tn1 =>
              rw [h1] at h
              dsimp only at h
              cases hr : tn1.right with
              | none =>
                rw [hr] at h
                dsimp only at h
                exact removeFinish_err fuel t1 tid t' e h
              | some rr =>
                rw [hr] at h
                dsimp only at h
                cases hS2 : stepRemove (BTree.tree_remove_by_node fuel t1 (some rr)) with
                | mk t2 r2 =>
                  rw [hS2] at h
                  cases r2 with
                  | error e2 =>
                    dsimp only at h
                    injection h with ha hb
                    injection hb with hb
                    exact hb ▸ hstepE t1 rr t2 e2 hS2
                  | ok _ =>
                    dsimp only at h
                    exact removeFinish_err fuel t2 tid t' e h
      · rw [if_neg hpend] at h
        dsimp only at h
        exact removeFinish_err fuel t tid t' e h

/-- `updCascade` fails only by fuel exhaustion or a severed reference. -/
theorem updCascade_err (fuel : Nat) (t : BTree) (pid : Nat) (t' : BTree)
    (e : Err) (h : updCascade fuel t pid = (t', .error e)) :
    e = .fuelOut ∨ e = .danglingRef := by
  unfold updCascade at h
  cases h0 : alistGet t.nodes pid with
  | none =>
    rw [h0] at h
    injection h with ha hb
    injection hb with hb
    exact Or.inr hb.symm
  | some tn =>
    rw [h0] at h
    dsimp only at h
    by_cases hpend : (tn.status == some "pending") = true
    · rw [if_pos hpend] at h
      cases hS1 : ((match tn.left with
          | some l =>
            match BTree.tree_remove_by_node fuel t (some l) with
            | (t1, Except.error e) => (t1, Except.error e)
            | (t1, Except.ok _) => (t1, Except.ok ())
          | none => (t, Except.ok ())) : BTree × Except Err Unit) with
      | mk t1 r1 =>
        rw [hS1] at h
        have hS1err : ∀ e1, r1 = .error e1 → e1 = .fuelOut ∨ e1 = .danglingRef := by
          intro e1 he1
          subst he1
          cases hl : tn.left with
          | none => rw [hl] at hS1; exact absurd hS1 (by simp)
          | some l =>
            rw [hl] at hS1
            dsimp only at hS1
            cases hrec : BTree.tree_remove_by_node fuel t (some l) with
            | mk ta ra =>
              rw [hrec] at hS1
              cases ra with
              | error ea =>
                dsimp only at hS1
                injection hS1 with ha hb
                injection hb with hb
                exact hb ▸ tree_remove_err fuel t l ta ea hrec
              | ok _ => exact absurd hS1 (by simp)
        cases r1 with
        | error e1 =>
          dsimp only at h
          injection h with ha hb
          injection hb with hb
          exact hb ▸ hS1err e1 rfl
        | ok _ =>
          dsimp only at h
          cases h1 : alistGet t1.nodes pid with
          | none =>
            rw [h1] at h
            injection h with ha hb
            injection hb with hb
            exact Or.inr hb.symm
          | some tn1 =>
            rw [h1] at h
            dsimp only at h
            cases hr : tn1.right with
            | none => rw [hr] at h; exact absurd h (by simp)
            | some rr =>
              rw [hr] at h
              dsimp only at h
              cases hrec2 : BTree.tree_remove_by_node fuel t1 (some rr) with
              | mk t2 r2 =>
                rw [hrec2] at h
                cases r2 with
                | error e2 =>
                  dsimp only at h
                  injection h with ha hb
                  injection hb with hb
                  exact hb ▸ tree_remove_err fuel t1 rr t2 e2 hrec2
                | ok _ => exact absurd h (by simp)
    · rw [if_neg hpend] at h
      exact absurd h (by simp)

/-- A failed `update_nodes`, apart from fuel exhaustion and severed
references, leaves the tree untouched (the only real exception paths are
the insertion preconditions and the BFS crash, all before any mutation). -/
theorem update_err_frame (fuel : Nat) (t : BTree) (fresh : Nat)
    (peer_id : Option Nat) (host port iqn lun status : Option String)
    (t' : BTree) (e : Err)
    (h : BTree.update_nodes fuel t fresh peer_id host port iqn lun status = (t', .error e))
    (hf : e ≠ .fuelOut) (hd : e ≠ .danglingRef) : t' = t := by
  unfold BTree.update_nodes at h
  dsimp only at h
  cases h0 : alistGet t.nodes (peer_id.getD fresh) with
  | none =>
    rw [h0] at h
    dsimp only at h
    cases hins : BTree.insert_by_node t fuel
        (some ⟨peer_id.getD fresh, host, port, iqn, lun, none, none, none, status, false⟩) with
    | mk t1 r =>
      rw [hins] at h
      cases r with
      | error e1 =>
        dsimp only at h
        injection h with ha hb
        injection hb with hb
        subst ha
        exact insert_err_frame t fuel _ t1 e1 hins (by rw [hb]; exact hd)
      | ok _ =>
        dsimp only at h
        rcases updCascade_err fuel t1 (peer_id.getD fresh) t' e h with hc | hc
        · exact absurd hc hf
        · exact absurd hc hd
  | some tn =>
    rw [h0] at h
    dsimp only at h
    rcases updCascade_err fuel _ (peer_id.getD fresh) t' e h with hc | hc
    · exact absurd hc hf
    · exact absurd hc hd

/-- A failed `remove_by_peer_id` on a present id, apart from fuel
exhaustion and severed references, is impossible. -/
theorem remove_err_classify (fuel : Nat) (t : BTree) (pid : Nat) (t' : BTree)
    (e : Err) (h : BTree.remove_by_peer_id fuel t pid = (t', .error e))
    (hp : (alistGet t.nodes pid).isSome = true) :
    e = .fuelOut ∨ e = .danglingRef := by
  unfold BTree.remove_by_peer_id at h
  cases h0 : alistGet t.nodes pid with
  | none => rw [h0] at hp; exact absurd hp (by simp)
  | some n0 =>
    rw [h0] at h
    dsimp only at h
    cases hrem : BTree.tree_remove_by_node fuel t (some pid) with
    | mk t1 r =>
      rw [hrem] at h
      cases r with
      | error e1 =>
        dsimp only at h
        injection h with ha hb
        injection hb with hb
        exact hb ▸ tree_remove_err fuel t pid t1 e1 hrem
      | ok _ =>
        dsimp only at h
        cases h1 : alistGet t1.nodes pid with
        | none =>
          rw [h1] at h
          injection h with ha hb
          injection hb with hb
          exact Or.inr hb.symm
        | some n1 =>
          rw [h1] at h
          exact absurd h (by simp)


/-! ### Registry state preservation on error (C7) -/

theorem sameRegistry_refl (ex : BtreeExecutor) : sameRegistry ex ex := ⟨rfl, rfl⟩

/-- `finishParents` is read-only. -/
theorem finishParents_fst (ex : BtreeExecutor) (vid : String) (p : Nat) :
    (finishParents ex vid p).1 = ex := by
  unfold finishParents
  cases h1 : alistGet ex.volumes vid with
  | none => rfl
  | some t =>
    dsimp only
    cases h2 : alistGet t.nodes p with
    | none => rfl
    | some tn =>
      dsimp only
      by_cases h3 : (tn.parent == t.root) = true
      · rw [if_pos h3]
      · rw [if_neg h3]
        cases h4 : tn.parent with
        | none => rfl
        | some pp =>
          dsimp only
          cases h5 : alistGet t.nodes pp with
          | none => rfl
          | some pn => rfl

/-- A failed host-index removal changes nothing and is a `NotFound`. -/
theorem remove_host_err (ex : BtreeExecutor) (hst : Option String) (pid : Nat)
    (ex1 : BtreeExecutor) (er : Err)
    (h : ex.remove_host_bookkeeping hst pid = (ex1, .error er)) :
    ex1 = ex ∧ er = .notFound := by
  unfold BtreeExecutor.remove_host_bookkeeping at h
  cases hb : alistGet ex.host_to_volumes hst with
  | none =>
    rw [hb] at h
    injection h with ha hbb
    injection hbb with hbb
    exact ⟨ha.symm, hbb.symm⟩
  | some b =>
    rw [hb] at h
    dsimp only at h
    by_cases hm : pid ∈ b
    · rw [if_pos hm] at h; exact absurd h (by simp)
    · rw [if_neg hm] at h
      injection h with ha hbb
      injection hbb with hbb
      exact ⟨ha.symm, hbb.symm⟩

/-- When the peer id is in no bucket, host bookkeeping succeeds and touches
only the host index. -/
theorem add_host_ok (ex : BtreeExecutor) (hst : Option String) (p : Nat)
    (hfree : ∀ b, alistGet ex.host_to_volumes hst = some b → p ∉ b) :
    ∃ ex4, ex.add_host_bookkeeping hst p = (ex4, .ok ()) ∧
      ex4.volumes = ex.volumes ∧ ex4.next_uuid = ex.next_uuid := by
  unfold BtreeExecutor.add_host_bookkeeping
  cases hb : alistGet ex.host_to_volumes hst with
  | none =>
    dsimp only
    rw [if_neg (List.not_mem_nil p)]
    exact ⟨_, rfl, rfl, rfl⟩
  | some b =>
    dsimp only
    rw [if_neg (hfree b hb)]
    exact ⟨_, rfl, rfl, rfl⟩

/-- An erroring `gvpPeerPath` leaves the registry as it found it. -/
theorem gvpPeerPath_err (ex1 : BtreeExecutor) (vid : String) (t0 : BTree)
    (p : Nat) (ex' : BtreeExecutor) (e : Err)
    (h : gvpPeerPath ex1 vid t0 p = (ex', .error e)) : ex' = ex1 := by
  unfold gvpPeerPath at h
  cases h0 : alistGet t0.nodes p with
  | none =>
    rw [h0] at h
    injection h with ha hb
    exact ha.symm
  | some _ =>
    rw [h0] at h
    dsimp only at h
    have := finishParents_fst ex1 vid p
    rw [h] at this
    exact this

/-- An erroring `gvpHostPath` — fuel exhaustion and severed references
aside — leaves the registry as it found it, provided the generated peer id
is genuinely fresh for the tree and the host index. -/
theorem gvpHostPath_err (fuel : Nat) (ex1 : BtreeExecutor) (vid : String)
    (t0 : BTree) (host : Option String) (ex' : BtreeExecutor) (e : Err)
    (hvt : alistGet ex1.volumes vid = some t0)
    (hkeys : ∀ k ∈ t0.nodes.map Prod.fst, k ≠ ex1.next_uuid)
    (hbuck : ∀ hh b, alistGet ex1.host_to_volumes hh = some b →
      ex1.next_uuid ∉ b)
    (h : gvpHostPath fuel ex1 vid t0 host = (ex', .error e))
    (hd : e ≠ .danglingRef) : sameRegistry ex' ex1 := by
  unfold gvpHostPath at h
  dsimp only at h
  cases hins : BTree.insert_by_node t0 fuel
      (some ⟨ex1.next_uuid, host, none, none, none, none, none, none,
        some "pending", false⟩) with
  | mk t1 r =>
    rw [hins] at h
    cases r with
    | error e1 =>
      dsimp only at h
      injection h with ha hb
      injection hb with hb
      subst ha
      have ht1 : t1 = t0 := insert_err_frame t0 fuel _ t1 e1 hins (by rw [hb]; exact hd)
      subst ht1
      exact ⟨by dsimp only; rw [alistSet_same _ _ _ hvt], rfl⟩
    | ok slot =>
      dsimp only at h
      obtain ⟨hvol, hroot, hnotmem, hpar, hslotmem, ⟨sn', hsn'⟩, hnew⟩ :=
        insert_ok_spec t0 fuel _ t1 slot hins
      have hslotne : slot ≠ ex1.next_uuid := by
        intro hh
        have := (alistGet_isSome_iff_mem t0.nodes slot).mp hslotmem
        exact hkeys slot this hh
      obtain ⟨ex4, hbk, hvols4, hnext4⟩ := add_host_ok
        ({ ex1 with next_uuid := ex1.next_uuid + 1,
                    volumes := alistSet ex1.volumes vid t1 }) host ex1.next_uuid
        (fun b hb => hbuck host b hb)
      rw [hbk] at h
      dsimp only at h
      have hget1 : alistGet ex4.volumes vid = some t1 := by
        rw [hvols4]
        dsimp only
        rw [alistGet_alistSet, if_pos rfl]
      have hgetp : alistGet t1.nodes ex1.next_uuid =
          some { peer_id := ex1.next_uuid, host := host, port := none, iqn := none,
                 lun := none, left := none, right := none, parent := some slot,
                 status := some "pending", fake_root := false } := by
        have := hnew hslotne
        exact this
      exfalso
      unfold finishParents at h
      rw [hget1] at h
      dsimp only at h
      rw [hgetp] at h
      dsimp only at h
      by_cases hroot1 : ((some slot : Option Nat) == t1.root) = true
      · rw [if_pos hroot1] at h
        exact absurd h (by simp)
      · rw [if_neg hroot1] at h
        rw [hsn'] at h
        exact absurd h (by simp)


/-- C7 counterexample: on a fresh registry, `get_parents("v", peer_id=99)`
raises `NotFound` — yet the volume `"v"` has already been lazily created, so
the registry state after the failing call differs from the state before. -/
theorem C7_get_parents_mutates_on_error :
    (BtreeExecutor.get_volume_parents 20 exEmpty (some "v") (some 99) none).2 =
      .error .notFound ∧
    (BtreeExecutor.get_volume_parents 20 exEmpty (some "v") (some 99) none).1.volumes ≠
      exEmpty.volumes := by
  exact ⟨rfl, by decide⟩

/-- C7 amended: apart from fuel exhaustion (modelling the non-terminating
removal walk) and severed-reference reads, every error-raising registry
operation leaves the volumes mapping and the host index unchanged — except
that `get_volume_parents` may have lazily created a fresh Tree for an
unseen volume before failing (for the host-only path under the freshness
contract of the uuid generator). -/
theorem C7_error_state_preservation :
    (∀ fuel ex vid pid host port iqn lun ex' e,
      BtreeExecutor.add_volume_metadata fuel ex vid pid host port iqn lun =
        (ex', .error e) →
      e ≠ .fuelOut → e ≠ .danglingRef → sameRegistry ex' ex) ∧
    (∀ fuel ex vid pid ex' e,
      BtreeExecutor.delete_volume_metadata fuel ex vid pid = (ex', .error e) →
      e ≠ .fuelOut → e ≠ .danglingRef → sameRegistry ex' ex) ∧
    (∀ fuel ex vid pid host ex' e, FreshIds ex →
      BtreeExecutor.get_volume_parents fuel ex vid pid host = (ex', .error e) →
      e ≠ .fuelOut → e ≠ .danglingRef →
      sameRegistry ex' ex ∨
        ∃ v, vid = some v ∧ alistGet ex.volumes v = none ∧
          sameRegistry ex' (lazyCreate ex v)) := by
  refine ⟨?_, ?_, ?_⟩
  · intro fuel ex vid pid host port iqn lun ex' e h hf hd
    unfold BtreeExecutor.add_volume_metadata at h
    cases hv : alistGet ex.volumes vid with
    | none =>
      rw [hv] at h
      injection h with ha hb
      subst ha
      exact sameRegistry_refl ex
    | some t =>
      rw [hv] at h
      dsimp only at h
      cases hupd : BTree.update_nodes fuel t ex.next_uuid pid host port iqn lun
          (some "OK") with
      | mk t1 r =>
        rw [hupd] at h
        cases r with
        | error e1 =>
          dsimp only at h
          injection h with ha hb
          injection hb with hb
          subst ha
          have ht1 : t1 = t :=
            update_err_frame fuel t ex.next_uuid pid host port iqn lun (some "OK")
              t1 e1 hupd (by rw [hb]; exact hf) (by rw [hb]; exact hd)
          subst ht1
          exact ⟨by dsimp only; rw [alistSet_same _ _ _ hv], rfl⟩
        | ok tid =>
          dsimp only at h
          cases hg : alistGet t1.nodes tid with
          | none =>
            rw [hg] at h
            injection h with ha hb
            injection hb with hb
            exact absurd hb.symm hd
          | some n =>
            rw [hg] at h
            exact absurd h (by simp)
  · intro fuel ex vid pid ex' e h hf hd
    unfold BtreeExecutor.delete_volume_metadata at h
    cases pid with
    | none =>
      injection h with ha hb
      subst ha
      exact sameRegistry_refl ex
    | some p =>
      dsimp only at h
      cases hv : alistGet ex.volumes vid with
      | none =>
        rw [hv] at h
        injection h with ha hb
        subst ha
        exact sameRegistry_refl ex
      | some t =>
        rw [hv] at h
        dsimp only at h
        cases hn : alistGet t.nodes p with
        | none =>
          rw [hn] at h
          dsimp only at h
          injection h with ha hb
          subst ha
          exact sameRegistry_refl ex
        | some node =>
          rw [hn] at h
          dsimp only at h
          cases hrh : ex.remove_host_bookkeeping node.host p with
          | mk ex1 rr =>
            rw [hrh] at h
            cases rr with
            | error er =>
              dsimp only at h
              obtain ⟨hex1, her⟩ := remove_host_err ex node.host p ex1 er hrh
              subst her
              dsimp only at h
              injection h with ha hb
              rw [← ha, hex1]
              exact sameRegistry_refl ex
            | ok _ =>
              dsimp only at h
              cases hrem : BTree.remove_by_peer_id fuel t p with
              | mk t2 r2 =>
                rw [hrem] at h
                cases r2 with
                | ok _ => exact absurd h (by simp)
                | error e2 =>
                  dsimp only at h
                  have hcls := remove_err_classify fuel t p t2 e2 hrem (by simp [hn])
                  rcases hcls with hc | hc
                  · subst hc
                    dsimp only at h
                    injection h with ha hb
                    injection hb with hb
                    exact absurd hb.symm hf
                  · subst hc
                    dsimp only at h
                    injection h with ha hb
                    injection hb with hb
                    exact absurd hb.symm hd
  · intro fuel ex vid pid host ex' e hfresh h hf hd
    unfold BtreeExecutor.get_volume_parents at h
    by_cases hpn : (pid.isNone && host.isNone) = true
    · rw [if_pos hpn] at h
      injection h with ha hb
      subst ha
      exact Or.inl (sameRegistry_refl ex)
    · rw [if_neg hpn] at h
      cases vid with
      | none =>
        injection h with ha hb
        subst ha
        exact Or.inl (sameRegistry_refl ex)
      | some v =>
        dsimp only at h
        cases hv : alistGet ex.volumes v with
        | some t0 =>
          rw [hv] at h
          dsimp only at h
          cases pid with
          | some p =>
            dsimp only at h
            left
            rw [gvpPeerPath_err ex v t0 p ex' e h]
            exact sameRegistry_refl ex
          | none =>
            dsimp only at h
            left
            refine gvpHostPath_err fuel ex v t0 host ex' e hv ?_ ?_ h hd
            · intro k hk hke
              have := hfresh.2 v t0 hv k hk
              omega
            · intro hh b hb hmem
              have := hfresh.1 hh b hb ex.next_uuid hmem
              omega
        | none =>
          rw [hv] at h
          dsimp only at h
          cases pid with
          | some p =>
            dsimp only at h
            right
            refine ⟨v, rfl, hv, ?_⟩
            rw [gvpPeerPath_err (lazyCreate ex v) v (BTree.init v none ex.next_uuid)
              p ex' e h]
            exact sameRegistry_refl _
          | none =>
            dsimp only at h
            right
            refine ⟨v, rfl, hv, ?_⟩
            refine gvpHostPath_err fuel (lazyCreate ex v) v
              (BTree.init v none ex.next_uuid) host ex' e ?_ ?_ ?_ h hd
            · unfold lazyCreate
              dsimp only
              rw [alistGet_alistSet, if_pos rfl]
            · intro k hk hke
              unfold BTree.init at hk
              dsimp only at hk
              simp only [List.map_cons, List.map_nil, List.mem_singleton] at hk
              unfold lazyCreate at hke
              dsimp only at hke
              omega
            · intro hh b hb hmem
              have hb' : alistGet ex.host_to_volumes hh = some b := hb
              have hlt := hfresh.1 hh b hb' ((lazyCreate ex v).next_uuid) hmem
              have heq : (lazyCreate ex v).next_uuid = ex.next_uuid + 5 := rfl
              omega


/-- Witness for C7: the lazily-created-volume disjunct at the concrete
failing `get_parents` call. -/
theorem C7_error_state_preservation_witness :
    sameRegistry
        (BtreeExecutor.get_volume_parents 20 exEmpty (some "v") (some 99) none).1
        exEmpty ∨
      ∃ v, (some "v" : Option String) = some v ∧
        alistGet exEmpty.volumes v = none ∧
        sameRegistry
          (BtreeExecutor.get_volume_parents 20 exEmpty (some "v") (some 99) none).1
          (lazyCreate exEmpty v) := by
  refine C7_error_state_preservation.2.2 20 exEmpty (some "v") (some 99) none
    (BtreeExecutor.get_volume_parents 20 exEmpty (some "v") (some 99) none).1
    .notFound ⟨?_, ?_⟩ rfl (by decide) (by decide)
  · intro h b hb
    simp [exEmpty, alistGet] at hb
  · intro vid t hb
    simp [exEmpty, alistGet] at hb


/-! ### The canonical complete tree built by OK-only insertions (C5) -/

theorem alistGet_append [DecidableEq κ] (l1 l2 : List (κ × α)) (q : κ) :
    alistGet (l1 ++ l2) q =
      match alistGet l1 q with
      | some v => some v
      | none => alistGet l2 q := by
  induction l1 with
  | nil => simp [alistGet]
  | cons p r ih =>
    obtain ⟨k', v'⟩ := p
    by_cases hk : k' = q
    · subst hk; simp [alistGet]
    · simp [alistGet, hk, ih]

theorem alistGet_rangeMap (f : Nat → α) (n q : Nat) :
    alistGet ((List.range n).map (fun i => (i, f i))) q =
      if q < n then some (f q) else none := by
  induction n with
  | zero => simp [alistGet]
  | succ n ih =>
    rw [List.range_succ, List.map_append, alistGet_append, ih]
    by_cases h : q < n
    · rw [if_pos h, if_pos (by omega)]
    · rw [if_neg h]
      by_cases h2 : q = n
      · subst h2
        simp [alistGet]
      · rw [if_neg (by omega)]
        simp only [List.map_cons, List.map_nil, alistGet]
        rw [if_neg (show ¬ n = q by omega)]

theorem alistSet_append_of_none [DecidableEq κ] (l1 l2 : List (κ × α)) (k : κ)
    (v : α) (h : alistGet l1 k = none) :
    alistSet (l1 ++ l2) k v = l1 ++ alistSet l2 k v := by
  induction l1 with
  | nil => simp
  | cons p r ih =>
    obtain ⟨k', v'⟩ := p
    simp only [alistGet] at h
    by_cases hk : k' = k
    · rw [if_pos hk] at h; exact absurd h (by simp)
    · rw [if_neg hk] at h
      simp [alistSet, hk, ih h]

theorem alistSet_append_of_some [DecidableEq κ] (l1 l2 : List (κ × α)) (k : κ)
    (v w : α) (h : alistGet l1 k = some w) :
    alistSet (l1 ++ l2) k v = alistSet l1 k v ++ l2 := by
  induction l1 with
  | nil => simp [alistGet] at h
  | cons p r ih =>
    obtain ⟨k', v'⟩ := p
    simp only [alistGet] at h
    by_cases hk : k' = k
    · simp [alistSet, hk]
    · rw [if_neg hk] at h
      simp [alistSet, hk, ih h]

theorem alistSet_rangeMap (f : Nat → α) (n k : Nat) (v : α) (hk : k < n) :
    alistSet ((List.range n).map (fun i => (i, f i))) k v =
      (List.range n).map (fun i => (i, if i = k then v else f i)) := by
  induction n with
  | zero => omega
  | succ n ih =>
    rw [List.range_succ]
    simp only [List.map_append, List.map_cons, List.map_nil]
    by_cases h : k < n
    · rw [alistSet_append_of_some _ _ k v (f k) (by rw [alistGet_rangeMap, if_pos h]),
        ih h, if_neg (show ¬ n = k by omega)]
    · have hkn : k = n := by omega
      subst hkn
      rw [alistSet_append_of_none _ _ k v (by rw [alistGet_rangeMap, if_neg (by omega)])]
      have hone : alistSet [((k : Nat), f k)] k v = [(k, v)] := by
        simp [alistSet]
      rw [hone, if_pos rfl]
      refine congrArg (· ++ [(k, v)]) (List.map_congr_left ?_)
      intro i hi
      rw [List.mem_range] at hi
      rw [if_neg (by omega)]

theorem canonArena_get (N q : Nat) :
    alistGet (canonArena N) q = if q ≤ N then some (canonNode N q) else none := by
  unfold canonArena
  rw [alistGet_rangeMap]
  by_cases h : q ≤ N
  · rw [if_pos (by omega), if_pos h]
  · rw [if_neg (by omega), if_neg h]

/-- The canonical node at the insertion frontier is available; every node
strictly before it is not. -/
theorem canonNode_available (N i : Nat) :
    (canonNode N i).available = true ↔ 2 * i + 2 > N := by
  unfold canonNode BTreeNode.available
  dsimp only
  by_cases h2 : 2 * i + 2 ≤ N
  · rw [if_pos (by omega : 2 * i + 1 ≤ N), if_pos h2]
    simp
    omega
  · rw [if_neg h2]
    simp
    omega

/-- The breadth-first search over the canonical arena, processing the
contiguous queue `i, i+1, ..., 2i`, returns the leftmost shallowest
available node `N / 2`. -/
theorem canon_bfs (N : Nat) :
    ∀ (d i fuel : Nat), i + d = N / 2 → fuel ≥ d + 1 →
      findSlotLoop (canonArena N) fuel ((List.range' i (i + 1)).map some) =
        .ok (some (N / 2)) := by
  intro d
  induction d with
  | zero =>
    intro i fuel hi hfuel
    obtain ⟨f, rfl⟩ : ∃ f, fuel = f + 1 := ⟨fuel - 1, by omega⟩
    have hq : (List.range' i (i + 1)).map some =
        some i :: (List.range' (i + 1) i).map some := by
      rw [show List.range' i (i + 1) = i :: List.range' (i + 1) i from by
        simpa using List.range'_succ i i 1, List.map_cons]
    rw [hq, findSlotLoop, canonArena_get, if_pos (by omega : i ≤ N)]
    dsimp only
    rw [if_pos ((canonNode_available N i).mpr (by omega))]
    rw [show i = N / 2 by omega]
  | succ d ih =>
    intro i fuel hi hfuel
    obtain ⟨f, rfl⟩ : ∃ f, fuel = f + 1 := ⟨fuel - 1, by omega⟩
    have hq : (List.range' i (i + 1)).map some =
        some i :: (List.range' (i + 1) i).map some := by
      rw [show List.range' i (i + 1) = i :: List.range' (i + 1) i from by
        simpa using List.range'_succ i i 1, List.map_cons]
    rw [hq, findSlotLoop, canonArena_get, if_pos (by omega : i ≤ N)]
    dsimp only
    have hnav : ¬ (canonNode N i).available = true := by
      rw [canonNode_available]
      omega
    rw [if_neg hnav]
    have hleft : (canonNode N i).left = some (2 * i + 1) := by
      unfold canonNode
      dsimp only
      rw [if_pos (by omega : 2 * i + 1 ≤ N)]
    have hright : (canonNode N i).right = some (2 * i + 2) := by
      unfold canonNode
      dsimp only
      rw [if_pos (by omega : 2 * i + 2 ≤ N)]
    rw [hleft, hright]
    have hcat : (List.range' (i + 1) i).map some ++ [some (2 * i + 1), some (2 * i + 2)] =
        (List.range' (i + 1) (i + 2)).map some := by
      have e1 : List.range' (i + 1) (i + 1) = List.range' (i + 1) i ++ [2 * i + 1] := by
        have hcc : List.range' (i + 1) (i + 1) 1 =
            List.range' (i + 1) i 1 ++ [i + 1 + 1 * i] :=
          List.range'_concat (i + 1) i
        rw [show i + 1 + 1 * i = 2 * i + 1 from by omega] at hcc
        exact hcc
      have e2 : List.range' (i + 1) (i + 2) = List.range' (i + 1) (i + 1) ++ [2 * i + 2] := by
        have hcc : List.range' (i + 1) (i + 1 + 1) 1 =
            List.range' (i + 1) (i + 1) 1 ++ [i + 1 + 1 * (i + 1)] :=
          List.range'_concat (i + 1) (i + 1)
        rw [show i + 1 + 1 * (i + 1) = 2 * i + 2 from by omega] at hcc
        exact hcc
      rw [e2, e1]
      simp
    rw [hcat]
    exact ih (i + 1) f (by omega) (by omega)


/-- The canonical arena after replacing the frontier node and appending the
new node is the canonical arena of the next size. -/
theorem canonArena_step (N : Nat) :
    (if ((canonNode N (N / 2)).left == none) = true
     then alistSet (alistSet (canonArena N) (N + 1)
            { okNode (N + 1) with left := none, right := none, parent := some (N / 2) })
          (N / 2) { canonNode N (N / 2) with left := some (N + 1) }
     else alistSet (alistSet (canonArena N) (N + 1)
            { okNode (N + 1) with left := none, right := none, parent := some (N / 2) })
          (N / 2) { canonNode N (N / 2) with right := some (N + 1) }) =
    canonArena (N + 1) := by
  have hnotmem : alistGet (canonArena N) (N + 1) = none := by
    rw [canonArena_get, if_neg (by omega)]
  have h1 : alistSet (canonArena N) (N + 1)
      ({ okNode (N + 1) with left := none, right := none, parent := some (N / 2) }) =
      canonArena N ++ [(N + 1,
        { okNode (N + 1) with left := none, right := none, parent := some (N / 2) })] := by
    have := alistSet_append_of_none (canonArena N) [] (N + 1)
      ({ okNode (N + 1) with left := none, right := none, parent := some (N / 2) }) hnotmem
    simpa [alistSet] using this
  have hmid : ∀ w : BTreeNode, w = (if ((canonNode N (N / 2)).left == none) = true
        then { canonNode N (N / 2) with left := some (N + 1) }
        else { canonNode N (N / 2) with right := some (N + 1) }) →
      alistSet (alistSet (canonArena N) (N + 1)
        ({ okNode (N + 1) with left := none, right := none, parent := some (N / 2) }))
        (N / 2) w = canonArena (N + 1) := by
    intro w hw
    rw [h1, alistSet_append_of_some _ _ (N / 2) _ (canonNode N (N / 2))
      (by rw [canonArena_get, if_pos (by omega)])]
    have h2 : alistSet (canonArena N) (N / 2) w =
        (List.range (N + 1)).map (fun i => (i, if i = N / 2 then w else canonNode N i)) := by
      unfold canonArena
      exact alistSet_rangeMap _ _ _ _ (by omega)
    have h3 : canonArena (N + 1) =
        (List.range (N + 1)).map (fun i => (i, canonNode (N + 1) i)) ++
          [(N + 1, canonNode (N + 1) (N + 1))] := by
      unfold canonArena
      rw [List.range_succ]
      simp only [List.map_append, List.map_cons, List.map_nil]
    rw [h2, h3]
    congr 1
    · refine List.map_congr_left ?_
      intro i hi
      rw [List.mem_range] at hi
      by_cases hik : i = N / 2
      · subst hik
        rw [if_pos rfl]
        refine congrArg (Prod.mk (N / 2)) ?_
        by_cases hl : ((canonNode N (N / 2)).left == none) = true
        · rw [if_pos hl] at hw
          have hcond : ¬ (2 * (N / 2) + 1 ≤ N) := by
            intro hc
            unfold canonNode at hl
            dsimp only at hl
            rw [if_pos hc] at hl
            simp at hl
          subst hw
          unfold canonNode
          dsimp only
          rw [if_neg (show ¬ 2 * (N / 2) + 2 ≤ N by omega),
            if_pos (show 2 * (N / 2) + 1 ≤ N + 1 by omega),
            if_neg (show ¬ 2 * (N / 2) + 2 ≤ N + 1 by omega),
            show 2 * (N / 2) + 1 = N + 1 by omega]
        · rw [if_neg hl] at hw
          have hcond : 2 * (N / 2) + 1 ≤ N := by
            by_contra hc
            apply hl
            unfold canonNode
            dsimp only
            rw [if_neg hc]
            rfl
          subst hw
          unfold canonNode
          dsimp only
          rw [if_pos hcond,
            if_pos (show 2 * (N / 2) + 1 ≤ N + 1 by omega),
            if_pos (show 2 * (N / 2) + 2 ≤ N + 1 by omega),
            show 2 * (N / 2) + 2 = N + 1 by omega]
      · rw [if_neg hik]
        refine congrArg (Prod.mk i) ?_
        unfold canonNode
        by_cases hll : 2 * i + 1 ≤ N
        · by_cases hrr : 2 * i + 2 ≤ N
          · rw [if_pos hll, if_pos hrr, if_pos (show 2 * i + 1 ≤ N + 1 by omega),
              if_pos (show 2 * i + 2 ≤ N + 1 by omega)]
          · rw [if_pos hll, if_neg hrr, if_pos (show 2 * i + 1 ≤ N + 1 by omega),
              if_neg (show ¬ 2 * i + 2 ≤ N + 1 by omega)]
        · rw [if_neg hll, if_neg (show ¬ 2 * i + 2 ≤ N by omega),
            if_neg (show ¬ 2 * i + 1 ≤ N + 1 by omega),
            if_neg (show ¬ 2 * i + 2 ≤ N + 1 by omega)]
    · refine congrArg (fun x => [(N + 1, x)]) ?_
      unfold canonNode okNode
      dsimp only
      rw [if_neg (show ¬ 2 * (N + 1) + 1 ≤ N + 1 by omega),
        if_neg (show ¬ 2 * (N + 1) + 2 ≤ N + 1 by omega),
        if_neg (show ¬ N + 1 = 0 by omega),
        show (N + 1 - 1) / 2 = N / 2 by omega]
  by_cases hl : ((canonNode N (N / 2)).left == none) = true
  · rw [if_pos hl]
    exact hmid _ (by rw [if_pos hl])
  · rw [if_neg hl]
    exact hmid _ (by rw [if_neg hl])

/-- Inserting the next OK node into the canonical tree yields the canonical
tree of the next size, with the slot at the frontier node `N / 2`. -/
theorem insert_canon_step (N : Nat) :
    (canonTree N).insert_by_node (N + 2) (some (okNode (N + 1))) =
      (canonTree (N + 1), .ok (N / 2)) := by
  unfold BTree.insert_by_node
  dsimp only
  rw [show alistGet (canonTree N).nodes (okNode (N + 1)).peer_id = none from by
    show alistGet (canonArena N) (N + 1) = none
    rw [canonArena_get, if_neg (by omega)]]
  dsimp only [Option.isSome]
  rw [if_neg (by simp)]
  rw [if_neg (by simp [okNode])]
  have hbfs : treeFindAvailableSlot (canonTree N).nodes (canonTree N).root (N + 2) =
      .ok (some (N / 2)) := by
    show findSlotLoop (canonArena N) (N + 2) [some 0] = .ok (some (N / 2))
    have h0 : ([some 0] : List (Option Nat)) = (List.range' 0 1).map some := by decide
    rw [h0]
    exact canon_bfs N (N / 2) 0 (N + 2) (by omega) (by omega)
  rw [hbfs]
  dsimp only
  have hgetslot : alistGet (alistSet (canonTree N).nodes (okNode (N + 1)).peer_id
      { okNode (N + 1) with left := none, right := none, parent := some (N / 2) })
      (N / 2) = some (canonNode N (N / 2)) := by
    rw [alistGet_alistSet, if_neg (show ¬ (okNode (N + 1)).peer_id = N / 2 from by
      show ¬ N + 1 = N / 2
      omega)]
    show alistGet (canonArena N) (N / 2) = some (canonNode N (N / 2))
    rw [canonArena_get, if_pos (by omega)]
  rw [hgetslot]
  dsimp only
  have harena := canonArena_step N
  by_cases hl : ((canonNode N (N / 2)).left == none) = true
  · rw [if_pos hl]
    rw [if_pos hl] at harena
    exact Prod.ext (congrArg (fun m => BTree.mk "v" (some 0) m) harena) rfl
  · rw [if_neg hl]
    rw [if_neg hl] at harena
    exact Prod.ext (congrArg (fun m => BTree.mk "v" (some 0) m) harena) rfl

/-- Inserting `N` OK nodes into the real-OK-root tree always succeeds and
builds exactly the canonical complete tree. -/
theorem insertAll_canon : ∀ N, insertAllE N = .ok (canonTree N) := by
  intro N
  induction N with
  | zero => rfl
  | succ n ih =>
    rw [insertAllE, ih]
    dsimp only
    rw [insert_canon_step n]


theorem canon_childIds (N i : Nat) (h : 2 * i + 2 ≤ N) :
    childIds (canonArena N) i = [2 * i + 1, 2 * i + 2] := by
  unfold childIds
  rw [canonArena_get, if_pos (by omega)]
  unfold canonNode
  dsimp only
  rw [if_pos (by omega : 2 * i + 1 ≤ N), if_pos h]
  rfl

theorem canon_children_flatten (N : Nat) :
    ∀ (n s : Nat), (∀ j, j < n → 2 * (s + j) + 2 ≤ N) →
      ((List.range' s n).map (childIds (canonArena N))).flatten =
        List.range' (2 * s + 1) (2 * n) := by
  intro n
  induction n with
  | zero => intro s _; simp
  | succ n ih =>
    intro s h
    rw [show List.range' s (n + 1) = s :: List.range' (s + 1) n from by
      simpa using List.range'_succ s n 1]
    rw [List.map_cons, List.flatten_cons]
    rw [canon_childIds N s (by have := h 0 (by omega); omega)]
    rw [ih (s + 1) (fun j hj => by have := h (j + 1) (by omega); omega)]
    have e1 : List.range' (2 * s + 1) (2 * n + 2) =
        (2 * s + 1) :: List.range' (2 * s + 2) (2 * n + 1) := by
      simpa using List.range'_succ (2 * s + 1) (2 * n + 1) 1
    have e2 : List.range' (2 * s + 2) (2 * n + 1) =
        (2 * s + 2) :: List.range' (2 * s + 3) (2 * n) := by
      simpa using List.range'_succ (2 * s + 2) (2 * n) 1
    rw [show 2 * (n + 1) = 2 * n + 2 from by omega, e1, e2,
      show 2 * (s + 1) + 1 = 2 * s + 3 from by omega]
    rfl

theorem canon_layer (N : Nat) :
    ∀ (d a : Nat), 2 ^ (a + d + 1) ≤ N + 2 →
      layerList (canonArena N) d (List.range' (2 ^ a - 1) (2 ^ a)) =
        List.range' (2 ^ (a + d) - 1) (2 ^ (a + d)) := by
  intro d
  induction d with
  | zero =>
    intro a _
    rw [layerList, Nat.add_zero]
  | succ d ih =>
    intro a h
    rw [layerList]
    have hfull : ∀ j, j < 2 ^ a → 2 * ((2 ^ a - 1) + j) + 2 ≤ N := by
      intro j hj
      have hp : 2 ^ (a + 2) ≤ N + 2 :=
        le_trans (Nat.pow_le_pow_right (by norm_num) (by omega)) h
      have e4 : 2 ^ (a + 2) = 4 * 2 ^ a := by ring
      have e0 : 1 ≤ 2 ^ a := Nat.one_le_two_pow
      omega
    rw [canon_children_flatten N (2 ^ a) (2 ^ a - 1) hfull]
    have e0 : 1 ≤ 2 ^ a := Nat.one_le_two_pow
    have e1 : 2 ^ (a + 1) = 2 * 2 ^ a := by ring
    rw [show 2 * (2 ^ a - 1) + 1 = 2 ^ (a + 1) - 1 from by omega,
      show 2 * 2 ^ a = 2 ^ (a + 1) from by omega]
    have := ih (a + 1) (by
      have : a + 1 + d + 1 = a + (d + 1) + 1 := by omega
      rw [this]
      exact h)
    rw [this, show a + 1 + d = a + (d + 1) from by omega]

/-- C5 counterexample: after `N = 4` successful OK insertions the claim
requires the first `⌊log2 4⌋ + 1 = 3` levels to be fully populated, but
level 2 holds only 2 of its 4 slots. -/
theorem C5_level_formula_counterexample :
    (insertAllE 4).toOption.map (fun t => levelCount t 2) = some 2 ∧
    2 < Nat.log 2 4 + 1 ∧ (2 : Nat) ≠ 2 ^ 2 := by
  refine ⟨by rfl, ?_, by decide⟩
  rw [show (4 : Nat) = 2 ^ 2 from rfl, Nat.log_pow (by norm_num)]
  omega

/-- C5 amended: inserting `N` OK nodes into an empty tree with a real OK
root always succeeds and yields exactly the canonical complete binary tree
in heap layout (node `i` has children `2i+1`, `2i+2`), whose first
`⌊log2 (N+2)⌋` levels are fully populated left-to-right with no gaps —
`find_available_slot` always returns the shallowest, leftmost available
node in level order. -/
theorem C5_complete_tree :
    (∀ N, insertAllE N = .ok (canonTree N)) ∧
    (∀ N d, d < Nat.log 2 (N + 2) → levelCount (canonTree N) d = 2 ^ d) := by
  refine ⟨insertAll_canon, ?_⟩
  intro N d hd
  unfold levelCount canonTree
  dsimp only
  rw [show ([0] : List Nat) = List.range' (2 ^ 0 - 1) (2 ^ 0) from rfl]
  rw [canon_layer N d 0 (by
    have h1 : 2 ^ (d + 1) ≤ N + 2 :=
      Nat.pow_le_of_le_log (by omega) (by omega)
    simpa using h1)]
  simp

/-- Witness for C5: four insertions, level 1 fully populated. -/
theorem C5_complete_tree_witness :
    insertAllE 4 = .ok (canonTree 4) ∧ levelCount (canonTree 4) 1 = 2 ^ 1 := by
  refine ⟨C5_complete_tree.1 4, C5_complete_tree.2 4 1 ?_⟩
  have h2 : 2 ≤ Nat.log 2 (4 + 2) :=
    (Nat.pow_le_iff_le_log (by norm_num) (by norm_num)).mp (by norm_num)
  omega

/-! ### Shadow-tree infrastructure (C1) -/

theorem alistGet_updNode_ne (m : List (Nat × BTreeNode)) (k : Nat)
    (f : BTreeNode → BTreeNode) (q : Nat) (h : k ≠ q) :
    alistGet (updNode m k f) q = alistGet m q := by
  unfold updNode
  cases hg : alistGet m k with
  | none => rfl
  | some n => rw [alistGet_alistSet, if_neg h]

theorem alistGet_updNode_self (m : List (Nat × BTreeNode)) (k : Nat)
    (f : BTreeNode → BTreeNode) (n : BTreeNode) (h : alistGet m k = some n) :
    alistGet (updNode m k f) k = some (f n) := by
  unfold updNode
  rw [h, alistGet_alistSet, if_pos rfl]

theorem updNode_keys (m : List (Nat × BTreeNode)) (k : Nat)
    (f : BTreeNode → BTreeNode) :
    (updNode m k f).map Prod.fst = m.map Prod.fst := by
  unfold updNode
  cases hg : alistGet m k with
  | none => rfl
  | some n => exact alistSet_keys_of_get m k (f n) n hg

theorem isSome_updNode (m : List (Nat × BTreeNode)) (k : Nat)
    (f : BTreeNode → BTreeNode) (q : Nat) :
    (alistGet (updNode m k f) q).isSome = (alistGet m q).isSome := by
  by_cases h : k = q
  · subst h
    unfold updNode
    cases hg : alistGet m k with
    | none => dsimp only; rw [hg]
    | some n =>
      dsimp only
      rw [alistGet_alistSet, if_pos rfl]
      rfl
  · rw [alistGet_updNode_ne m k f q h]

theorem isSome_set_of_present [DecidableEq κ] (m : List (κ × α)) (k : κ) (v : α)
    (q : κ) (hk : (alistGet m k).isSome = true) :
    (alistGet (alistSet m k v) q).isSome = (alistGet m q).isSome := by
  rw [alistGet_alistSet]
  by_cases h : k = q
  · subst h; simp [hk]
  · rw [if_neg h]

theorem alistSet_keys_of_none [DecidableEq κ] (m : List (κ × α)) (k : κ) (v : α)
    (h : alistGet m k = none) :
    (alistSet m k v).map Prod.fst = m.map Prod.fst ++ [k] := by
  induction m with
  | nil => rfl
  | cons p r ih =>
    obtain ⟨k', v'⟩ := p
    by_cases hk : k' = k
    · subst hk; rw [alistGet, if_pos rfl] at h; exact absurd h (by simp)
    · rw [alistGet, if_neg hk] at h
      simp [alistSet, hk, ih h]

theorem alistErase_sublist [DecidableEq κ] (m : List (κ × α)) (k : κ) :
    (alistErase m k).Sublist m := by
  induction m with
  | nil => simp [alistErase]
  | cons p r ih =>
    obtain ⟨k', v'⟩ := p
    by_cases hk : k' = k
    · rw [alistErase, if_pos hk]
      exact List.Sublist.cons _ (List.Sublist.refl _)
    · rw [alistErase, if_neg hk]
      exact ih.cons₂ _

theorem mem_ids_node {x i : Nat} {l r : STree} :
    x ∈ (STree.node i l r).ids ↔ x = i ∨ x ∈ l.ids ∨ x ∈ r.ids := by
  simp [STree.ids]

theorem nodup_node {i : Nat} {l r : STree}
    (h : (STree.node i l r).ids.Nodup) :
    i ∉ l.ids ∧ i ∉ r.ids ∧ l.ids.Nodup ∧ r.ids.Nodup ∧
      ∀ x ∈ l.ids, x ∉ r.ids := by
  rw [STree.ids, List.nodup_cons, List.nodup_append] at h
  refine ⟨fun hm => h.1 (List.mem_append_left _ hm),
    fun hm => h.1 (List.mem_append_right _ hm), h.2.1, h.2.2.1, ?_⟩
  intro x hx hy
  exact h.2.2.2 hx hy

theorem agrees_nil (m : List (Nat × BTreeNode)) (par : Option Nat) :
    Agrees m par .nil := trivial

theorem agrees_node {m : List (Nat × BTreeNode)} {par : Option Nat}
    {i : Nat} {l r : STree} :
    Agrees m par (.node i l r) ↔
      ((∃ n, alistGet m i = some n ∧ n.parent = par ∧ n.left = l.rootId ∧
        n.right = r.rootId ∧ (n.status = some "pending" → l = .nil ∧ r = .nil)) ∧
      Agrees m (some i) l ∧ Agrees m (some i) r) := Iff.rfl

theorem agrees_congr {m m' : List (Nat × BTreeNode)} :
    ∀ (s : STree) (par : Option Nat), Agrees m par s →
      (∀ x ∈ s.ids, alistGet m' x = alistGet m x) → Agrees m' par s := by
  intro s
  induction s with
  | nil => intro par _ _; exact trivial
  | node i l r ihl ihr =>
    intro par h hf
    obtain ⟨⟨n, hg, hp, hl, hr, hpend⟩, hAl, hAr⟩ := h
    refine ⟨⟨n, ?_, hp, hl, hr, hpend⟩, ?_, ?_⟩
    · rw [hf i (by simp [STree.ids])]; exact hg
    · exact ihl (some i) hAl (fun x hx => hf x (by simp [STree.ids, hx]))
    · exact ihr (some i) hAr (fun x hx => hf x (by simp [STree.ids, hx]))

theorem agrees_reparent {m : List (Nat × BTreeNode)} {u : Nat} {l r : STree}
    {p₀ : Option Nat} (p' : Option Nat)
    (h : Agrees m p₀ (.node u l r)) (hnd : (STree.node u l r).ids.Nodup) :
    Agrees (updNode m u (fun n => { n with parent := p' })) p' (.node u l r) := by
  obtain ⟨⟨n, hg, hp, hl, hr, hpend⟩, hAl, hAr⟩ := h
  obtain ⟨hul, hur, _, _, _⟩ := nodup_node hnd
  refine ⟨⟨{ n with parent := p' }, ?_, rfl, hl, hr, fun hs => hpend hs⟩, ?_, ?_⟩
  · exact alistGet_updNode_self m u _ n hg
  · exact agrees_congr l (some u) hAl
      (fun x hx => alistGet_updNode_ne m u _ x (fun he => hul (by rw [he]; exact hx)))
  · exact agrees_congr r (some u) hAr
      (fun x hx => alistGet_updNode_ne m u _ x (fun he => hur (by rw [he]; exact hx)))

theorem subtreeAt_shape {pid : Nat} :
    ∀ (s S : STree), subtreeAt pid s = some S → ∃ L R, S = .node pid L R := by
  intro s
  induction s with
  | nil => intro S h; exact absurd h (by simp [subtreeAt])
  | node i l r ihl ihr =>
    intro S h
    rw [subtreeAt] at h
    by_cases hi : i = pid
    · rw [if_pos hi] at h
      injection h with h
      exact ⟨l, r, by rw [← h, hi]⟩
    · rw [if_neg hi] at h
      cases hl : subtreeAt pid l with
      | some s' =>
        rw [hl] at h
        injection h with h
        exact h ▸ ihl s' hl
      | none =>
        rw [hl] at h
        dsimp only at h
        exact ihr S h

theorem subtreeAt_isSome_of_mem {pid : Nat} :
    ∀ (s : STree), pid ∈ s.ids → (subtreeAt pid s).isSome = true := by
  intro s
  induction s with
  | nil => intro h; exact absurd h (by simp [STree.ids])
  | node i l r ihl ihr =>
    intro h
    rw [subtreeAt]
    by_cases hi : i = pid
    · rw [if_pos hi]; rfl
    · rw [if_neg hi]
      rcases mem_ids_node.mp h with he | hml | hmr
      · exact absurd he.symm hi
      · cases hsl : subtreeAt pid l with
        | some s' => dsimp only; rfl
        | none =>
          have := ihl hml
          rw [hsl] at this
          exact absurd this (by simp)
      · cases hsl : subtreeAt pid l with
        | some s' => dsimp only; rfl
        | none => dsimp only; exact ihr hmr

theorem subtreeAt_sub {pid : Nat} :
    ∀ (s S : STree), subtreeAt pid s = some S →
      (∀ x ∈ S.ids, x ∈ s.ids) ∧ (s.ids.Nodup → S.ids.Nodup) := by
  intro s
  induction s with
  | nil => intro S h; exact absurd h (by simp [subtreeAt])
  | node i l r ihl ihr =>
    intro S h
    rw [subtreeAt] at h
    by_cases hi : i = pid
    · rw [if_pos hi] at h
      injection h with h
      subst h
      exact ⟨fun x hx => hx, fun hnd => hnd⟩
    · rw [if_neg hi] at h
      cases hsl : subtreeAt pid l with
      | some s' =>
        rw [hsl] at h
        injection h with h
        subst h
        obtain ⟨hsub, hnd'⟩ := ihl s' hsl
        exact ⟨fun x hx => mem_ids_node.mpr (Or.inr (Or.inl (hsub x hx))),
          fun hnd => hnd' (nodup_node hnd).2.2.1⟩
      | none =>
        rw [hsl] at h
        dsimp only at h
        obtain ⟨hsub, hnd'⟩ := ihr S h
        exact ⟨fun x hx => mem_ids_node.mpr (Or.inr (Or.inr (hsub x hx))),
          fun hnd => hnd' (nodup_node hnd).2.2.2.1⟩

theorem agrees_subtreeAt {m : List (Nat × BTreeNode)} {pid : Nat} {tn0 : BTreeNode}
    (htn : alistGet m pid = some tn0) :
    ∀ (s : STree) (par : Option Nat) (S : STree), Agrees m par s →
      subtreeAt pid s = some S → Agrees m tn0.parent S := by
  intro s
  induction s with
  | nil => intro par S _ h; exact absurd h (by simp [subtreeAt])
  | node i l r ihl ihr =>
    intro par S hA h
    obtain ⟨⟨n, hg, hp, hl, hr, hpend⟩, hAl, hAr⟩ := hA
    rw [subtreeAt] at h
    by_cases hi : i = pid
    · rw [if_pos hi] at h
      injection h with h
      have hg' : alistGet m pid = some n := by rw [← hi]; exact hg
      have hn : tn0 = n := by
        rw [htn] at hg'
        exact Option.some.inj hg'
      have hpar : tn0.parent = par := by rw [hn]; exact hp
      rw [hpar, ← h]
      exact ⟨⟨n, hg, hp, hl, hr, hpend⟩, hAl, hAr⟩
    · rw [if_neg hi] at h
      cases hsl : subtreeAt pid l with
      | some s' =>
        rw [hsl] at h
        injection h with h
        subst h
        exact ihl (some i) s' hAl hsl
      | none =>
        rw [hsl] at h
        dsimp only at h
        exact ihr (some i) S hAr h

theorem agrees_root_parent {m : List (Nat × BTreeNode)} {par : Option Nat}
    {pid : Nat} {tn0 : BTreeNode} (s : STree) (hA : Agrees m par s)
    (hr : s.rootId = some pid) (htn : alistGet m pid = some tn0) :
    tn0.parent = par := by
  cases s with
  | nil => exact absurd hr (by simp [STree.rootId])
  | node i l r =>
    obtain ⟨⟨n, hg, hp, _, _, _⟩, _, _⟩ := hA
    rw [STree.rootId] at hr
    have hi : i = pid := Option.some.inj hr
    subst hi
    rw [htn] at hg
    have h1 : tn0 = n := Option.some.inj hg
    rw [h1]
    exact hp

theorem agrees_parent_above {m : List (Nat × BTreeNode)} {pid : Nat}
    {tn0 : BTreeNode} {L R : STree} (htn : alistGet m pid = some tn0) :
    ∀ (s : STree) (par : Option Nat), Agrees m par s → s.ids.Nodup →
      subtreeAt pid s = some (.node pid L R) → s.rootId ≠ some pid →
      ∃ q, tn0.parent = some q ∧ q ∈ s.ids ∧ q ≠ pid ∧
        q ∉ (STree.node pid L R).ids := by
  intro s
  induction s with
  | nil => intro par _ _ h _; exact absurd h (by simp [subtreeAt])
  | node i l r ihl ihr =>
    intro par hA hnd hsub hroot
    obtain ⟨⟨n, hg, hp, hl, hr, hpend⟩, hAl, hAr⟩ := hA
    obtain ⟨hil, hir, hndl, hndr, hdisj⟩ := nodup_node hnd
    have hi : i ≠ pid := fun he => hroot (by rw [STree.rootId, he])
    rw [subtreeAt, if_neg hi] at hsub
    cases hsl : subtreeAt pid l with
    | some s' =>
      rw [hsl] at hsub
      injection hsub with hsub
      subst hsub
      by_cases hlr : l.rootId = some pid
      · cases l with
        | nil => exact absurd hlr (by simp [STree.rootId])
        | node j ll rr =>
          rw [STree.rootId] at hlr
          have hj : j = pid := Option.some.inj hlr
          subst hj
          rw [subtreeAt, if_pos rfl] at hsl
          injection hsl with hsl
          obtain ⟨⟨n', hg', hp', _, _, _⟩, _, _⟩ := hAl
          have hn' : tn0 = n' := by
            rw [htn] at hg'
            exact Option.some.inj hg'
          refine ⟨i, by rw [hn']; exact hp', mem_ids_node.mpr (Or.inl rfl), hi, ?_⟩
          rw [← hsl]
          exact hil
      · obtain ⟨q, hq1, hq2, hq3, hq4⟩ := ihl (some i) hAl hndl hsl hlr
        exact ⟨q, hq1, mem_ids_node.mpr (Or.inr (Or.inl hq2)), hq3, hq4⟩
    | none =>
      rw [hsl] at hsub
      dsimp only at hsub
      by_cases hrr : r.rootId = some pid
      · cases r with
        | nil => exact absurd hrr (by simp [STree.rootId])
        | node j ll rr =>
          rw [STree.rootId] at hrr
          have hj : j = pid := Option.some.inj hrr
          subst hj
          rw [subtreeAt, if_pos rfl] at hsub
          injection hsub with hsub
          obtain ⟨⟨n', hg', hp', _, _, _⟩, _, _⟩ := hAr
          have hn' : tn0 = n' := by
            rw [htn] at hg'
            exact Option.some.inj hg'
          refine ⟨i, by rw [hn']; exact hp', mem_ids_node.mpr (Or.inl rfl), hi, ?_⟩
          rw [← hsub]
          exact hir
      · obtain ⟨q, hq1, hq2, hq3, hq4⟩ := ihr (some i) hAr hndr hsub hrr
        exact ⟨q, hq1, mem_ids_node.mpr (Or.inr (Or.inr hq2)), hq3, hq4⟩

theorem reach_of_ids {t : BTree} :
    ∀ (s : STree) (par : Option Nat), Agrees t.nodes par s →
      (∀ j, s.rootId = some j → Reach t j) → ∀ i ∈ s.ids, Reach t i := by
  intro s
  induction s with
  | nil => intro par _ _ i hi; exact absurd hi (by simp [STree.ids])
  | node k l r ihl ihr =>
    intro par hA hroot i hi
    obtain ⟨⟨n, hg, hp, hl, hr, _⟩, hAl, hAr⟩ := hA
    have hk : Reach t k := hroot k rfl
    rcases mem_ids_node.mp hi with he | hml | hmr
    · rw [he]; exact hk
    · refine ihl (some k) hAl ?_ i hml
      intro j hj
      exact Reach.left k n j hk hg (by rw [hl, hj])
    · refine ihr (some k) hAr ?_ i hmr
      intro j hj
      exact Reach.right k n j hk hg (by rw [hr, hj])

theorem ids_child_left {m : List (Nat × BTreeNode)} {p c : Nat} {np : BTreeNode} :
    ∀ (s : STree) (par : Option Nat), Agrees m par s → p ∈ s.ids →
      alistGet m p = some np → np.left = some c → c ∈ s.ids := by
  intro s
  induction s with
  | nil => intro par _ h; exact absurd h (by simp [STree.ids])
  | node k l r ihl ihr =>
    intro par hA hp hget hc
    obtain ⟨⟨n, hg, _, hl, hr, _⟩, hAl, hAr⟩ := hA
    rcases mem_ids_node.mp hp with he | hml | hmr
    · rw [he] at hget
      rw [hget] at hg
      have hn : np = n := Option.some.inj hg
      rw [← hn] at hl
      rw [hc] at hl
      cases l with
      | nil => exact absurd hl.symm (by simp [STree.rootId])
      | node j ll rr =>
        rw [STree.rootId] at hl
        have hj : c = j := Option.some.inj hl
        exact mem_ids_node.mpr (Or.inr (Or.inl (mem_ids_node.mpr (Or.inl hj))))
    · exact mem_ids_node.mpr (Or.inr (Or.inl (ihl (some k) hAl hml hget hc)))
    · exact mem_ids_node.mpr (Or.inr (Or.inr (ihr (some k) hAr hmr hget hc)))

theorem ids_child_right {m : List (Nat × BTreeNode)} {p c : Nat} {np : BTreeNode} :
    ∀ (s : STree) (par : Option Nat), Agrees m par s → p ∈ s.ids →
      alistGet m p = some np → np.right = some c → c ∈ s.ids := by
  intro s
  induction s with
  | nil => intro par _ h; exact absurd h (by simp [STree.ids])
  | node k l r ihl ihr =>
    intro par hA hp hget hc
    obtain ⟨⟨n, hg, _, hl, hr, _⟩, hAl, hAr⟩ := hA
    rcases mem_ids_node.mp hp with he | hml | hmr
    · rw [he] at hget
      rw [hget] at hg
      have hn : np = n := Option.some.inj hg
      rw [← hn] at hr
      rw [hc] at hr
      cases r with
      | nil => exact absurd hr.symm (by simp [STree.rootId])
      | node j ll rr =>
        rw [STree.rootId] at hr
        have hj : c = j := Option.some.inj hr
        exact mem_ids_node.mpr (Or.inr (Or.inr (mem_ids_node.mpr (Or.inl hj))))
    · exact mem_ids_node.mpr (Or.inr (Or.inl (ihl (some k) hAl hml hget hc)))
    · exact mem_ids_node.mpr (Or.inr (Or.inr (ihr (some k) hAr hmr hget hc)))

theorem ids_of_reach {t : BTree} {sh : STree} (hA : Agrees t.nodes none sh)
    (hroot : t.root = sh.rootId) : ∀ i, Reach t i → i ∈ sh.ids := by
  intro i hr
  induction hr with
  | root rt hrt =>
    rw [hroot] at hrt
    cases sh with
    | nil => exact absurd hrt (by simp [STree.rootId])
    | node k l r =>
      rw [STree.rootId] at hrt
      exact mem_ids_node.mpr (Or.inl (Option.some.inj hrt).symm)
  | left p np c _ hget hc ih => exact ids_child_left sh none hA ih hget hc
  | right p np c _ hget hc ih => exact ids_child_right sh none hA ih hget hc

theorem agrees_parent_witness {m : List (Nat × BTreeNode)} :
    ∀ (s : STree) (par : Option Nat), Agrees m par s → ∀ i, i ∈ s.ids →
      s.rootId ≠ some i →
      ∃ n p np, alistGet m i = some n ∧ n.parent = some p ∧
        alistGet m p = some np ∧ (np.left = some i ∨ np.right = some i) := by
  intro s
  induction s with
  | nil => intro par _ i hi; exact absurd hi (by simp [STree.ids])
  | node k l r ihl ihr =>
    intro par hA i hi hroot
    obtain ⟨⟨n, hg, hp, hl, hr, _⟩, hAl, hAr⟩ := hA
    have hik : i ≠ k := fun he => hroot (by rw [STree.rootId, he])
    rcases mem_ids_node.mp hi with he | hml | hmr
    · exact absurd he hik
    · by_cases hlr : l.rootId = some i
      · cases l with
        | nil => exact absurd hlr (by simp [STree.rootId])
        | node j ll rr =>
          obtain ⟨⟨n', hg', hp', _, _, _⟩, _, _⟩ := hAl
          rw [STree.rootId] at hlr
          have hj : j = i := Option.some.inj hlr
          subst hj
          exact ⟨n', k, n, hg', hp', hg, Or.inl (by rw [hl, STree.rootId])⟩
      · exact ihl (some k) hAl i hml hlr
    · by_cases hrr : r.rootId = some i
      · cases r with
        | nil => exact absurd hrr (by simp [STree.rootId])
        | node j ll rr =>
          obtain ⟨⟨n', hg', hp', _, _, _⟩, _, _⟩ := hAr
          rw [STree.rootId] at hrr
          have hj : j = i := Option.some.inj hrr
          subst hj
          exact ⟨n', k, n, hg', hp', hg, Or.inr (by rw [hr, STree.rootId])⟩
      · exact ihr (some k) hAr i hmr hrr

/-- Well-formedness implies the claimed structural invariant. -/
theorem WF_TreeInv {t : BTree} (h : WF t) : TreeInv t := by
  obtain ⟨sh, hA, hnd, hroot, hiff, hknd⟩ := h
  refine ⟨?_, ?_, ?_⟩
  · intro i
    constructor
    · intro hk
      have hm : i ∈ sh.ids :=
        (hiff i).mp ((alistGet_isSome_iff_mem t.nodes i).mpr hk)
      refine reach_of_ids sh none hA ?_ i hm
      intro j hj
      exact Reach.root j (by rw [hroot, hj])
    · intro hr
      exact (alistGet_isSome_iff_mem t.nodes i).mp
        ((hiff i).mpr (ids_of_reach hA hroot i hr))
  · intro i hr hrne
    have hm : i ∈ sh.ids := ids_of_reach hA hroot i hr
    have hshroot : sh.rootId ≠ some i := by rw [← hroot]; exact hrne
    exact agrees_parent_witness sh none hA i hm hshroot
  · intro r0 nr hr0 hget
    rw [hroot] at hr0
    cases sh with
    | nil => exact absurd hr0 (by simp [STree.rootId])
    | node k l rr =>
      obtain ⟨⟨n, hg, hp, _, _, _⟩, _, _⟩ := hA
      rw [STree.rootId] at hr0
      have hk : k = r0 := Option.some.inj hr0
      subst hk
      rw [hget] at hg
      have hnr : nr = n := Option.some.inj hg
      rw [hnr]
      exact hp

theorem rootId_insertShadow (slot pid : Nat) : ∀ s : STree,
    (insertShadow slot pid s).rootId = s.rootId := by
  intro s
  cases s with
  | nil => rfl
  | node i l r =>
    rw [insertShadow.eq_def]
    dsimp only
    by_cases h : i = slot
    · rw [if_pos h]
      cases l with
      | nil => rfl
      | node a la ra => rfl
    · rw [if_neg h]; rfl

theorem insertShadow_not_mem (slot pid : Nat) : ∀ s : STree,
    slot ∉ s.ids → insertShadow slot pid s = s := by
  intro s
  induction s with
  | nil => intro _; rfl
  | node i l r ihl ihr =>
    intro h
    rw [insertShadow.eq_def]
    dsimp only
    rw [if_neg (fun he => h (mem_ids_node.mpr (Or.inl he.symm)))]
    rw [ihl (fun hm => h (mem_ids_node.mpr (Or.inr (Or.inl hm)))),
      ihr (fun hm => h (mem_ids_node.mpr (Or.inr (Or.inr hm))))]

theorem available_facts (n : BTreeNode) (h : n.available = true) :
    n.status = some "OK" ∧ (n.left = none ∨ n.right = none) := by
  unfold BTreeNode.available at h
  rw [Bool.and_eq_true, Bool.or_eq_true] at h
  refine ⟨eq_of_beq h.1, ?_⟩
  rcases h.2 with h2 | h2
  · exact Or.inl (eq_of_beq h2)
  · exact Or.inr (eq_of_beq h2)

theorem not_pending_of_OK {n : BTreeNode} (h : n.status = some "OK") :
    n.status ≠ some "pending" := by
  rw [h]
  intro hh
  exact absurd (Option.some.inj hh) (by decide)

theorem rootId_none {s : STree} (h : s.rootId = none) : s = .nil := by
  cases s with
  | nil => rfl
  | node i l r => exact absurd h (by simp [STree.rootId])

set_option maxHeartbeats 2000000 in
/-- After a successful insertion the arena realises the shadow tree with a
fresh leaf `pid` hung under `slot`. -/
theorem insert_shadow_all {m : List (Nat × BTreeNode)} {slot pid : Nat}
    {sn nd : BTreeNode} {m2 : List (Nat × BTreeNode)}
    (hsn : alistGet m slot = some sn)
    (hav : sn.available = true)
    (hpid : alistGet m pid = none)
    (hndl : nd.left = none) (hndr : nd.right = none) (hndp : nd.parent = some slot)
    (hm2 : m2 = if sn.left == none
      then alistSet (alistSet m pid nd) slot { sn with left := some pid }
      else alistSet (alistSet m pid nd) slot { sn with right := some pid }) :
    ∀ (s : STree) (par : Option Nat), Agrees m par s → s.ids.Nodup →
      slot ∈ s.ids → pid ∉ s.ids →
      Agrees m2 par (insertShadow slot pid s) ∧
      (∀ x, x ∈ (insertShadow slot pid s).ids ↔ x ∈ s.ids ∨ x = pid) ∧
      (insertShadow slot pid s).ids.Nodup ∧
      (insertShadow slot pid s).rootId = s.rootId := by
  have hsp : slot ≠ pid := by
    intro he
    rw [he, hpid] at hsn
    exact absurd hsn (by simp)
  have hOK : sn.status = some "OK" := (available_facts sn hav).1
  have hbcases : (sn.left == none) = true ∨ (sn.left == none) = false := by
    cases sn.left == none
    · exact Or.inr rfl
    · exact Or.inl rfl
  have hframe : ∀ x, x ≠ slot → x ≠ pid → alistGet m2 x = alistGet m x := by
    intro x h1 h2
    rcases hbcases with hb | hb
    · rw [hm2, if_pos hb, alistGet_alistSet, if_neg (fun he => h1 he.symm),
        alistGet_alistSet, if_neg (fun he => h2 he.symm)]
    · rw [hm2, hb, if_neg (by simp), alistGet_alistSet,
        if_neg (fun he => h1 he.symm), alistGet_alistSet,
        if_neg (fun he => h2 he.symm)]
  have hgetpid : alistGet m2 pid = some nd := by
    rcases hbcases with hb | hb
    · rw [hm2, if_pos hb, alistGet_alistSet, if_neg hsp, alistGet_alistSet,
        if_pos rfl]
    · rw [hm2, hb, if_neg (by simp), alistGet_alistSet, if_neg hsp,
        alistGet_alistSet, if_pos rfl]
  intro s
  induction s with
  | nil => intro par _ _ h _; exact absurd h (by simp [STree.ids])
  | node i l r ihl ihr =>
    intro par hA hnd hslot hpids
    obtain ⟨⟨n, hg, hp, hl, hr, hpend⟩, hAl, hAr⟩ := hA
    obtain ⟨hil, hir, hndL, hndR, hdisj⟩ := nodup_node hnd
    have hpl : pid ∉ l.ids := fun hm => hpids (mem_ids_node.mpr (Or.inr (Or.inl hm)))
    have hpr : pid ∉ r.ids := fun hm => hpids (mem_ids_node.mpr (Or.inr (Or.inr hm)))
    have hpi : pid ≠ i := fun he => hpids (mem_ids_node.mpr (Or.inl he))
    by_cases hi : i = slot
    · subst hi
      rw [hsn] at hg
      have hnn : sn = n := Option.some.inj hg
      rw [← hnn] at hp hl hr hpend
      cases l with
      | nil =>
        have hsl : sn.left = none := hl
        have hb : (sn.left == none) = true := by rw [hsl]; rfl
        have hm2' : m2 = alistSet (alistSet m pid nd) i
            { sn with left := some pid } := by rw [hm2, if_pos hb]
        have hsh : insertShadow i pid (.node i .nil r) =
            .node i (.node pid .nil .nil) r := by
          rw [insertShadow.eq_def]
          dsimp only
          rw [if_pos rfl]
        have hgslot : alistGet m2 i = some { sn with left := some pid } := by
          rw [hm2', alistGet_alistSet, if_pos rfl]
        have hAr2 : Agrees m2 (some i) r := by
          refine agrees_congr r (some i) hAr ?_
          intro x hx
          exact hframe x (fun he => hir (he ▸ hx)) (fun he => hpr (he ▸ hx))
        rw [hsh]
        refine ⟨⟨⟨{ sn with left := some pid }, hgslot, hp, rfl, hr,
            fun hs => absurd hs (not_pending_of_OK hOK)⟩,
          ⟨⟨nd, hgetpid, hndp, hndl.trans rfl, hndr.trans rfl,
            fun _ => ⟨rfl, rfl⟩⟩, trivial, trivial⟩, hAr2⟩, ?_, ?_, rfl⟩
        · intro x
          simp only [STree.ids, List.nil_append, List.cons_append,
            List.mem_cons, List.mem_append, List.not_mem_nil]
          tauto
        · show (i :: pid :: r.ids).Nodup
          refine List.nodup_cons.mpr ⟨?_, List.nodup_cons.mpr ⟨hpr, hndR⟩⟩
          intro hm
          rcases List.mem_cons.mp hm with he | hm2x
          · exact hsp he
          · exact hir hm2x
      | node a la ra =>
        have hsl : sn.left = some a := hl
        have hb : (sn.left == none) = false := by rw [hsl]; rfl
        have hsr : sn.right = none := by
          rcases (available_facts sn hav).2 with h2 | h2
          · rw [hsl] at h2; exact absurd h2 (by simp)
          · exact h2
        have hrnil : r = .nil := rootId_none (by rw [← hr, hsr])
        subst hrnil
        have hm2' : m2 = alistSet (alistSet m pid nd) i
            { sn with right := some pid } := by
          rw [hm2, hb, if_neg (by simp)]
        have hsh : insertShadow i pid (.node i (.node a la ra) .nil) =
            .node i (.node a la ra) (.node pid .nil .nil) := by
          rw [insertShadow.eq_def]
          dsimp only
          rw [if_pos rfl]
        have hgslot : alistGet m2 i = some { sn with right := some pid } := by
          rw [hm2', alistGet_alistSet, if_pos rfl]
        have hAl2 : Agrees m2 (some i) (.node a la ra) := by
          refine agrees_congr (.node a la ra) (some i) hAl ?_
          intro x hx
          exact hframe x (fun he => hil (he ▸ hx)) (fun he => hpl (he ▸ hx))
        have hiA : i ≠ a := fun he => hil (List.mem_cons.mpr (Or.inl he))
        have hiX : i ∉ la.ids ++ ra.ids :=
          fun hm => hil (List.mem_cons.mpr (Or.inr hm))
        have hpa : pid ≠ a := fun he => hpl (List.mem_cons.mpr (Or.inl he))
        have hpX : pid ∉ la.ids ++ ra.ids :=
          fun hm => hpl (List.mem_cons.mpr (Or.inr hm))
        obtain ⟨haX, hXnd⟩ := List.nodup_cons.mp hndL
        rw [hsh]
        refine ⟨⟨⟨{ sn with right := some pid }, hgslot, hp, hl, rfl,
            fun hs => absurd hs (not_pending_of_OK hOK)⟩, hAl2,
          ⟨⟨nd, hgetpid, hndp, hndl.trans rfl, hndr.trans rfl,
            fun _ => ⟨rfl, rfl⟩⟩, trivial, trivial⟩⟩, ?_, ?_, rfl⟩
        · intro x
          simp only [STree.ids, List.nil_append, List.append_nil,
            List.cons_append, List.mem_cons, List.mem_append, List.not_mem_nil]
          tauto
        · show (i :: a :: ((la.ids ++ ra.ids) ++ [pid])).Nodup
          refine List.nodup_cons.mpr ⟨?_, List.nodup_cons.mpr ⟨?_, ?_⟩⟩
          · intro hm
            rcases List.mem_cons.mp hm with he | hm
            · exact hiA he
            · rcases List.mem_append.mp hm with hm | hm
              · exact hiX hm
              · exact hsp (List.mem_singleton.mp hm)
          · intro hm
            rcases List.mem_append.mp hm with hm | hm
            · exact haX hm
            · exact hpa (List.mem_singleton.mp hm).symm
          · refine List.nodup_append.mpr ⟨hXnd, List.nodup_singleton pid, ?_⟩
            intro x hx hy
            rw [List.mem_singleton.mp hy] at hx
            exact hpX hx
    · have hslot' : slot ∈ l.ids ∨ slot ∈ r.ids := by
        rcases mem_ids_node.mp hslot with he | hm | hm
        · exact absurd he.symm hi
        · exact Or.inl hm
        · exact Or.inr hm
      have hsh : insertShadow slot pid (.node i l r) =
          .node i (insertShadow slot pid l) (insertShadow slot pid r) := by
        rw [insertShadow.eq_def]
        dsimp only
        rw [if_neg hi]
      rw [hsh]
      have hgi : alistGet m2 i = alistGet m i :=
        hframe i (fun he => hi he) (fun he => hpi he.symm)
      have hpendnew : n.status = some "pending" →
          insertShadow slot pid l = .nil ∧ insertShadow slot pid r = .nil := by
        intro hs
        obtain ⟨e1, e2⟩ := hpend hs
        rw [e1, e2]
        exact ⟨rfl, rfl⟩
      rcases hslot' with hml | hmr
      · have hsr : slot ∉ r.ids := fun hm => hdisj slot hml hm
        have hrid : insertShadow slot pid r = r := insertShadow_not_mem slot pid r hsr
        obtain ⟨hA', hids', hnd', hroot'⟩ := ihl (some i) hAl hndL hml hpl
        have hAr2 : Agrees m2 (some i) r := by
          refine agrees_congr r (some i) hAr ?_
          intro x hx
          exact hframe x (fun he => hsr (he ▸ hx)) (fun he => hpr (he ▸ hx))
        refine ⟨⟨⟨n, by rw [hgi]; exact hg, hp, by rw [hl, hroot'],
            by rw [hrid, hr], hpendnew⟩, hA', by rw [hrid]; exact hAr2⟩,
          ?_, ?_, rfl⟩
        · intro x
          rw [hrid]
          simp only [STree.ids, List.mem_cons, List.mem_append]
          have := hids' x
          simp only [STree.ids] at this
          tauto
        · rw [hrid]
          show (i :: ((insertShadow slot pid l).ids ++ r.ids)).Nodup
          refine List.nodup_cons.mpr ⟨?_, List.nodup_append.mpr ⟨hnd', hndR, ?_⟩⟩
          · intro hm
            rcases List.mem_append.mp hm with hm | hm
            · rcases (hids' i).mp hm with hm | hm
              · exact hil hm
              · exact hpi hm.symm
            · exact hir hm
          · intro x hx hy
            rcases (hids' x).mp hx with hx' | hx'
            · exact hdisj x hx' hy
            · rw [hx'] at hy
              exact hpr hy
      · have hsl : slot ∉ l.ids := fun hm => hdisj slot hm hmr
        have hlid : insertShadow slot pid l = l := insertShadow_not_mem slot pid l hsl
        obtain ⟨hA', hids', hnd', hroot'⟩ := ihr (some i) hAr hndR hmr hpr
        have hAl2 : Agrees m2 (some i) l := by
          refine agrees_congr l (some i) hAl ?_
          intro x hx
          exact hframe x (fun he => hsl (he ▸ hx)) (fun he => hpl (he ▸ hx))
        refine ⟨⟨⟨n, by rw [hgi]; exact hg, hp, by rw [hlid, hl],
            by rw [hr, hroot'], hpendnew⟩, by rw [hlid]; exact hAl2, hA'⟩,
          ?_, ?_, rfl⟩
        · intro x
          rw [hlid]
          simp only [STree.ids, List.mem_cons, List.mem_append]
          have := hids' x
          simp only [STree.ids] at this
          tauto
        · rw [hlid]
          show (i :: (l.ids ++ (insertShadow slot pid r).ids)).Nodup
          refine List.nodup_cons.mpr ⟨?_, List.nodup_append.mpr ⟨hndL, hnd', ?_⟩⟩
          · intro hm
            rcases List.mem_append.mp hm with hm | hm
            · exact hil hm
            · rcases (hids' i).mp hm with hm | hm
              · exact hir hm
              · exact hpi hm.symm
          · intro x hx hy
            rcases (hids' x).mp hy with hy' | hy'
            · exact hdisj x hx hy'
            · rw [hy'] at hx
              exact hpl hx

/-- A freshly initialised tree is well-formed. -/
theorem WF_init (vid : String) (root : Option BTreeNode) (fresh : Nat) :
    WF (BTree.init vid root fresh) := by
  have h : ∀ (r1 : BTreeNode), r1.left = none → r1.right = none →
      r1.parent = none → WF ⟨vid, some r1.peer_id, [(r1.peer_id, r1)]⟩ := by
    intro r1 h1 h2 h3
    refine ⟨.node r1.peer_id .nil .nil, ?_, ?_, rfl, ?_, ?_⟩
    · exact ⟨⟨r1, by rw [alistGet, if_pos rfl], h3, h1.trans rfl, h2.trans rfl,
        fun _ => ⟨rfl, rfl⟩⟩, trivial, trivial⟩
    · simp [STree.ids]
    · intro x
      constructor
      · intro hx
        by_cases he : r1.peer_id = x
        · simp [STree.ids, he.symm]
        · rw [alistGet, if_neg he, alistGet] at hx
          simp at hx
      · intro hx
        have hxe : x = r1.peer_id := by simpa [STree.ids] using hx
        rw [hxe, alistGet, if_pos rfl]
        rfl
    · simp
  cases root with
  | some r => exact h { r with left := none, right := none, parent := none } rfl rfl rfl
  | none => exact h _ rfl rfl rfl

/-- A successful `insert_by_node` preserves well-formedness. -/
theorem WF_insert {t : BTree} {fuel : Nat} {nn : BTreeNode} {t' : BTree}
    {slot : Nat} (hWF : WF t)
    (h : t.insert_by_node fuel (some nn) = (t', .ok slot)) : WF t' := by
  obtain ⟨sh, hA, hnd, hroot, hiff, hknd⟩ := hWF
  unfold BTree.insert_by_node at h
  dsimp only at h
  by_cases h1 : (alistGet t.nodes nn.peer_id).isSome = true
  · rw [if_pos h1] at h; exact absurd h (by simp)
  · rw [if_neg h1] at h
    by_cases h2 : nn.parent.isSome = true
    · rw [if_pos h2] at h; exact absurd h (by simp)
    · rw [if_neg h2] at h
      cases hf : treeFindAvailableSlot t.nodes t.root fuel with
      | error e => rw [hf] at h; exact absurd h (by simp)
      | ok os =>
        rw [hf] at h
        cases os with
        | none => exact absurd h (by simp)
        | some s =>
          dsimp only at h
          obtain ⟨sn0, hs0, hav0⟩ := findSlotLoop_ok t.nodes fuel [t.root] s hf
          have hpid_none : alistGet t.nodes nn.peer_id = none :=
            Option.not_isSome_iff_eq_none.mp (by simpa using h1)
          have hsp : s ≠ nn.peer_id := by
            intro he
            rw [he, hpid_none] at hs0
            exact absurd hs0 (by simp)
          have hm1s : alistGet (alistSet t.nodes nn.peer_id
              { nn with left := none, right := none, parent := some s }) s
              = some sn0 := by
            rw [alistGet_alistSet, if_neg (fun he => hsp he.symm)]
            exact hs0
          rw [hm1s] at h
          dsimp only at h
          injection h with ha hb
          have hsl : s = slot := by injection hb
          subst hsl
          have hm2eq : t'.nodes = if sn0.left == none
              then alistSet (alistSet t.nodes nn.peer_id
                { nn with left := none, right := none, parent := some s }) s
                { sn0 with left := some nn.peer_id }
              else alistSet (alistSet t.nodes nn.peer_id
                { nn with left := none, right := none, parent := some s }) s
                { sn0 with right := some nn.peer_id } := by
            rw [← ha]
          have hsmem : s ∈ sh.ids := (hiff s).mp (by simp [hs0])
          have hpnot : nn.peer_id ∉ sh.ids := by
            intro hm
            have := (hiff nn.peer_id).mpr hm
            rw [hpid_none] at this
            exact absurd this (by simp)
          obtain ⟨hA', hids', hnd', hroot'⟩ :=
            insert_shadow_all hs0 hav0 hpid_none rfl rfl rfl hm2eq sh none
              hA hnd hsmem hpnot
          have hroot_pres : t'.root = t.root := by rw [← ha]
          refine ⟨insertShadow s nn.peer_id sh, hA', hnd', ?_, ?_, ?_⟩
          · rw [hroot_pres, hroot, hroot']
          · intro x
            rw [hids' x]
            have hsome : (alistGet t'.nodes x).isSome = true ↔
                x = nn.peer_id ∨ (alistGet t.nodes x).isSome = true := by
              rw [hm2eq]
              have hcases : (sn0.left == none) = true ∨
                  (sn0.left == none) = false := by
                cases sn0.left == none
                · exact Or.inr rfl
                · exact Or.inl rfl
              rcases hcases with hc | hc
              · rw [if_pos hc, alistGet_alistSet]
                by_cases hx : s = x
                · subst hx
                  simp [hs0]
                · rw [if_neg hx, alistGet_alistSet]
                  by_cases hx2 : nn.peer_id = x
                  · subst hx2; simp
                  · rw [if_neg hx2]
                    have hxne : x ≠ nn.peer_id := fun he => hx2 he.symm
                    constructor
                    · exact fun hh => Or.inr hh
                    · intro hh
                      rcases hh with hh | hh
                      · exact absurd hh hxne
                      · exact hh
              · rw [hc, if_neg (by simp), alistGet_alistSet]
                by_cases hx : s = x
                · subst hx
                  simp [hs0]
                · rw [if_neg hx, alistGet_alistSet]
                  by_cases hx2 : nn.peer_id = x
                  · subst hx2; simp
                  · rw [if_neg hx2]
                    have hxne : x ≠ nn.peer_id := fun he => hx2 he.symm
                    constructor
                    · exact fun hh => Or.inr hh
                    · intro hh
                      rcases hh with hh | hh
                      · exact absurd hh hxne
                      · exact hh
            rw [hsome, hiff x]
            tauto
          · have hkeys1 : (alistSet t.nodes nn.peer_id { nn with left := none, right := none, parent := some s }).map Prod.fst = t.nodes.map Prod.fst ++ [nn.peer_id] :=
              alistSet_keys_of_none t.nodes nn.peer_id _ hpid_none
            have hknd1 : ((alistSet t.nodes nn.peer_id { nn with left := none, right := none, parent := some s }).map Prod.fst).Nodup := by
              rw [hkeys1]
              refine List.nodup_append.mpr
                ⟨hknd, List.nodup_singleton _, ?_⟩
              intro x hx hy
              rw [List.mem_singleton.mp hy] at hx
              have := (alistGet_isSome_iff_mem t.nodes nn.peer_id).mpr hx
              rw [hpid_none] at this
              exact absurd this (by simp)
            rw [hm2eq]
            have hcases : (sn0.left == none) = true ∨
                (sn0.left == none) = false := by
              cases sn0.left == none
              · exact Or.inr rfl
              · exact Or.inl rfl
            rcases hcases with hc | hc
            · rw [if_pos hc, alistSet_keys_of_get _ _ _ _ hm1s]
              exact hknd1
            · rw [hc, if_neg (by simp), alistSet_keys_of_get _ _ _ _ hm1s]
              exact hknd1

/-- A successful `insert_by_peer_id` preserves well-formedness. -/
theorem WF_insertPeer {t : BTree} {fuel pid : Nat} {t' : BTree} {slot : Nat}
    (hWF : WF t) (h : t.insert_by_peer_id fuel pid = (t', .ok slot)) : WF t' := by
  unfold BTree.insert_by_peer_id at h
  by_cases h1 : (alistGet t.nodes pid).isSome = true
  · rw [if_pos h1] at h; exact absurd h (by simp)
  · rw [if_neg h1] at h
    exact WF_insert hWF h

theorem leftSpine_subset_ids : ∀ (s : STree) (x : Nat),
    x ∈ s.leftSpine → x ∈ s.ids := by
  intro s
  induction s with
  | nil => intro x h; exact absurd h (by simp [STree.leftSpine])
  | node i l r ihl ihr =>
    intro x h
    rw [STree.leftSpine] at h
    rcases List.mem_cons.mp h with he | hm
    · exact mem_ids_node.mpr (Or.inl he)
    · exact mem_ids_node.mpr (Or.inr (Or.inl (ihl x hm)))

/-- A successful spine walk started at the shadow root lands on an
available node of the left spine. -/
theorem spineWalk_spine {m : List (Nat × BTreeNode)} :
    ∀ (fuel : Nat) (s : STree) (par : Option Nat) (a c : Nat),
      Agrees m par s → s.rootId = some a → spineWalk m fuel a = .ok c →
      c ∈ s.leftSpine ∧ ∃ nc, alistGet m c = some nc ∧ nc.available = true := by
  intro fuel
  induction fuel with
  | zero =>
    intro s par a c _ _ h
    rw [spineWalk] at h
    exact absurd h (by simp)
  | succ fuel ih =>
    intro s par a c hA hr h
    cases s with
    | nil => exact absurd hr (by simp [STree.rootId])
    | node i l r =>
      rw [STree.rootId] at hr
      have hi : i = a := Option.some.inj hr
      subst hi
      obtain ⟨⟨n, hg, hp, hl, hrr, hpend⟩, hAl, hAr⟩ := hA
      rw [spineWalk, hg] at h
      dsimp only at h
      by_cases hav : n.available = true
      · rw [if_pos hav] at h
        have hc : c = i := by
          injection h with hh
          exact hh.symm
        subst hc
        refine ⟨?_, n, hg, hav⟩
        rw [STree.leftSpine]
        exact List.mem_cons_self _ _
      · rw [if_neg hav] at h
        cases hnl : n.left with
        | some l' =>
          rw [hnl] at h
          rw [hl] at hnl
          obtain ⟨hspine, hnc⟩ := ih l (some i) l' c hAl hnl h
          refine ⟨?_, hnc⟩
          rw [STree.leftSpine]
          exact List.mem_cons.mpr (Or.inr hspine)
        | none =>
          rw [hnl] at h
          exact ih (.node i l r) par i c
            ⟨⟨n, hg, hp, hl, hrr, hpend⟩, hAl, hAr⟩ rfl h

theorem rootId_spliceSpine (c : Nat) (R : STree) : ∀ s : STree,
    (spliceSpine c R s).rootId = s.rootId := by
  intro s
  cases s with
  | nil => rfl
  | node i l r =>
    rw [spliceSpine.eq_def]
    dsimp only
    by_cases h : i = c
    · rw [if_pos h]
      cases l with
      | nil => rfl
      | node a la ra => rfl
    · rw [if_neg h]; rfl

theorem replaceAt_not_mem (pid : Nat) (new : STree) : ∀ s : STree,
    pid ∉ s.ids → replaceAt pid new s = s := by
  intro s
  induction s with
  | nil => intro _; rfl
  | node i l r ihl ihr =>
    intro h
    rw [replaceAt.eq_def]
    dsimp only
    rw [if_neg (fun he => h (mem_ids_node.mpr (Or.inl he.symm)))]
    rw [ihl (fun hm => h (mem_ids_node.mpr (Or.inr (Or.inl hm)))),
      ihr (fun hm => h (mem_ids_node.mpr (Or.inr (Or.inr hm))))]

set_option maxHeartbeats 2000000 in
/-- The both-children graft of `tree_remove_by_node`: re-hanging the right
subtree `R` under the available left-spine node `c` realises the
`spliceSpine` shadow. -/
theorem splice_agrees {m : List (Nat × BTreeNode)} {c rid : Nat}
    {rl rr : STree} {nc : BTreeNode} {m4 : List (Nat × BTreeNode)}
    (hAR : Agrees m (some pid0) (.node rid rl rr))
    (hndR : (STree.node rid rl rr).ids.Nodup)
    (hc : alistGet m c = some nc) (hcav : nc.available = true)
    (hcR : c ∉ (STree.node rid rl rr).ids)
    (hm4 : m4 = if nc.left == none
      then alistSet (updNode m rid (fun n => { n with parent := some c })) c
        { nc with left := some rid }
      else alistSet (updNode m rid (fun n => { n with parent := some c })) c
        { nc with right := some rid }) :
    ∀ (s : STree) (par : Option Nat), Agrees m par s →
      (s.ids ++ (STree.node rid rl rr).ids).Nodup →
      c ∈ s.leftSpine →
      Agrees m4 par (spliceSpine c (.node rid rl rr) s) ∧
      (∀ x, x ∈ (spliceSpine c (.node rid rl rr) s).ids ↔
        x ∈ s.ids ∨ x ∈ (STree.node rid rl rr).ids) ∧
      (spliceSpine c (.node rid rl rr) s).ids.Nodup ∧
      (spliceSpine c (.node rid rl rr) s).rootId = s.rootId := by
  have hcrid : c ≠ rid := fun he => hcR (by rw [he]; exact mem_ids_node.mpr (Or.inl rfl))
  have hcOK : nc.status = some "OK" := (available_facts nc hcav).1
  have hbcases : (nc.left == none) = true ∨ (nc.left == none) = false := by
    cases nc.left == none
    · exact Or.inr rfl
    · exact Or.inl rfl
  have hframe : ∀ x, x ≠ c → x ≠ rid → alistGet m4 x = alistGet m x := by
    intro x h1 h2
    rcases hbcases with hb | hb
    · rw [hm4, if_pos hb, alistGet_alistSet, if_neg (fun he => h1 he.symm),
        alistGet_updNode_ne m rid _ x (fun he => h2 he.symm)]
    · rw [hm4, hb, if_neg (by simp), alistGet_alistSet,
        if_neg (fun he => h1 he.symm),
        alistGet_updNode_ne m rid _ x (fun he => h2 he.symm)]
  obtain ⟨⟨nr, hgr, hpr, hlr, hrr2, hpendr⟩, hArl, hArr⟩ := hAR
  have hg4rid : alistGet m4 rid = some { nr with parent := some c } := by
    rcases hbcases with hb | hb
    · rw [hm4, if_pos hb, alistGet_alistSet, if_neg hcrid,
        alistGet_updNode_self m rid _ nr hgr]
    · rw [hm4, hb, if_neg (by simp), alistGet_alistSet, if_neg hcrid,
        alistGet_updNode_self m rid _ nr hgr]
  obtain ⟨hridl, hridr, hndrl, hndrr, hdisjR⟩ := nodup_node hndR
  have hcrl : c ∉ rl.ids := fun hm => hcR (mem_ids_node.mpr (Or.inr (Or.inl hm)))
  have hcrr : c ∉ rr.ids := fun hm => hcR (mem_ids_node.mpr (Or.inr (Or.inr hm)))
  have hAR4 : Agrees m4 (some c) (.node rid rl rr) := by
    refine ⟨⟨{ nr with parent := some c }, hg4rid, rfl, hlr, hrr2,
      fun hs => hpendr hs⟩, ?_, ?_⟩
    · refine agrees_congr rl (some rid) hArl ?_
      intro x hx
      exact hframe x (fun he => hcrl (he ▸ hx)) (fun he => hridl (he ▸ hx))
    · refine agrees_congr rr (some rid) hArr ?_
      intro x hx
      exact hframe x (fun he => hcrr (he ▸ hx)) (fun he => hridr (he ▸ hx))
  intro s
  induction s with
  | nil => intro par _ _ h; exact absurd h (by simp [STree.leftSpine])
  | node i l r ihl ihr =>
    intro par hA hbig hcs
    obtain ⟨⟨n, hg, hp, hl, hr, hpend⟩, hAl, hAr⟩ := hA
    rw [STree.ids, List.cons_append] at hbig
    obtain ⟨hi_nin, hrest⟩ := List.nodup_cons.mp hbig
    rw [List.append_assoc, List.nodup_append] at hrest
    obtain ⟨hndl, hrest2, hdisjl⟩ := hrest
    obtain ⟨hndr, hndR2, hdisjrR⟩ := List.nodup_append.mp hrest2
    have hil : i ∉ l.ids := fun hm =>
      hi_nin (List.mem_append_left _ (List.mem_append_left _ hm))
    have hir : i ∉ r.ids := fun hm =>
      hi_nin (List.mem_append_left _ (List.mem_append_right _ hm))
    have hiR : i ∉ (STree.node rid rl rr).ids := fun hm =>
      hi_nin (List.mem_append_right _ hm)
    have hdisjlr : ∀ x ∈ l.ids, x ∉ r.ids := fun x hx hy =>
      hdisjl hx (List.mem_append_left _ hy)
    have hdisjlR : ∀ x ∈ l.ids, x ∉ (STree.node rid rl rr).ids := fun x hx hy =>
      hdisjl hx (List.mem_append_right _ hy)
    by_cases hi : i = c
    · subst hi
      rw [hc] at hg
      have hnn : nc = n := Option.some.inj hg
      rw [← hnn] at hp hl hr hpend
      cases l with
      | nil =>
        have hsl : nc.left = none := hl
        have hb : (nc.left == none) = true := by rw [hsl]; rfl
        have hm4' : m4 = alistSet (updNode m rid
            (fun n => { n with parent := some i })) i
            { nc with left := some rid } := by rw [hm4, if_pos hb]
        have hsh : spliceSpine i (.node rid rl rr) (.node i .nil r) =
            .node i (.node rid rl rr) r := by
          rw [spliceSpine.eq_def]
          dsimp only
          rw [if_pos rfl]
        have hgc4 : alistGet m4 i = some { nc with left := some rid } := by
          rw [hm4', alistGet_alistSet, if_pos rfl]
        have hAr2 : Agrees m4 (some i) r := by
          refine agrees_congr r (some i) hAr ?_
          intro x hx
          refine hframe x (fun he => hir (he ▸ hx)) ?_
          intro he
          rw [he] at hx
          exact hdisjrR hx (mem_ids_node.mpr (Or.inl rfl))
        rw [hsh]
        refine ⟨⟨⟨{ nc with left := some rid }, hgc4, hp, rfl, hr,
            fun hs => absurd hs (not_pending_of_OK hcOK)⟩, hAR4, hAr2⟩,
          ?_, ?_, rfl⟩
        · intro x
          constructor
          · intro hm
            rcases mem_ids_node.mp hm with he | hm | hm
            · exact Or.inl (mem_ids_node.mpr (Or.inl he))
            · exact Or.inr hm
            · exact Or.inl (mem_ids_node.mpr (Or.inr (Or.inr hm)))
          · intro hm
            rcases hm with hm | hm
            · rcases mem_ids_node.mp hm with he | hm | hm
              · exact mem_ids_node.mpr (Or.inl he)
              · exact absurd hm (by simp [STree.ids])
              · exact mem_ids_node.mpr (Or.inr (Or.inr hm))
            · exact mem_ids_node.mpr (Or.inr (Or.inl hm))
        · show (i :: ((STree.node rid rl rr).ids ++ r.ids)).Nodup
          refine List.nodup_cons.mpr ⟨?_,
            List.nodup_append.mpr ⟨hndR2, hndr, ?_⟩⟩
          · intro hm
            rcases List.mem_append.mp hm with hm | hm
            · exact hiR hm
            · exact hir hm
          · intro x hx hy
            exact hdisjrR hy hx
      | node a la ra =>
        have hsl : nc.left = some a := hl
        have hb : (nc.left == none) = false := by rw [hsl]; rfl
        have hsr : nc.right = none := by
          rcases (available_facts nc hcav).2 with h2 | h2
          · rw [hsl] at h2; exact absurd h2 (by simp)
          · exact h2
        have hrnil : r = .nil := rootId_none (by rw [← hr, hsr])
        subst hrnil
        have hm4' : m4 = alistSet (updNode m rid
            (fun n => { n with parent := some i })) i
            { nc with right := some rid } := by
          rw [hm4, hb, if_neg (by simp)]
        have hsh : spliceSpine i (.node rid rl rr) (.node i (.node a la ra) .nil) =
            .node i (.node a la ra) (.node rid rl rr) := by
          rw [spliceSpine.eq_def]
          dsimp only
          rw [if_pos rfl]
        have hgc4 : alistGet m4 i = some { nc with right := some rid } := by
          rw [hm4', alistGet_alistSet, if_pos rfl]
        have hAl2 : Agrees m4 (some i) (.node a la ra) := by
          refine agrees_congr (.node a la ra) (some i) hAl ?_
          intro x hx
          refine hframe x (fun he => hil (he ▸ hx)) ?_
          intro he
          rw [he] at hx
          exact hdisjlR rid hx (mem_ids_node.mpr (Or.inl rfl))
        rw [hsh]
        refine ⟨⟨⟨{ nc with right := some rid }, hgc4, hp, hl, rfl,
            fun hs => absurd hs (not_pending_of_OK hcOK)⟩, hAl2, hAR4⟩,
          ?_, ?_, rfl⟩
        · intro x
          constructor
          · intro hm
            rcases mem_ids_node.mp hm with he | hm | hm
            · exact Or.inl (mem_ids_node.mpr (Or.inl he))
            · exact Or.inl (mem_ids_node.mpr (Or.inr (Or.inl hm)))
            · exact Or.inr hm
          · intro hm
            rcases hm with hm | hm
            · rcases mem_ids_node.mp hm with he | hm | hm
              · exact mem_ids_node.mpr (Or.inl he)
              · exact mem_ids_node.mpr (Or.inr (Or.inl hm))
              · exact absurd hm (by simp [STree.ids])
            · exact mem_ids_node.mpr (Or.inr (Or.inr hm))
        · show (i :: ((STree.node a la ra).ids ++ (STree.node rid rl rr).ids)).Nodup
          refine List.nodup_cons.mpr ⟨?_,
            List.nodup_append.mpr ⟨hndl, hndR2, hdisjlR⟩⟩
          intro hm
          rcases List.mem_append.mp hm with hm | hm
          · exact hil hm
          · exact hiR hm
    · have hcl : c ∈ l.leftSpine := by
        rw [STree.leftSpine] at hcs
        rcases List.mem_cons.mp hcs with he | hm
        · exact absurd he.symm hi
        · exact hm
      have hsh : spliceSpine c (.node rid rl rr) (.node i l r) =
          .node i (spliceSpine c (.node rid rl rr) l) r := by
        rw [spliceSpine.eq_def]
        dsimp only
        rw [if_neg hi]
      rw [hsh]
      have hgi : alistGet m4 i = alistGet m i :=
        hframe i (fun he => hi he)
          (fun he => hiR (by rw [he]; exact mem_ids_node.mpr (Or.inl rfl)))
      have hbigl : (l.ids ++ (STree.node rid rl rr).ids).Nodup :=
        List.nodup_append.mpr ⟨hndl, hndR2,
          fun x hx hy => hdisjl hx (List.mem_append_right _ hy)⟩
      obtain ⟨hA', hids', hnd', hroot'⟩ := ihl (some i) hAl hbigl hcl
      have hAr2 : Agrees m4 (some i) r := by
        refine agrees_congr r (some i) hAr ?_
        intro x hx
        refine hframe x ?_ ?_
        · intro he
          rw [he] at hx
          exact hdisjlr c (leftSpine_subset_ids l c hcl) hx
        · intro he
          rw [he] at hx
          exact hdisjrR hx (mem_ids_node.mpr (Or.inl rfl))
      have hpendnew : n.status = some "pending" →
          spliceSpine c (.node rid rl rr) l = .nil ∧ r = .nil := by
        intro hs
        obtain ⟨e1, e2⟩ := hpend hs
        rw [e1] at hcl
        exact absurd hcl (by simp [STree.leftSpine])
      refine ⟨⟨⟨n, by rw [hgi]; exact hg, hp, by rw [hl, hroot'], hr,
          hpendnew⟩, hA', hAr2⟩, ?_, ?_, rfl⟩
      · intro x
        constructor
        · intro hm
          rcases mem_ids_node.mp hm with he | hm | hm
          · exact Or.inl (mem_ids_node.mpr (Or.inl he))
          · rcases (hids' x).mp hm with hm' | hm'
            · exact Or.inl (mem_ids_node.mpr (Or.inr (Or.inl hm')))
            · exact Or.inr hm'
          · exact Or.inl (mem_ids_node.mpr (Or.inr (Or.inr hm)))
        · intro hm
          rcases hm with hm | hm
          · rcases mem_ids_node.mp hm with he | hm | hm
            · exact mem_ids_node.mpr (Or.inl he)
            · exact mem_ids_node.mpr (Or.inr (Or.inl ((hids' x).mpr (Or.inl hm))))
            · exact mem_ids_node.mpr (Or.inr (Or.inr hm))
          · exact mem_ids_node.mpr (Or.inr (Or.inl ((hids' x).mpr (Or.inr hm))))
      · show (i :: ((spliceSpine c (.node rid rl rr) l).ids ++ r.ids)).Nodup
        refine List.nodup_cons.mpr ⟨?_,
          List.nodup_append.mpr ⟨hnd', hndr, ?_⟩⟩
        · intro hm
          rcases List.mem_append.mp hm with hm | hm
          · rcases (hids' i).mp hm with hm | hm
            · exact hil hm
            · exact hiR hm
          · exact hir hm
        · intro x hx hy
          rcases (hids' x).mp hx with hx' | hx'
          · exact hdisjlr x hx' hy
          · exact hdisjrR hy hx'

theorem mem_of_rootId {s : STree} {x : Nat} (h : s.rootId = some x) :
    x ∈ s.ids := by
  cases s with
  | nil => exact absurd h (by simp [STree.rootId])
  | node i l r =>
    rw [STree.rootId] at h
    exact mem_ids_node.mpr (Or.inl (Option.some.inj h).symm)

set_option maxHeartbeats 2000000 in
/-- The relink writes of `tree_remove_by_node` realise `replaceAt`: after
pointing the target's parent slot at the replacement `new`, the arena
agrees with the shadow tree in which the target's subtree was replaced. -/
theorem agrees_replace {m m' : List (Nat × BTreeNode)} {pid : Nat}
    {tn0 : BTreeNode} {L R new : STree} {upId : Option Nat}
    (htn : alistGet m pid = some tn0)
    (hup : new.rootId = upId)
    (hm6 : ∀ x, x ∉ (STree.node pid L R).ids →
      alistGet m' x = alistGet (match tn0.parent with
        | some q => updNode m q (fun pn =>
            if pn.left == some pid then { pn with left := upId }
            else { pn with right := upId })
        | none => m) x)
    (hnew : Agrees m' tn0.parent new)
    (hndnew : new.ids.Nodup)
    (hidsnew : ∀ x, x ∈ new.ids ↔ x ∈ (STree.node pid L R).ids ∧ x ≠ pid) :
    ∀ (s : STree) (par : Option Nat), Agrees m par s → s.ids.Nodup →
      subtreeAt pid s = some (.node pid L R) →
      Agrees m' par (replaceAt pid new s) ∧
      (∀ x, x ∈ (replaceAt pid new s).ids ↔ x ∈ s.ids ∧ x ≠ pid) ∧
      (replaceAt pid new s).ids.Nodup ∧
      (replaceAt pid new s).rootId =
        (if s.rootId = some pid then upId else s.rootId) := by
  intro s
  induction s with
  | nil => intro par _ _ h; exact absurd h (by simp [subtreeAt])
  | node i l r ihl ihr =>
    intro par hA hnd hsub
    obtain ⟨⟨n, hg, hp, hl, hr, hpend⟩, hAl, hAr⟩ := hA
    obtain ⟨hil, hir, hndl, hndr, hdisj⟩ := nodup_node hnd
    by_cases hi : i = pid
    · rw [subtreeAt, if_pos hi] at hsub
      injection hsub with hsub
      injection hsub with h1 h2 h3
      have hre : replaceAt pid new (.node i l r) = new := by
        rw [replaceAt.eq_def]
        dsimp only
        rw [if_pos hi]
      have hg' : alistGet m pid = some n := by rw [← hi]; exact hg
      have hn : tn0 = n := by
        rw [htn] at hg'
        exact Option.some.inj hg'
      have hpar : tn0.parent = par := by rw [hn]; exact hp
      refine ⟨?_, ?_, ?_, ?_⟩
      · rw [hre, ← hpar]
        exact hnew
      · intro x
        rw [hre, hidsnew x, ← h2, ← h3, hi]
      · rw [hre]; exact hndnew
      · rw [hre, STree.rootId, hi, if_pos rfl]
        exact hup
    · rw [subtreeAt, if_neg hi] at hsub
      have hre : replaceAt pid new (.node i l r) =
          .node i (replaceAt pid new l) (replaceAt pid new r) := by
        rw [replaceAt.eq_def]
        dsimp only
        rw [if_neg hi]
      rw [hre]
      cases hsl : subtreeAt pid l with
      | some s' =>
        rw [hsl] at hsub
        injection hsub with hsub
        subst hsub
        have hSsubl : ∀ x ∈ (STree.node pid L R).ids, x ∈ l.ids :=
          (subtreeAt_sub l _ hsl).1
        have hpidl : pid ∈ l.ids := hSsubl pid (mem_ids_node.mpr (Or.inl rfl))
        have hpidr : pid ∉ r.ids := fun hm => hdisj pid hpidl hm
        have hrre : replaceAt pid new r = r := replaceAt_not_mem pid new r hpidr
        rw [hrre]
        have hiS : i ∉ (STree.node pid L R).ids := fun hm => hil (hSsubl i hm)
        obtain ⟨hA', hids', hnd', hroot'⟩ := ihl (some i) hAl hndl hsl
        have hpendF : n.status = some "pending" → False := by
          intro hs
          obtain ⟨e1, _⟩ := hpend hs
          rw [e1] at hpidl
          exact absurd hpidl (by simp [STree.ids])
        refine ⟨?_, ?_, ?_, ?_⟩
        · by_cases hlr : l.rootId = some pid
          · have hq : tn0.parent = some i := agrees_root_parent l hAl hlr htn
            have hm6i := hm6 i hiS
            rw [hq] at hm6i
            have hnl : n.left = some pid := by rw [hl, hlr]
            have hgi' : alistGet m' i = some { n with left := upId } := by
              rw [hm6i, alistGet_updNode_self m i _ n hg]
              rw [hnl, beq_self_eq_true, if_pos rfl]
            have hframe_r : ∀ x ∈ r.ids, alistGet m' x = alistGet m x := by
              intro x hx
              have hxS : x ∉ (STree.node pid L R).ids :=
                fun hm => hdisj x (hSsubl x hm) hx
              rw [hm6 x hxS, hq,
                alistGet_updNode_ne m i _ x (fun he => hir (he ▸ hx))]
            refine ⟨⟨{ n with left := upId }, hgi', hp, ?_, ?_,
              fun hs => (hpendF hs).elim⟩, hA', ?_⟩
            · show upId = (replaceAt pid new l).rootId
              rw [hroot', if_pos hlr]
            · show n.right = r.rootId
              exact hr
            · exact agrees_congr r (some i) hAr hframe_r
          · obtain ⟨q, hq1, hq2, hq3, hq4⟩ :=
              agrees_parent_above htn l (some i) hAl hndl hsl hlr
            have hm6i := hm6 i hiS
            rw [hq1] at hm6i
            have hqi : q ≠ i := fun he => hil (he ▸ hq2)
            have hgi' : alistGet m' i = some n := by
              rw [hm6i, alistGet_updNode_ne m q _ i hqi]
              exact hg
            have hframe_r : ∀ x ∈ r.ids, alistGet m' x = alistGet m x := by
              intro x hx
              have hxS : x ∉ (STree.node pid L R).ids :=
                fun hm => hdisj x (hSsubl x hm) hx
              have hqx : q ≠ x := fun he => hdisj q hq2 (he ▸ hx)
              rw [hm6 x hxS, hq1, alistGet_updNode_ne m q _ x hqx]
            refine ⟨⟨n, hgi', hp, ?_, ?_,
              fun hs => (hpendF hs).elim⟩, hA', ?_⟩
            · show n.left = (replaceAt pid new l).rootId
              rw [hroot', if_neg hlr]
              exact hl
            · show n.right = r.rootId
              exact hr
            · exact agrees_congr r (some i) hAr hframe_r
        · intro x
          constructor
          · intro hm
            rcases mem_ids_node.mp hm with he | hm | hm
            · exact ⟨mem_ids_node.mpr (Or.inl he), by rw [he]; exact hi⟩
            · obtain ⟨hm1, hm2⟩ := (hids' x).mp hm
              exact ⟨mem_ids_node.mpr (Or.inr (Or.inl hm1)), hm2⟩
            · refine ⟨mem_ids_node.mpr (Or.inr (Or.inr hm)), ?_⟩
              intro he
              rw [he] at hm
              exact hpidr hm
          · intro hm
            obtain ⟨hm, hne⟩ := hm
            rcases mem_ids_node.mp hm with he | hm | hm
            · exact mem_ids_node.mpr (Or.inl he)
            · exact mem_ids_node.mpr (Or.inr (Or.inl ((hids' x).mpr ⟨hm, hne⟩)))
            · exact mem_ids_node.mpr (Or.inr (Or.inr hm))
        · show (i :: ((replaceAt pid new l).ids ++ r.ids)).Nodup
          refine List.nodup_cons.mpr ⟨?_,
            List.nodup_append.mpr ⟨hnd', hndr, ?_⟩⟩
          · intro hm
            rcases List.mem_append.mp hm with hm | hm
            · exact hil ((hids' i).mp hm).1
            · exact hir hm
          · intro x hx hy
            exact hdisj x ((hids' x).mp hx).1 hy
        · have hcond : ¬ ((STree.node i l r).rootId = some pid) := by
            rw [STree.rootId]
            intro hh
            exact hi (Option.some.inj hh)
          rw [if_neg hcond]
          rfl
      | none =>
        rw [hsl] at hsub
        dsimp only at hsub
        have hSsubr : ∀ x ∈ (STree.node pid L R).ids, x ∈ r.ids :=
          (subtreeAt_sub r _ hsub).1
        have hpidr : pid ∈ r.ids := hSsubr pid (mem_ids_node.mpr (Or.inl rfl))
        have hpidl : pid ∉ l.ids := by
          intro hm
          have := subtreeAt_isSome_of_mem l hm
          rw [hsl] at this
          exact absurd this (by simp)
        have hlre : replaceAt pid new l = l := replaceAt_not_mem pid new l hpidl
        rw [hlre]
        have hiS : i ∉ (STree.node pid L R).ids := fun hm => hir (hSsubr i hm)
        obtain ⟨hA', hids', hnd', hroot'⟩ := ihr (some i) hAr hndr hsub
        have hpendF : n.status = some "pending" → False := by
          intro hs
          obtain ⟨_, e2⟩ := hpend hs
          rw [e2] at hpidr
          exact absurd hpidr (by simp [STree.ids])
        have hlne : l.rootId ≠ some pid := fun hh => hpidl (mem_of_rootId hh)
        refine ⟨?_, ?_, ?_, ?_⟩
        · by_cases hrr : r.rootId = some pid
          · have hq : tn0.parent = some i := agrees_root_parent r hAr hrr htn
            have hm6i := hm6 i hiS
            rw [hq] at hm6i
            have hnlne : n.left ≠ some pid := by
              rw [hl]
              exact hlne
            have hbeq : (n.left == some pid) = false :=
              beq_eq_false_iff_ne.mpr hnlne
            have hgi' : alistGet m' i = some { n with right := upId } := by
              rw [hm6i, alistGet_updNode_self m i _ n hg]
              rw [hbeq, if_neg (by simp)]
            have hframe_l : ∀ x ∈ l.ids, alistGet m' x = alistGet m x := by
              intro x hx
              have hxS : x ∉ (STree.node pid L R).ids :=
                fun hm => hdisj x hx (hSsubr x hm)
              rw [hm6 x hxS, hq,
                alistGet_updNode_ne m i _ x (fun he => hil (he ▸ hx))]
            refine ⟨⟨{ n with right := upId }, hgi', hp, ?_, ?_,
              fun hs => (hpendF hs).elim⟩, ?_, hA'⟩
            · show n.left = l.rootId
              exact hl
            · show upId = (replaceAt pid new r).rootId
              rw [hroot', if_pos hrr]
            · exact agrees_congr l (some i) hAl hframe_l
          · obtain ⟨q, hq1, hq2, hq3, hq4⟩ :=
              agrees_parent_above htn r (some i) hAr hndr hsub hrr
            have hm6i := hm6 i hiS
            rw [hq1] at hm6i
            have hqi : q ≠ i := fun he => hir (he ▸ hq2)
            have hgi' : alistGet m' i = some n := by
              rw [hm6i, alistGet_updNode_ne m q _ i hqi]
              exact hg
            have hframe_l : ∀ x ∈ l.ids, alistGet m' x = alistGet m x := by
              intro x hx
              have hxS : x ∉ (STree.node pid L R).ids :=
                fun hm => hdisj x hx (hSsubr x hm)
              have hqx : q ≠ x := by
                intro he
                rw [he] at hq2
                exact hdisj x hx hq2
              rw [hm6 x hxS, hq1, alistGet_updNode_ne m q _ x hqx]
            refine ⟨⟨n, hgi', hp, ?_, ?_,
              fun hs => (hpendF hs).elim⟩, ?_, hA'⟩
            · show n.left = l.rootId
              exact hl
            · show n.right = (replaceAt pid new r).rootId
              rw [hroot', if_neg hrr]
              exact hr
            · exact agrees_congr l (some i) hAl hframe_l
        · intro x
          constructor
          · intro hm
            rcases mem_ids_node.mp hm with he | hm | hm
            · exact ⟨mem_ids_node.mpr (Or.inl he), by rw [he]; exact hi⟩
            · refine ⟨mem_ids_node.mpr (Or.inr (Or.inl hm)), ?_⟩
              intro he
              rw [he] at hm
              exact hpidl hm
            · obtain ⟨hm1, hm2⟩ := (hids' x).mp hm
              exact ⟨mem_ids_node.mpr (Or.inr (Or.inr hm1)), hm2⟩
          · intro hm
            obtain ⟨hm, hne⟩ := hm
            rcases mem_ids_node.mp hm with he | hm | hm
            · exact mem_ids_node.mpr (Or.inl he)
            · exact mem_ids_node.mpr (Or.inr (Or.inl hm))
            · exact mem_ids_node.mpr (Or.inr (Or.inr ((hids' x).mpr ⟨hm, hne⟩)))
        · show (i :: (l.ids ++ (replaceAt pid new r).ids)).Nodup
          refine List.nodup_cons.mpr ⟨?_,
            List.nodup_append.mpr ⟨hndl, hnd', ?_⟩⟩
          · intro hm
            rcases List.mem_append.mp hm with hm | hm
            · exact hil hm
            · exact hir ((hids' i).mp hm).1
          · intro x hx hy
            exact hdisj x hx ((hids' x).mp hy).1
        · have hcond : ¬ ((STree.node i l r).rootId = some pid) := by
            rw [STree.rootId]
            intro hh
            exact hi (Option.some.inj hh)
          rw [if_neg hcond]
          rfl

/-- Erasing the (now unlinked) target from the arena preserves
well-formedness of the remaining shadow. -/
theorem erase_WF {tt : BTree} {sh' : STree} {pid : Nat}
    (hA' : Agrees tt.nodes none sh')
    (hnd' : sh'.ids.Nodup)
    (hroot' : tt.root = sh'.rootId)
    (hpid' : pid ∉ sh'.ids)
    (hiff' : ∀ x, x ≠ pid → ((alistGet tt.nodes x).isSome = true ↔ x ∈ sh'.ids))
    (hknd' : (tt.nodes.map Prod.fst).Nodup) :
    WF { tt with nodes := alistErase tt.nodes pid } := by
  refine ⟨sh', ?_, hnd', hroot', ?_, ?_⟩
  · refine agrees_congr sh' none hA' ?_
    intro x hx
    exact alistGet_alistErase_ne tt.nodes pid x (fun he => hpid' (he ▸ hx))
  · intro x
    by_cases hx : x = pid
    · subst hx
      show (alistGet (alistErase tt.nodes x) x).isSome = true ↔ x ∈ sh'.ids
      rw [alistGet_alistErase_self tt.nodes x hknd']
      constructor
      · intro hs; exact absurd hs (by simp)
      · intro hm; exact absurd hm hpid'
    · show (alistGet (alistErase tt.nodes pid) x).isSome = true ↔ x ∈ sh'.ids
      rw [alistGet_alistErase_ne tt.nodes pid x (fun he => hx he.symm)]
      exact hiff' x hx
  · exact List.Nodup.sublist
      (List.Sublist.map Prod.fst (alistErase_sublist tt.nodes pid)) hknd'

set_option maxHeartbeats 2000000 in
/-- The common tail of `removeRelink`: given the final arena `m6` realising
the relink writes, the erased tree is well-formed. -/
theorem relink_finish {t t4 : BTree} {sh : STree} {pid : Nat} {tn0 : BTreeNode}
    {L R new₀ : STree} {up : Option Nat} {m6 : List (Nat × BTreeNode)} {t7 : BTree}
    (hA : Agrees t.nodes none sh) (hnd : sh.ids.Nodup)
    (hroot : t.root = sh.rootId)
    (hiff : ∀ x, (alistGet t.nodes x).isSome = true ↔ x ∈ sh.ids)
    (htn : alistGet t.nodes pid = some tn0)
    (hsub : subtreeAt pid sh = some (.node pid L R))
    (ht4root : t4.root = t.root)
    (hup : new₀.rootId = up)
    (hidsnew : ∀ x, x ∈ new₀.ids ↔ x ∈ L.ids ∨ x ∈ R.ids)
    (hndnew : new₀.ids.Nodup)
    (hm6 : ∀ x, x ∉ (STree.node pid L R).ids →
      alistGet m6 x = alistGet (match tn0.parent with
        | some q => updNode t.nodes q (fun pn =>
            if pn.left == some pid then { pn with left := up }
            else { pn with right := up })
        | none => t.nodes) x)
    (hnew6 : Agrees m6 tn0.parent new₀)
    (hs6 : ∀ x, (alistGet m6 x).isSome = (alistGet t.nodes x).isSome)
    (hk6 : (m6.map Prod.fst).Nodup)
    (hg6 : alistGet m6 pid = some tn0)
    (ht7 : t7 = if (t4.root == some pid) = true
      then (⟨t4.volume_id, up, m6⟩ : BTree)
      else (⟨t4.volume_id, t4.root, m6⟩ : BTree)) :
    alistGet t7.nodes pid = some tn0 ∧
    WF { t7 with nodes := alistErase t7.nodes pid } := by
  have hSnd : (STree.node pid L R).ids.Nodup := (subtreeAt_sub sh _ hsub).2 hnd
  obtain ⟨hpidL, hpidR, hndL, hndR, hdisjLR⟩ := nodup_node hSnd
  have hidsnew' : ∀ x, x ∈ new₀.ids ↔ x ∈ (STree.node pid L R).ids ∧ x ≠ pid := by
    intro x
    rw [hidsnew x]
    constructor
    · intro hm
      rcases hm with hm | hm
      · refine ⟨mem_ids_node.mpr (Or.inr (Or.inl hm)), ?_⟩
        intro he
        rw [he] at hm
        exact hpidL hm
      · refine ⟨mem_ids_node.mpr (Or.inr (Or.inr hm)), ?_⟩
        intro he
        rw [he] at hm
        exact hpidR hm
    · intro hm
      obtain ⟨hm, hne⟩ := hm
      rcases mem_ids_node.mp hm with he | hm | hm
      · exact absurd he hne
      · exact Or.inl hm
      · exact Or.inr hm
  obtain ⟨hA', hids', hnd', hroot'⟩ :=
    agrees_replace htn hup hm6 hnew6 hndnew hidsnew' sh none hA hnd hsub
  have hmem : pid ∈ sh.ids :=
    (subtreeAt_sub sh _ hsub).1 pid (mem_ids_node.mpr (Or.inl rfl))
  have hpid' : pid ∉ (replaceAt pid new₀ sh).ids := by
    intro hm
    exact absurd rfl ((hids' pid).mp hm).2
  have ht7n : t7.nodes = m6 := by
    rw [ht7]
    by_cases hc : (t4.root == some pid) = true
    · rw [if_pos hc]
    · rw [if_neg hc]
  have ht7root : t7.root = (replaceAt pid new₀ sh).rootId := by
    rw [hroot']
    by_cases hrp : sh.rootId = some pid
    · have hcond : (t4.root == some pid) = true := by
        rw [ht4root, hroot, hrp]
        exact beq_self_eq_true _
      rw [ht7, if_pos hcond, if_pos hrp]
    · have hcond : (t4.root == some pid) = false := by
        rw [ht4root, hroot]
        exact beq_eq_false_iff_ne.mpr hrp
      rw [ht7, hcond]
      rw [if_neg (by simp), if_neg hrp]
      show t4.root = sh.rootId
      rw [ht4root, hroot]
  have hA'' : Agrees t7.nodes none (replaceAt pid new₀ sh) := by
    rw [ht7n]
    exact hA'
  have hiff'' : ∀ x, x ≠ pid →
      ((alistGet t7.nodes x).isSome = true ↔ x ∈ (replaceAt pid new₀ sh).ids) := by
    intro x hx
    rw [ht7n, hs6 x, hiff x, hids' x]
    exact ⟨fun hm => ⟨hm, hx⟩, fun hm => hm.1⟩
  have hknd'' : (t7.nodes.map Prod.fst).Nodup := by
    rw [ht7n]
    exact hk6
  refine ⟨?_, ?_⟩
  · rw [ht7n]; exact hg6
  · exact erase_WF hA'' hnd' ht7root hpid' hiff'' hknd''

set_option maxHeartbeats 2000000 in
/-- `removeRelink` on a well-formed tree whose target subtree has been
grafted into the replacement `new₀` returns the target and leaves, after
the `del`, a well-formed tree. -/
theorem relink_WF {t t4 : BTree} {sh : STree} {pid : Nat} {tn0 : BTreeNode}
    {L R new₀ : STree} {up : Option Nat}
    (hA : Agrees t.nodes none sh) (hnd : sh.ids.Nodup)
    (hroot : t.root = sh.rootId)
    (hiff : ∀ x, (alistGet t.nodes x).isSome = true ↔ x ∈ sh.ids)
    (htn : alistGet t.nodes pid = some tn0)
    (hsub : subtreeAt pid sh = some (.node pid L R))
    (ht4root : t4.root = t.root)
    (hm4 : ∀ x, x ∉ L.ids → x ∉ R.ids → alistGet t4.nodes x = alistGet t.nodes x)
    (hm4some : ∀ x, (alistGet t4.nodes x).isSome = (alistGet t.nodes x).isSome)
    (hm4knd : (t4.nodes.map Prod.fst).Nodup)
    (hup : new₀.rootId = up)
    (hnewA : Agrees t4.nodes (some pid) new₀)
    (hndnew : new₀.ids.Nodup)
    (hidsnew : ∀ x, x ∈ new₀.ids ↔ x ∈ L.ids ∨ x ∈ R.ids) :
    ∀ (t7 : BTree) (res : Except Err Nat), removeRelink t4 pid up = (t7, res) →
      res = .ok pid ∧ alistGet t7.nodes pid = some tn0 ∧
      WF { t7 with nodes := alistErase t7.nodes pid } := by
  have hSnd : (STree.node pid L R).ids.Nodup := (subtreeAt_sub sh _ hsub).2 hnd
  obtain ⟨hpidL, hpidR, hndL, hndR, hdisjLR⟩ := nodup_node hSnd
  have hg4 : alistGet t4.nodes pid = some tn0 := by
    rw [hm4 pid hpidL hpidR]
    exact htn
  have hpidnew : pid ∉ new₀.ids := by
    intro hm
    rcases (hidsnew pid).mp hm with hm | hm
    · exact hpidL hm
    · exact hpidR hm
  have hnewS : ∀ x, x ∈ new₀.ids → x ∈ (STree.node pid L R).ids := by
    intro x hm
    rcases (hidsnew x).mp hm with hm | hm
    · exact mem_ids_node.mpr (Or.inr (Or.inl hm))
    · exact mem_ids_node.mpr (Or.inr (Or.inr hm))
  intro t7 res hrel
  unfold removeRelink at hrel
  rw [hg4] at hrel
  dsimp only at hrel
  cases up with
  | none =>
    have hnil : new₀ = .nil := rootId_none hup
    dsimp only at hrel
    rw [hg4] at hrel
    dsimp only at hrel
    cases hparc : tn0.parent with
    | none =>
      rw [hparc] at hrel
      dsimp only at hrel
      injection hrel with h7 hres
      have ht7 : t7 = if (t4.root == some pid) = true
          then (⟨t4.volume_id, none, t4.nodes⟩ : BTree)
          else (⟨t4.volume_id, t4.root, t4.nodes⟩ : BTree) := h7.symm
      refine ⟨hres.symm, relink_finish hA hnd hroot hiff htn hsub ht4root hup
        hidsnew hndnew ?_ ?_ ?_ ?_ ?_ ht7⟩
      · intro x hx
        have hxL : x ∉ L.ids := fun hm => hx (mem_ids_node.mpr (Or.inr (Or.inl hm)))
        have hxR : x ∉ R.ids := fun hm => hx (mem_ids_node.mpr (Or.inr (Or.inr hm)))
        rw [hparc]
        exact hm4 x hxL hxR
      · rw [hnil]; trivial
      · exact hm4some
      · exact hm4knd
      · exact hg4
    | some pp =>
      rw [hparc] at hrel
      dsimp only at hrel
      injection hrel with h7 hres
      have hrp : sh.rootId ≠ some pid := by
        intro hh
        have hpn := agrees_root_parent sh hA hh htn
        rw [hparc] at hpn
        exact absurd hpn (by simp)
      obtain ⟨q, hq1, hq2, hq3, hq4⟩ :=
        agrees_parent_above htn sh none hA hnd hsub hrp
      have hppq : pp = q := by
        rw [hparc] at hq1
        exact Option.some.inj hq1
      have hq2' : pp ∈ sh.ids := by rw [hppq]; exact hq2
      have hq3' : pp ≠ pid := by rw [hppq]; exact hq3
      have hq4' : pp ∉ (STree.node pid L R).ids := by rw [hppq]; exact hq4
      have hppL : pp ∉ L.ids := fun hm => hq4' (mem_ids_node.mpr (Or.inr (Or.inl hm)))
      have hppR : pp ∉ R.ids := fun hm => hq4' (mem_ids_node.mpr (Or.inr (Or.inr hm)))
      obtain ⟨pn, hpn⟩ : ∃ pn, alistGet t.nodes pp = some pn := by
        have hps := (hiff pp).mpr hq2'
        cases hg : alistGet t.nodes pp with
        | none => rw [hg] at hps; exact absurd hps (by simp)
        | some v => exact ⟨v, rfl⟩
      have hgpn4 : alistGet t4.nodes pp = some pn := by
        rw [hm4 pp hppL hppR]
        exact hpn
      have ht7 : t7 = if (t4.root == some pid) = true
          then (⟨t4.volume_id, none, updNode t4.nodes pp (fun pn =>
            if pn.left == some pid then { pn with left := none }
            else { pn with right := none })⟩ : BTree)
          else (⟨t4.volume_id, t4.root, updNode t4.nodes pp (fun pn =>
            if pn.left == some pid then { pn with left := none }
            else { pn with right := none })⟩ : BTree) := h7.symm
      refine ⟨hres.symm, relink_finish hA hnd hroot hiff htn hsub ht4root hup
        hidsnew hndnew ?_ ?_ ?_ ?_ ?_ ht7⟩
      · intro x hx
        have hxL : x ∉ L.ids := fun hm => hx (mem_ids_node.mpr (Or.inr (Or.inl hm)))
        have hxR : x ∉ R.ids := fun hm => hx (mem_ids_node.mpr (Or.inr (Or.inr hm)))
        rw [hparc]
        dsimp only
        by_cases hxq : x = pp
        · subst hxq
          rw [alistGet_updNode_self t4.nodes x _ pn hgpn4,
            alistGet_updNode_self t.nodes x _ pn hpn]
        · have h1 : pp ≠ x := fun he => hxq he.symm
          rw [alistGet_updNode_ne t4.nodes pp _ x h1,
            alistGet_updNode_ne t.nodes pp _ x h1]
          exact hm4 x hxL hxR
      · rw [hnil]; trivial
      · intro x
        rw [isSome_updNode]
        exact hm4some x
      · rw [updNode_keys]
        exact hm4knd
      · rw [alistGet_updNode_ne t4.nodes pp _ pid hq3']
        exact hg4
  | some u =>
    obtain ⟨nl, nr, hn0⟩ : ∃ nl nr, new₀ = .node u nl nr := by
      cases new₀ with
      | nil => exact absurd hup (by simp [STree.rootId])
      | node j jl jr =>
        rw [STree.rootId] at hup
        have hj := Option.some.inj hup
        exact ⟨jl, jr, by rw [hj]⟩
    have humem : u ∈ new₀.ids := by
      rw [hn0]
      exact mem_ids_node.mpr (Or.inl rfl)
    have hune : u ≠ pid := fun he => hpidnew (he ▸ humem)
    dsimp only at hrel
    cases hparc : tn0.parent with
    | none =>
      rw [hparc] at hrel
      have hg5 : alistGet (updNode t4.nodes u
          (fun n => { n with parent := (none : Option Nat) })) pid = some tn0 := by
        rw [alistGet_updNode_ne t4.nodes u _ pid hune]
        exact hg4
      rw [hg5] at hrel
      dsimp only at hrel
      rw [hparc] at hrel
      dsimp only at hrel
      injection hrel with h7 hres
      have hA5 : Agrees (updNode t4.nodes u
          (fun n => { n with parent := (none : Option Nat) })) none new₀ := by
        rw [hn0] at hnewA hndnew ⊢
        exact agrees_reparent none hnewA hndnew
      have hf5 : ∀ x, x ∉ new₀.ids → alistGet (updNode t4.nodes u
          (fun n => { n with parent := (none : Option Nat) })) x =
          alistGet t4.nodes x := by
        intro x hx
        exact alistGet_updNode_ne t4.nodes u _ x (fun he => hx (he ▸ humem))
      have ht7 : t7 = if (t4.root == some pid) = true
          then (⟨t4.volume_id, some u, updNode t4.nodes u
            (fun n => { n with parent := (none : Option Nat) })⟩ : BTree)
          else (⟨t4.volume_id, t4.root, updNode t4.nodes u
            (fun n => { n with parent := (none : Option Nat) })⟩ : BTree) :=
        h7.symm
      refine ⟨hres.symm, relink_finish hA hnd hroot hiff htn hsub ht4root hup
        hidsnew hndnew ?_ ?_ ?_ ?_ ?_ ht7⟩
      · intro x hx
        have hxL : x ∉ L.ids := fun hm => hx (mem_ids_node.mpr (Or.inr (Or.inl hm)))
        have hxR : x ∉ R.ids := fun hm => hx (mem_ids_node.mpr (Or.inr (Or.inr hm)))
        rw [hparc]
        rw [hf5 x (fun hm => hx (hnewS x hm))]
        exact hm4 x hxL hxR
      · rw [hparc]
        exact hA5
      · intro x
        rw [isSome_updNode]
        exact hm4some x
      · rw [updNode_keys]
        exact hm4knd
      · exact hg5
    | some pp =>
      rw [hparc] at hrel
      have hg5 : alistGet (updNode t4.nodes u
          (fun n => { n with parent := some pp })) pid = some tn0 := by
        rw [alistGet_updNode_ne t4.nodes u _ pid hune]
        exact hg4
      rw [hg5] at hrel
      dsimp only at hrel
      rw [hparc] at hrel
      dsimp only at hrel
      injection hrel with h7 hres
      have hA5 : Agrees (updNode t4.nodes u
          (fun n => { n with parent := some pp })) (some pp) new₀ := by
        rw [hn0] at hnewA hndnew ⊢
        exact agrees_reparent (some pp) hnewA hndnew
      have hf5 : ∀ x, x ∉ new₀.ids → alistGet (updNode t4.nodes u
          (fun n => { n with parent := some pp })) x =
          alistGet t4.nodes x := by
        intro x hx
        exact alistGet_updNode_ne t4.nodes u _ x (fun he => hx (he ▸ humem))
      have hrp : sh.rootId ≠ some pid := by
        intro hh
        have hpn := agrees_root_parent sh hA hh htn
        rw [hparc] at hpn
        exact absurd hpn (by simp)
      obtain ⟨q, hq1, hq2, hq3, hq4⟩ :=
        agrees_parent_above htn sh none hA hnd hsub hrp
      have hppq : pp = q := by
        rw [hparc] at hq1
        exact Option.some.inj hq1
      have hq2' : pp ∈ sh.ids := by rw [hppq]; exact hq2
      have hq3' : pp ≠ pid := by rw [hppq]; exact hq3
      have hq4' : pp ∉ (STree.node pid L R).ids := by rw [hppq]; exact hq4
      have hppL : pp ∉ L.ids := fun hm => hq4' (mem_ids_node.mpr (Or.inr (Or.inl hm)))
      have hppR : pp ∉ R.ids := fun hm => hq4' (mem_ids_node.mpr (Or.inr (Or.inr hm)))
      have hppnew : pp ∉ new₀.ids := fun hm => hq4' (hnewS pp hm)
      obtain ⟨pn, hpn⟩ : ∃ pn, alistGet t.nodes pp = some pn := by
        have hps := (hiff pp).mpr hq2'
        cases hg : alistGet t.nodes pp with
        | none => rw [hg] at hps; exact absurd hps (by simp)
        | some v => exact ⟨v, rfl⟩
      have hgpn5 : alistGet (updNode t4.nodes u
          (fun n => { n with parent := some pp })) pp = some pn := by
        rw [hf5 pp hppnew, hm4 pp hppL hppR]
        exact hpn
      have ht7 : t7 = if (t4.root == some pid) = true
          then (⟨t4.volume_id, some u, updNode (updNode t4.nodes u
            (fun n => { n with parent := some pp })) pp (fun pn =>
              if pn.left == some pid then { pn with left := some u }
              else { pn with right := some u })⟩ : BTree)
          else (⟨t4.volume_id, t4.root, updNode (updNode t4.nodes u
            (fun n => { n with parent := some pp })) pp (fun pn =>
              if pn.left == some pid then { pn with left := some u }
              else { pn with right := some u })⟩ : BTree) :=
        h7.symm
      refine ⟨hres.symm, relink_finish hA hnd hroot hiff htn hsub ht4root hup
        hidsnew hndnew ?_ ?_ ?_ ?_ ?_ ht7⟩
      · intro x hx
        have hxL : x ∉ L.ids := fun hm => hx (mem_ids_node.mpr (Or.inr (Or.inl hm)))
        have hxR : x ∉ R.ids := fun hm => hx (mem_ids_node.mpr (Or.inr (Or.inr hm)))
        rw [hparc]
        dsimp only
        by_cases hxq : x = pp
        · subst hxq
          rw [alistGet_updNode_self _ x _ pn hgpn5,
            alistGet_updNode_self t.nodes x _ pn hpn]
        · have h1 : pp ≠ x := fun he => hxq he.symm
          rw [alistGet_updNode_ne _ pp _ x h1,
            alistGet_updNode_ne t.nodes pp _ x h1]
          rw [hf5 x (fun hm => hx (hnewS x hm))]
          exact hm4 x hxL hxR
      · rw [hparc]
        refine agrees_congr new₀ (some pp) hA5 ?_
        intro x hx
        exact alistGet_updNode_ne _ pp _ x (fun he => hppnew (he ▸ hx))
      · intro x
        rw [isSome_updNode, isSome_updNode]
        exact hm4some x
      · rw [updNode_keys, updNode_keys]
        exact hm4knd
      · rw [alistGet_updNode_ne _ pp _ pid hq3']
        exact hg5

set_option maxHeartbeats 2000000 in
/-- A successful `remove_by_peer_id` preserves well-formedness. -/
theorem WF_remove {t : BTree} {fuel pid : Nat} {t' : BTree} {nret : BTreeNode}
    (hWF : WF t) (h : BTree.remove_by_peer_id fuel t pid = (t', .ok nret)) :
    WF t' := by
  obtain ⟨sh, hA, hnd, hroot, hiff, hknd⟩ := hWF
  unfold BTree.remove_by_peer_id at h
  cases hg0 : alistGet t.nodes pid with
  | none => rw [hg0] at h; exact absurd h (by simp)
  | some n0 =>
    rw [hg0] at h
    dsimp only at h
    cases fuel with
    | zero =>
      rw [BTree.tree_remove_by_node] at h
      dsimp only at h
      exact absurd h (by simp)
    | succ f =>
      have hmem : pid ∈ sh.ids := (hiff pid).mp (by rw [hg0]; rfl)
      have hsubEx := subtreeAt_isSome_of_mem sh hmem
      cases hsb : subtreeAt pid sh with
      | none => rw [hsb] at hsubEx; exact absurd hsubEx (by simp)
      | some S =>
        obtain ⟨L, R, hS⟩ := subtreeAt_shape sh S hsb
        subst hS
        have hposA : Agrees t.nodes n0.parent (.node pid L R) :=
          agrees_subtreeAt hg0 sh none _ hA hsb
        obtain ⟨⟨nn, hgn, hpn, hlL, hrR, hpend⟩, hAL, hAR⟩ := hposA
        have hni : n0 = nn := by
          rw [hg0] at hgn
          exact Option.some.inj hgn
        rw [← hni] at hlL hrR hpend
        have hSnd : (STree.node pid L R).ids.Nodup := (subtreeAt_sub sh _ hsb).2 hnd
        obtain ⟨hpidL0, hpidR0, hndL0, hndR0, hdisjS⟩ := nodup_node hSnd
        have hred : BTree.tree_remove_by_node (f + 1) t (some pid) =
            removeFinish f t pid := by
          rw [BTree.tree_remove_by_node, hg0]
          dsimp only
          by_cases hst : (n0.status == some "pending") = true
          · obtain ⟨hLnil, hRnil⟩ := hpend (eq_of_beq hst)
            have hl0 : n0.left = none := by rw [hlL, hLnil]; rfl
            have hr0 : n0.right = none := by rw [hrR, hRnil]; rfl
            rw [if_pos hst, hl0]
            dsimp only
            rw [hg0]
            dsimp only
            rw [hr0]
          · rw [if_neg hst]
        rw [hred] at h
        unfold removeFinish at h
        rw [hg0] at h
        dsimp only at h
        cases L with
        | nil =>
          have hl0 : n0.left = none := by rw [hlL]; rfl
          cases R with
          | nil =>
            have hr0 : n0.right = none := by rw [hrR]; rfl
            have hgr : removeGraft t pid n0 f = (t, .ok none) := by
              unfold removeGraft
              rw [hl0, hr0]
            rw [hgr] at h
            dsimp only at h
            cases hrel : removeRelink t pid none with
            | mk t7 res7 =>
              obtain ⟨hres7, hg7, hWF7⟩ := relink_WF hA hnd hroot hiff hg0 hsb
                rfl (fun x _ _ => rfl) (fun x => rfl) hknd
                (rfl : (STree.nil : STree).rootId = none)
                (trivial : Agrees t.nodes (some pid) STree.nil)
                (by simp [STree.ids] : (STree.nil : STree).ids.Nodup)
                (fun x => by simp [STree.ids]) t7 res7 hrel
              rw [hrel, hres7] at h
              dsimp only at h
              rw [hg7] at h
              dsimp only at h
              injection h with h1 h2
              rw [← h1]
              exact hWF7
          | node rid rl rr =>
            have hr0 : n0.right = some rid := by rw [hrR]; rfl
            have hgr : removeGraft t pid n0 f = (t, .ok (some rid)) := by
              unfold removeGraft
              rw [hl0, hr0]
            rw [hgr] at h
            dsimp only at h
            cases hrel : removeRelink t pid (some rid) with
            | mk t7 res7 =>
              obtain ⟨hres7, hg7, hWF7⟩ := relink_WF hA hnd hroot hiff hg0 hsb
                rfl (fun x _ _ => rfl) (fun x => rfl) hknd rfl hAR hndR0
                (fun x => by
                  constructor
                  · exact fun hm => Or.inr hm
                  · intro hm
                    rcases hm with hm | hm
                    · exact absurd hm (by simp [STree.ids])
                    · exact hm) t7 res7 hrel
              rw [hrel, hres7] at h
              dsimp only at h
              rw [hg7] at h
              dsimp only at h
              injection h with h1 h2
              rw [← h1]
              exact hWF7
        | node lid ll lr =>
          have hl0 : n0.left = some lid := by rw [hlL]; rfl
          cases R with
          | nil =>
            have hr0 : n0.right = none := by rw [hrR]; rfl
            have hgr : removeGraft t pid n0 f = (t, .ok (some lid)) := by
              unfold removeGraft
              rw [hl0, hr0]
            rw [hgr] at h
            dsimp only at h
            cases hrel : removeRelink t pid (some lid) with
            | mk t7 res7 =>
              obtain ⟨hres7, hg7, hWF7⟩ := relink_WF hA hnd hroot hiff hg0 hsb
                rfl (fun x _ _ => rfl) (fun x => rfl) hknd rfl hAL hndL0
                (fun x => by
                  constructor
                  · exact fun hm => Or.inl hm
                  · intro hm
                    rcases hm with hm | hm
                    · exact hm
                    · exact absurd hm (by simp [STree.ids])) t7 res7 hrel
              rw [hrel, hres7] at h
              dsimp only at h
              rw [hg7] at h
              dsimp only at h
              injection h with h1 h2
              rw [← h1]
              exact hWF7
          | node rid rl rr =>
            have hr0 : n0.right = some rid := by rw [hrR]; rfl
            unfold removeGraft at h
            rw [hl0, hr0] at h
            dsimp only at h
            cases hw : spineWalk t.nodes f pid with
            | error e =>
              rw [hw] at h
              dsimp only at h
              exact absurd h (by simp)
            | ok c =>
              rw [hw] at h
              dsimp only at h
              have hnav : n0.available = false := by
                unfold BTreeNode.available
                rw [hl0, hr0]
                simp
              cases f with
              | zero => rw [spineWalk] at hw; exact absurd hw (by simp)
              | succ f' =>
                rw [spineWalk, hg0] at hw
                dsimp only at hw
                rw [if_neg (by rw [hnav]; simp)] at hw
                rw [hl0] at hw
                obtain ⟨hcspine, nc, hgc, hcav⟩ :=
                  spineWalk_spine f' (.node lid ll lr) (some pid) lid c hAL rfl hw
                have hcL : c ∈ (STree.node lid ll lr).ids :=
                  leftSpine_subset_ids _ c hcspine
                have hcR : c ∉ (STree.node rid rl rr).ids :=
                  fun hm => hdisjS c hcL hm
                have hcrid : c ≠ rid :=
                  fun he => hcR (by rw [he]; exact mem_ids_node.mpr (Or.inl rfl))
                have hgc3 : alistGet (updNode t.nodes rid
                    (fun n => { n with parent := some c })) c = some nc := by
                  rw [alistGet_updNode_ne t.nodes rid _ c (fun he => hcrid he.symm)]
                  exact hgc
                rw [hgc3] at h
                dsimp only at h
                have hbigNodup : ((STree.node lid ll lr).ids ++
                    (STree.node rid rl rr).ids).Nodup := by
                  rw [STree.ids] at hSnd
                  exact (List.nodup_cons.mp hSnd).2
                obtain ⟨hA4, hids4, hnd4, hroot4⟩ :=
                  splice_agrees hAR hndR0 hgc hcav hcR rfl (.node lid ll lr)
                    (some pid) hAL hbigNodup hcspine
                have hT4n : (if (nc.left == none) = true
                    then ({ t with nodes := alistSet (updNode t.nodes rid (fun n => { n with parent := some c })) c { nc with left := some rid } } : BTree)
                    else ({ t with nodes := alistSet (updNode t.nodes rid (fun n => { n with parent := some c })) c { nc with right := some rid } } : BTree)).nodes =
                    (if (nc.left == none) = true
                    then alistSet (updNode t.nodes rid (fun n => { n with parent := some c })) c { nc with left := some rid }
                    else alistSet (updNode t.nodes rid (fun n => { n with parent := some c })) c { nc with right := some rid }) := by
                  by_cases hb : (nc.left == none) = true
                  · rw [if_pos hb, if_pos hb]
                  · rw [if_neg hb, if_neg hb]
                have hT4root : (if (nc.left == none) = true
                    then ({ t with nodes := alistSet (updNode t.nodes rid (fun n => { n with parent := some c })) c { nc with left := some rid } } : BTree)
                    else ({ t with nodes := alistSet (updNode t.nodes rid (fun n => { n with parent := some c })) c { nc with right := some rid } } : BTree)).root = t.root := by
                  by_cases hb : (nc.left == none) = true
                  · rw [if_pos hb]
                  · rw [if_neg hb]
                have hgcup : (alistGet (updNode t.nodes rid
                    (fun n => { n with parent := some c })) c).isSome = true := by
                  rw [hgc3]
                  rfl
                have hm4f : ∀ x, x ∉ (STree.node lid ll lr).ids →
                    x ∉ (STree.node rid rl rr).ids →
                    alistGet (if (nc.left == none) = true
                    then alistSet (updNode t.nodes rid (fun n => { n with parent := some c })) c { nc with left := some rid }
                    else alistSet (updNode t.nodes rid (fun n => { n with parent := some c })) c { nc with right := some rid }) x = alistGet t.nodes x := by
                  intro x hxL hxR
                  have hxc : c ≠ x := fun he => hxL (he ▸ hcL)
                  have hxrid : rid ≠ x :=
                    fun he => hxR (he ▸ mem_ids_node.mpr (Or.inl rfl))
                  by_cases hb : (nc.left == none) = true
                  · rw [if_pos hb, alistGet_alistSet, if_neg hxc,
                      alistGet_updNode_ne t.nodes rid _ x hxrid]
                  · rw [if_neg hb, alistGet_alistSet, if_neg hxc,
                      alistGet_updNode_ne t.nodes rid _ x hxrid]
                have hm4s : ∀ x, (alistGet (if (nc.left == none) = true
                    then alistSet (updNode t.nodes rid (fun n => { n with parent := some c })) c { nc with left := some rid }
                    else alistSet (updNode t.nodes rid (fun n => { n with parent := some c })) c { nc with right := some rid }) x).isSome =
                    (alistGet t.nodes x).isSome := by
                  intro x
                  by_cases hb : (nc.left == none) = true
                  · rw [if_pos hb, isSome_set_of_present _ _ _ _ hgcup,
                      isSome_updNode]
                  · rw [if_neg hb, isSome_set_of_present _ _ _ _ hgcup,
                      isSome_updNode]
                have hm4k : ((if (nc.left == none) = true
                    then alistSet (updNode t.nodes rid (fun n => { n with parent := some c })) c { nc with left := some rid }
                    else alistSet (updNode t.nodes rid (fun n => { n with parent := some c })) c { nc with right := some rid }).map Prod.fst).Nodup := by
                  by_cases hb : (nc.left == none) = true
                  · rw [if_pos hb, alistSet_keys_of_get _ _ _ _ hgc3, updNode_keys]
                    exact hknd
                  · rw [if_neg hb, alistSet_keys_of_get _ _ _ _ hgc3, updNode_keys]
                    exact hknd
                cases hrel : removeRelink (if (nc.left == none) = true
                    then ({ t with nodes := alistSet (updNode t.nodes rid (fun n => { n with parent := some c })) c { nc with left := some rid } } : BTree)
                    else ({ t with nodes := alistSet (updNode t.nodes rid (fun n => { n with parent := some c })) c { nc with right := some rid } } : BTree)) pid (some lid) with
                | mk t7 res7 =>
                  obtain ⟨hres7, hg7, hWF7⟩ := relink_WF hA hnd hroot hiff hg0 hsb
                    hT4root (by rw [hT4n]; exact hm4f) (by rw [hT4n]; exact hm4s)
                    (by rw [hT4n]; exact hm4k)
                    (by rw [rootId_spliceSpine]; rfl)
                    (by rw [hT4n]; exact hA4) hnd4 hids4 t7 res7 hrel
                  rw [hrel, hres7] at h
                  dsimp only at h
                  rw [hg7] at h
                  dsimp only at h
                  injection h with h1 h2
                  rw [← h1]
                  exact hWF7

theorem squash_ok {α : Type} {p : BTree × Except Err α} {t1 : BTree}
    (h : squash p = (t1, .ok ())) : ∃ v, p = (t1, .ok v) := by
  obtain ⟨tx, rx⟩ := p
  cases rx with
  | error e =>
    have he : squash ((tx, Except.error e) : BTree × Except Err α) =
        ((tx, Except.error e) : BTree × Except Err Unit) := rfl
    rw [he] at h
    injection h with h1 h2
    exact Except.noConfusion h2
  | ok v =>
    have he : squash (tx, Except.ok v) = (tx, Except.ok ()) := rfl
    rw [he] at h
    injection h with h1 h2
    exact ⟨v, by rw [h1]⟩

/-- Any successful public operation preserves well-formedness. -/
theorem WF_applyOp {t t1 : BTree} {op : TreeOp}
    (hWF : WF t) (h : applyOp t op = (t1, .ok ())) : WF t1 := by
  cases op with
  | insNode fuel n =>
    obtain ⟨v, hv⟩ := squash_ok h
    cases n with
    | none => exact absurd hv (by simp [BTree.insert_by_node])
    | some nn => exact WF_insert hWF hv
  | insPeer fuel pid =>
    obtain ⟨v, hv⟩ := squash_ok h
    exact WF_insertPeer hWF hv
  | remPeer fuel pid =>
    obtain ⟨v, hv⟩ := squash_ok h
    exact WF_remove hWF hv

/-- Well-formedness is preserved along any successful operation sequence. -/
theorem WF_applySeq : ∀ (ops : List TreeOp) (t t' : BTree),
    WF t → applySeq ops t = .ok t' → WF t' := by
  intro ops
  induction ops with
  | nil =>
    intro t t' hWF h
    rw [applySeq] at h
    injection h with h
    rw [← h]
    exact hWF
  | cons op rest ih =>
    intro t t' hWF h
    rw [applySeq] at h
    cases hop : applyOp t op with
    | mk ta ra =>
      rw [hop] at h
      cases ra with
      | error e => exact absurd h (by simp)
      | ok u =>
        exact ih ta t' (WF_applyOp hWF (by rw [hop])) h

/-- C1: for every sequence of successful insert and remove operations on a
`Tree` (starting from `BTree.__init__`), the structural invariant holds
afterwards: the key set of the `nodes` mapping equals exactly the set of
peer ids reachable from the root, every reachable node other than the root
has a parent whose `left` or `right` link equals that node, and the root's
parent is empty. -/
theorem C1_tree_invariant (vid : String) (root : Option BTreeNode) (fresh : Nat)
    (ops : List TreeOp) (t' : BTree)
    (h : applySeq ops (BTree.init vid root fresh) = .ok t') :
    TreeInv t' :=
  WF_TreeInv
    (WF_applySeq ops (BTree.init vid root fresh) t' (WF_init vid root fresh) h)

/-- Witness: inserting peer 7 into a fresh tree (fake root 4) and removing
it again succeeds, and the claimed invariant holds of the result. -/
theorem C1_tree_invariant_witness :
    applySeq [TreeOp.insPeer 10 7, TreeOp.remPeer 10 7] (BTree.init "v" none 0) =
      .ok ⟨"v", some 4, [(4, ⟨4, some "0", some "1", some "2", some "3",
        none, none, none, some "OK", true⟩)]⟩ ∧
    TreeInv ⟨"v", some 4, [(4, ⟨4, some "0", some "1", some "2", some "3",
      none, none, none, some "OK", true⟩)]⟩ :=
  ⟨rfl, C1_tree_invariant "v" none 0
    [TreeOp.insPeer 10 7, TreeOp.remPeer 10 7] _ rfl⟩

end Volt
